import Mathlib

/-!
StatsLib scalar evaluators and container overloads: a shallow embedding.

The C++ sources under `include/dens`, `include/prob` and `include/quant` are templates over a
working floating-point type `T`.  The embedding keeps the shape of every function (the ordered
ternary guard chain, the arithmetic expression of each formula) and replaces `T` by `Val F`:
the values of an ordered field `F` together with the three IEEE-754 special values NaN,
-infinity and +infinity.

The sources are embedded twice.

* The exact embedding (`stats.dgamma`, `stats.pf`, ...): finite arithmetic is exact, with no
  rounding, no overflow and no underflow.  It carries the statements that unfold the guard
  chain and the identities between real formulas.
* The embedding with rounding (`stats.machine.dgamma`, `stats.machine.pf`, ...): every
  arithmetic operation delivers its exact result through a rounding function `rnd` of the
  working type, the container overloads convert each result to the element type of the
  output, and the Blaze overloads track the size of the storage.  It carries the statements
  about order, range and exact values, which rounding can break.  `rnd64` is IEEE-754
  binary64; with `rnd = fin` the embedding with rounding is the exact one.

Common to both:
* there is no signed zero: a zero divisor is treated as `+0`;
* the casts of the `*_type_check` layer are the identity (every argument is already of the
  working type).

Everything the sources use but do not define (the `stmath` / `gcem` math kernel, the numeric
constants, `dnorm`) is collected in the structure `Env` and passed as a parameter.
-/

namespace stats

/-- The working type `T`: a finite value of `F`, or one of the IEEE special values. -/
inductive Val (F : Type) where
  | nan : Val F
  | ninf : Val F
  | pinf : Val F
  | fin (r : F) : Val F
  deriving DecidableEq, Repr

namespace Val

variable {F : Type} [LinearOrderedField F]

/-- Unary minus of the working type. -/
def neg : Val F → Val F
  | nan => nan
  | ninf => pinf
  | pinf => ninf
  | fin a => fin (-a)

/-- IEEE addition: NaN is absorbing, `+inf + -inf` is NaN. -/
def add : Val F → Val F → Val F
  | nan, _ => nan
  | _, nan => nan
  | pinf, ninf => nan
  | ninf, pinf => nan
  | pinf, _ => pinf
  | _, pinf => pinf
  | ninf, _ => ninf
  | _, ninf => ninf
  | fin a, fin b => fin (a + b)

/-- IEEE subtraction, `a - b = a + (-b)`. -/
def sub (a b : Val F) : Val F := add a (neg b)

/-- The infinity whose sign is the sign of a finite factor; NaN for a zero factor. -/
def infTimes (positive : Bool) (a : F) : Val F :=
  if a = 0 then nan
  else if (0 < a) = positive then pinf else ninf

/-- IEEE multiplication: NaN is absorbing, `0 * inf` is NaN. -/
def mul : Val F → Val F → Val F
  | nan, _ => nan
  | _, nan => nan
  | pinf, pinf => pinf
  | pinf, ninf => ninf
  | ninf, pinf => ninf
  | ninf, ninf => pinf
  | pinf, fin b => infTimes true b
  | ninf, fin b => infTimes false b
  | fin a, pinf => infTimes true a
  | fin a, ninf => infTimes false a
  | fin a, fin b => fin (a * b)

/-- IEEE division: NaN is absorbing, `inf / inf` and `0 / 0` are NaN, a finite value over an
infinity is `0`, a non-zero value over zero is the infinity of the sign of the numerator
(the zero divisor is `+0`). -/
def div : Val F → Val F → Val F
  | nan, _ => nan
  | _, nan => nan
  | pinf, pinf => nan
  | pinf, ninf => nan
  | ninf, pinf => nan
  | ninf, ninf => nan
  | pinf, fin b => if 0 ≤ b then pinf else ninf
  | ninf, fin b => if 0 ≤ b then ninf else pinf
  | fin _, pinf => fin 0
  | fin _, ninf => fin 0
  | fin a, fin b => if b = 0 then infTimes true a else fin (a / b)

instance : Neg (Val F) := ⟨neg⟩
instance : Add (Val F) := ⟨add⟩
instance : Sub (Val F) := ⟨sub⟩
instance : Mul (Val F) := ⟨mul⟩
instance : Div (Val F) := ⟨div⟩

/-- The comparison `a < b` of the working type; false as soon as one side is NaN. -/
def lt : Val F → Val F → Bool
  | nan, _ => false
  | _, nan => false
  | pinf, _ => false
  | _, ninf => false
  | ninf, _ => true
  | _, pinf => true
  | fin a, fin b => decide (a < b)

/-- The comparison `a == b` of the working type; false as soon as one side is NaN. -/
def feq : Val F → Val F → Bool
  | ninf, ninf => true
  | pinf, pinf => true
  | fin a, fin b => decide (a = b)
  | _, _ => false

/-- The comparison `a <= b`. -/
def le (a b : Val F) : Bool := lt a b || feq a b

/-- The comparison `a > b`. -/
def gt (a b : Val F) : Bool := lt b a

/-- The comparison `a >= b`. -/
def ge (a b : Val F) : Bool := le b a

/-- Neither NaN nor an infinity. -/
def isFinite : Val F → Bool
  | fin _ => true
  | _ => false

end Val

open Val

/-- What the sources use without defining it: the limits of the working type, the numeric
constants of the math library, the math kernel, and the normal density. -/
structure Env (F : Type) where
  /-- Stands for `STLIM<T>::epsilon()`. -/
  epsilon : F
  /-- Stands for `GCEM_PI`. -/
  GCEM_PI : F
  /-- Stands for `GCEM_LOG_2`. -/
  GCEM_LOG_2 : F
  /-- Stands for `GCEM_LOG_PI`. -/
  GCEM_LOG_PI : F
  /-- Stands for `stmath::log`. -/
  log : Val F → Val F
  /-- Stands for `stmath::exp`. -/
  exp : Val F → Val F
  /-- Stands for `stmath::lgamma`. -/
  lgamma : Val F → Val F
  /-- Stands for `stmath::atan`. -/
  atan : Val F → Val F
  /-- Stands for `gcem::incomplete_beta(a, b, z)`. -/
  incomplete_beta : Val F → Val F → Val F → Val F
  /-- Stands for `gcem::incomplete_gamma_inv(a, p)`. -/
  incomplete_gamma_inv : Val F → Val F → Val F
  /-- Stands for `dnorm(x, mu, sigma, log_form)`. -/
  dnorm : Val F → Val F → Val F → Bool → Val F

variable {F : Type} [LinearOrderedField F]

namespace internal

/-! ### Helpers of the repository that are not among the sources -/

/-- Modelled from the spec: `log_if` (its source file is absent).  Section 4.3: log_form is a
pure output transform applied as the last step; the value is logged only if requested. -/
def log_if (K : Env F) (x : Val F) (log_form : Bool) : Val F :=
  if log_form then K.log x else x

/-- Modelled from the spec: `exp_if` (its source file is absent).  Section 4.3,
log-domain-first: the log value is exponentiated only if the flag asks for it. -/
def exp_if (K : Env F) (x : Val F) (exp_form : Bool) : Val F :=
  if exp_form then K.exp x else x

/-- Modelled from the spec: `cauchy_sanity_check` (absent).  Section 4.2: scale > 0; the
location may be any finite real, a non-finite location is invalid. -/
def cauchy_sanity_check (mu_par sigma_par : Val F) : Bool :=
  isFinite mu_par && gt sigma_par (fin 0)

/-- Modelled from the spec: `chisq_sanity_check` (absent).  Section 4.2: degrees of
freedom > 0. -/
def chisq_sanity_check (dof_par : Val F) : Bool :=
  gt dof_par (fin 0)

/-- Modelled from the spec: `gamma_sanity_check` (absent).  Section 4.2: shape >= 0 and
scale > 0. -/
def gamma_sanity_check (shape_par scale_par : Val F) : Bool :=
  ge shape_par (fin 0) && gt scale_par (fin 0)

/-- Modelled from the spec: `lnorm_sanity_check` (absent).  Section 4.2: sigma > 0. -/
def lnorm_sanity_check (_mu_par sigma_par : Val F) : Bool :=
  gt sigma_par (fin 0)

/-- Modelled from the spec: `t_sanity_check` (absent).  Section 4.2: degrees of freedom > 0,
and +infinity is allowed. -/
def t_sanity_check (dof_par : Val F) : Bool :=
  gt dof_par (fin 0)

/-- Modelled from the spec: `f_sanity_check` (absent).  Section 4.2: df1 > 0 and df2 > 0. -/
def f_sanity_check (df1_par df2_par : Val F) : Bool :=
  gt df1_par (fin 0) && gt df2_par (fin 0)

/-- Modelled from the spec: `bern_sanity_check` (absent).  Sections 4.2 and 8: the
probability parameter lies in the closed interval [0,1]. -/
def bern_sanity_check (prob_par : Val F) : Bool :=
  ge prob_par (fin 0) && le prob_par (fin 1)

/-- Modelled from the spec: `logis_sanity_check` (absent).  Section 4.2: the scale lies in
its natural domain, sigma > 0. -/
def logis_sanity_check (_mu_par sigma_par : Val F) : Bool :=
  gt sigma_par (fin 0)

/-! ### dens/dgamma.ipp -/

/-- Source function `dgamma_log_compute`. -/
def dgamma_log_compute (K : Env F) (x shape_par scale_par : Val F) : Val F :=
  - K.lgamma shape_par - shape_par * K.log scale_par
    + (shape_par - fin 1) * K.log x - x / scale_par

/-- Source function `dgamma_limit_vals`. -/
def dgamma_limit_vals (x shape_par scale_par : Val F) : Val F :=
  if feq shape_par (fin 0) then
    (if feq x (fin 0) then pinf else fin 0)
  else if lt shape_par (fin 1) then pinf
  else if feq shape_par (fin 1) then fin 1 / scale_par
  else fin 0

/-- Source function `dgamma_vals_check`. -/
def dgamma_vals_check (K : Env F) (x shape_par scale_par : Val F) (log_form : Bool) : Val F :=
  if !gamma_sanity_check shape_par scale_par then nan
  else if lt x (fin 0) then log_if K (fin 0) log_form
  else if feq x (fin 0) || feq shape_par (fin 0) then
    log_if K (dgamma_limit_vals x shape_par scale_par) log_form
  else exp_if K (dgamma_log_compute K x shape_par scale_par) (!log_form)

/-- Source function `dgamma_type_check`; the casts to the common type are the identity. -/
def dgamma_type_check (K : Env F) (x shape_par scale_par : Val F) (log_form : Bool) : Val F :=
  dgamma_vals_check K x shape_par scale_par log_form

/-! ### dens/dchisq.ipp -/

/-- Source function `dchisq_compute`. -/
def dchisq_compute (K : Env F) (x dof_par : Val F) : Val F :=
  - K.lgamma (fin (1/2) * dof_par) - fin (1/2) * dof_par * fin K.GCEM_LOG_2
    + (fin (1/2) * dof_par - fin 1) * K.log x - x / fin 2

/-- Source function `dchisq_limit_vals`. -/
def dchisq_limit_vals (_x dof_par : Val F) : Val F :=
  if lt dof_par (fin 2) then pinf
  else if feq dof_par (fin 2) then fin (1/2)
  else fin 0

/-- Source function `dchisq_vals_check`. -/
def dchisq_vals_check (K : Env F) (x dof_par : Val F) (log_form : Bool) : Val F :=
  if !chisq_sanity_check dof_par then nan
  else if lt x (fin 0) then log_if K (fin 0) log_form
  else if feq x (fin 0) then log_if K (dchisq_limit_vals x dof_par) log_form
  else exp_if K (dchisq_compute K x dof_par) (!log_form)

/-- Source function `dchisq_type_check`; the casts to the common type are the identity. -/
def dchisq_type_check (K : Env F) (x dof_par : Val F) (log_form : Bool) : Val F :=
  dchisq_vals_check K x dof_par log_form

/-! ### dens/dt.ipp -/

/-- Source function `dt_log_mult_term`. -/
def dt_log_mult_term (K : Env F) (z dof_par : Val F) : Val F :=
  (- (dof_par / fin 2 + fin (1/2))) * K.log (fin 1 + (z / dof_par) * z)

/-- Source function `dt_log_cons_term`. -/
def dt_log_cons_term (K : Env F) (_z dof_par : Val F) : Val F :=
  K.lgamma (dof_par / fin 2 + fin (1/2))
    - fin (1/2) * (K.log dof_par + fin K.GCEM_LOG_PI)
    - K.lgamma (dof_par / fin 2)

/-- Source function `dt_log_compute`. -/
def dt_log_compute (K : Env F) (z dof_par : Val F) : Val F :=
  dt_log_cons_term K z dof_par + dt_log_mult_term K z dof_par

/-- Source function `dt_vals_check`. -/
def dt_vals_check (K : Env F) (x dof_par : Val F) (log_form : Bool) : Val F :=
  if !t_sanity_check dof_par then nan
  else if feq dof_par pinf then K.dnorm x (fin 0) (fin 1) log_form
  else exp_if K (dt_log_compute K x dof_par) (!log_form)

/-- Source function `dt_type_check`; the casts to the common type are the identity. -/
def dt_type_check (K : Env F) (x dof_par : Val F) (log_form : Bool) : Val F :=
  dt_vals_check K x dof_par log_form

/-! ### dens/dlnorm.ipp -/

/-- Source function `dlnorm_log_check`. -/
def dlnorm_log_check (K : Env F) (x mu_par sigma_par : Val F) (log_form : Bool) : Val F :=
  if log_form = true then K.dnorm (K.log x) mu_par sigma_par true - K.log x
  else K.dnorm (K.log x) mu_par sigma_par false / x

/-- Source function `dlnorm_vals_check`. -/
def dlnorm_vals_check (K : Env F) (x mu_par sigma_par : Val F) (log_form : Bool) : Val F :=
  if !lnorm_sanity_check mu_par sigma_par then nan
  else if gt (fin K.epsilon) x then log_if K (fin 0) log_form
  else dlnorm_log_check K x mu_par sigma_par log_form

/-- Source function `dlnorm_type_check`; the casts to the common type are the identity. -/
def dlnorm_type_check (K : Env F) (x mu_par sigma_par : Val F) (log_form : Bool) : Val F :=
  dlnorm_vals_check K x mu_par sigma_par log_form

/-! ### prob/pcauchy.ipp -/

/-- Source function `pcauchy_compute`. -/
def pcauchy_compute (K : Env F) (z : Val F) : Val F :=
  fin (1/2) + K.atan z / fin K.GCEM_PI

/-- Source function `pcauchy_vals_check`. -/
def pcauchy_vals_check (K : Env F) (x mu_par sigma_par : Val F) (log_form : Bool) : Val F :=
  if !cauchy_sanity_check mu_par sigma_par then nan
  else log_if K (pcauchy_compute K ((x - mu_par) / sigma_par)) log_form

/-- Source function `pcauchy_type_check`; the casts to the common type are the identity. -/
def pcauchy_type_check (K : Env F) (x mu_par sigma_par : Val F) (log_form : Bool) : Val F :=
  pcauchy_vals_check K x mu_par sigma_par log_form

/-! ### prob/pf.ipp -/

/-- Source function `pf_compute`. -/
def pf_compute (K : Env F) (x a_par b_par : Val F) : Val F :=
  K.incomplete_beta a_par b_par (x / (fin 1 + x))

/-- Source function `pf_vals_check`. -/
def pf_vals_check (K : Env F) (x df1_par df2_par : Val F) (log_form : Bool) : Val F :=
  if !f_sanity_check df1_par df2_par then nan
  else if gt (fin K.epsilon) x then log_if K (fin 0) log_form
  else log_if K (pf_compute K (df1_par * x / df2_par) (df1_par / fin 2) (df2_par / fin 2))
    log_form

/-- Source function `pf_type_check`; the casts to the common type are the identity. -/
def pf_type_check (K : Env F) (x df1_par df2_par : Val F) (log_form : Bool) : Val F :=
  pf_vals_check K x df1_par df2_par log_form

/-! ### quant/qbern.ipp -/

/-- Source function `qbern_compute`; the integer results `llint_t(1)` and `llint_t(0)` are
converted to the working type by the conditional operator. -/
def qbern_compute (p prob_par : Val F) : Val F :=
  if !bern_sanity_check prob_par then nan
  else if lt p (fin 0) || gt p (fin 1) then nan
  else if gt p (fin 1 - prob_par) then fin 1
  else fin 0

/-- Source function `qbern_type_check`; the casts to the common type are the identity. -/
def qbern_type_check (p prob_par : Val F) : Val F :=
  qbern_compute p prob_par

/-! ### quant/qgamma.ipp -/

/-- Source function `qgamma_compute`. -/
def qgamma_compute (K : Env F) (p shape_par scale_par : Val F) : Val F :=
  scale_par * K.incomplete_gamma_inv shape_par p

/-- Source function `qgamma_vals_check`. -/
def qgamma_vals_check (K : Env F) (p shape_par scale_par : Val F) : Val F :=
  if !gamma_sanity_check shape_par scale_par then nan
  else if lt p (fin 0) || gt p (fin 1) then nan
  else if feq p (fin 0) then fin 0
  else if feq p (fin 1) then pinf
  else qgamma_compute K p shape_par scale_par

/-- Source function `qgamma_type_check`; the casts to the common type are the identity. -/
def qgamma_type_check (K : Env F) (x shape_par scale_par : Val F) : Val F :=
  qgamma_vals_check K x shape_par scale_par

/-! ### quant/qlogis.ipp -/

/-- Source function `qlogis_compute`. -/
def qlogis_compute (K : Env F) (p mu_par sigma_par : Val F) : Val F :=
  mu_par + sigma_par * K.log (p / (fin 1 - p))

/-- Source function `qlogis_vals_check`. -/
def qlogis_vals_check (K : Env F) (p mu_par sigma_par : Val F) : Val F :=
  if !logis_sanity_check mu_par sigma_par then nan
  else if lt p (fin 0) || gt p (fin 1) then nan
  else if feq p (fin 0) then - pinf
  else if feq p (fin 1) then pinf
  else qlogis_compute K p mu_par sigma_par

/-- Source function `qlogis_type_check`; the casts to the common type are the identity. -/
def qlogis_type_check (K : Env F) (p mu_par sigma_par : Val F) : Val F :=
  qlogis_vals_check K p mu_par sigma_par

end internal

/-! ### The public scalar evaluators -/

/-- Public entry point `stats::dgamma`. -/
def dgamma (K : Env F) (x shape_par scale_par : Val F) (log_form : Bool) : Val F :=
  internal.dgamma_type_check K x shape_par scale_par log_form

/-- Public entry point `stats::dchisq`. -/
def dchisq (K : Env F) (x dof_par : Val F) (log_form : Bool) : Val F :=
  internal.dchisq_type_check K x dof_par log_form

/-- Public entry point `stats::dt`. -/
def dt (K : Env F) (x dof_par : Val F) (log_form : Bool) : Val F :=
  internal.dt_type_check K x dof_par log_form

/-- Public entry point `stats::dlnorm`. -/
def dlnorm (K : Env F) (x mu_par sigma_par : Val F) (log_form : Bool) : Val F :=
  internal.dlnorm_type_check K x mu_par sigma_par log_form

/-- Public entry point `stats::pcauchy`. -/
def pcauchy (K : Env F) (x mu_par sigma_par : Val F) (log_form : Bool) : Val F :=
  internal.pcauchy_type_check K x mu_par sigma_par log_form

/-- Public entry point `stats::pf`. -/
def pf (K : Env F) (x df1_par df2_par : Val F) (log_form : Bool) : Val F :=
  internal.pf_type_check K x df1_par df2_par log_form

/-- Public entry point `stats::qbern`. -/
def qbern (p prob_par : Val F) : Val F :=
  internal.qbern_type_check p prob_par

/-- Public entry point `stats::qgamma`. -/
def qgamma (K : Env F) (p shape_par scale_par : Val F) : Val F :=
  internal.qgamma_type_check K p shape_par scale_par

/-- Public entry point `stats::qlogis`. -/
def qlogis (K : Env F) (p mu_par sigma_par : Val F) : Val F :=
  internal.qlogis_type_check K p mu_par sigma_par

/-! ### A reference environment over the reals

The math kernel is an external collaborator (section 1 of the specification).  `refEnv` fixes
one exact instance of it over the real numbers, with the IEEE conventions at the special
values; it is used to state the analytic claims and to instantiate the general theorems. -/

/-- Modelled from the spec: the natural logarithm of the kernel, with `log(0) = -infinity` and
`log(infinity) = infinity` (section 4.3); NaN outside the domain. -/
noncomputable def refLog : Val ℝ → Val ℝ
  | nan => nan
  | ninf => nan
  | pinf => pinf
  | fin r => if 0 < r then fin (Real.log r) else if r = 0 then ninf else nan

/-- Modelled from the spec: the exponential of the kernel. -/
noncomputable def refExp : Val ℝ → Val ℝ
  | nan => nan
  | ninf => fin 0
  | pinf => pinf
  | fin r => fin (Real.exp r)

/-- Modelled from the spec: log-gamma, the natural log of the Gamma function on the positive
reals; +infinity at the pole 0 and at +infinity, NaN elsewhere. -/
noncomputable def refLgamma : Val ℝ → Val ℝ
  | nan => nan
  | ninf => nan
  | pinf => pinf
  | fin r => if 0 < r then fin (Real.log (Real.Gamma r)) else if r = 0 then pinf else nan

/-- Modelled from the spec: the arctangent of the kernel, with limits at the infinities. -/
noncomputable def refAtan : Val ℝ → Val ℝ
  | nan => nan
  | ninf => fin (-(Real.pi / 2))
  | pinf => fin (Real.pi / 2)
  | fin r => fin (Real.arctan r)

/-- The integrand of the beta integral. -/
noncomputable def betaIntegrand (a b t : ℝ) : ℝ :=
  t ^ (a - 1) * (1 - t) ^ (b - 1)

/-- Modelled from the spec: the regularized incomplete beta function, defined for positive
finite parameters and an argument in [0,1]; NaN everywhere else. -/
noncomputable def refIncompleteBeta : Val ℝ → Val ℝ → Val ℝ → Val ℝ
  | fin a, fin b, fin z =>
    if 0 < a ∧ 0 < b ∧ 0 ≤ z ∧ z ≤ 1 then
      fin (intervalIntegral (betaIntegrand a b) 0 z MeasureTheory.volume
        / intervalIntegral (betaIntegrand a b) 0 1 MeasureTheory.volume)
    else nan
  | _, _, _ => nan

/-- The regularized lower incomplete gamma function `P(a, x)`. -/
noncomputable def regIncompleteGamma (a x : ℝ) : ℝ :=
  intervalIntegral (fun t => t ^ (a - 1) * Real.exp (-t)) 0 x MeasureTheory.volume
    / Real.Gamma a

/-- Modelled from the spec: the inverse of the regularized incomplete gamma function in its
second argument, defined for a positive finite shape and a probability in [0,1]; NaN
everywhere else. -/
noncomputable def refIncompleteGammaInv : Val ℝ → Val ℝ → Val ℝ
  | fin a, fin p =>
    if 0 < a ∧ 0 < p ∧ p < 1 then fin (sInf {x : ℝ | 0 ≤ x ∧ p ≤ regIncompleteGamma a x})
    else if 0 < a ∧ p = 0 then fin 0
    else if 0 < a ∧ p = 1 then pinf
    else nan
  | _, _ => nan

/-- Modelled from the spec: the normal density `dnorm` (its source file is absent), for a
finite mean and a finite positive standard deviation; the log form is the log of the natural
form. -/
noncomputable def refDnorm : Val ℝ → Val ℝ → Val ℝ → Bool → Val ℝ
  | fin x, fin mu, fin sigma, log_form =>
    if 0 < sigma then
      (if log_form then
        fin (- Real.log sigma - Real.log (2 * Real.pi) / 2 - ((x - mu) / sigma) ^ 2 / 2)
      else
        fin (Real.exp (- (((x - mu) / sigma) ^ 2 / 2)) / (sigma * Real.sqrt (2 * Real.pi))))
    else nan
  | pinf, fin _, fin sigma, log_form =>
    if 0 < sigma then (if log_form then ninf else fin 0) else nan
  | ninf, fin _, fin sigma, log_form =>
    if 0 < sigma then (if log_form then ninf else fin 0) else nan
  | _, _, _, _ => nan

/-- The reference environment: double-precision machine epsilon, exact constants, and the
exact math kernel above. -/
noncomputable def refEnv : Env ℝ where
  epsilon := 1 / 2 ^ 52
  GCEM_PI := Real.pi
  GCEM_LOG_2 := Real.log 2
  GCEM_LOG_PI := Real.log Real.pi
  log := refLog
  exp := refExp
  lgamma := refLgamma
  atan := refAtan
  incomplete_beta := refIncompleteBeta
  incomplete_gamma_inv := refIncompleteGammaInv
  dnorm := refDnorm

/-! ### The broadcasting layer

A raw buffer (`memptr()`, `data()`, the pointer arguments of the `*_vec` functions) is a map
from flat offsets to elements; a function that writes into a buffer returns the updated
buffer.  The container types are external: the embedding keeps what the sources read from
them (shape queries, the raw buffer) and takes as parameters what their constructors decide
(the contents of freshly allocated storage, the padding of a Blaze matrix). -/

/-- Stands for `ArmaMat<eT>` (external): the shape and the buffer returned by `memptr()`. -/
structure ArmaMat (F : Type) where
  /-- The member `n_rows`. -/
  n_rows : Nat
  /-- The member `n_cols`. -/
  n_cols : Nat
  /-- The buffer returned by `memptr()`. -/
  memptr : Nat → Val F

/-- The member `n_elem` of an Armadillo matrix, always `n_rows * n_cols`. -/
def ArmaMat.n_elem (X : ArmaMat F) : Nat := X.n_rows * X.n_cols

/-- Stands for `ArmaGen<mT,tT>` (external): an expression whose `eval()` is a matrix. -/
structure ArmaGen (F : Type) where
  /-- The result of `eval()`. -/
  eval : ArmaMat F

/-- Stands for `EigMat<eT,iTr,iTc>` (external): the shape and the buffer returned by
`data()`. -/
structure EigMat (F : Type) where
  /-- The result of `rows()`. -/
  rows : Nat
  /-- The result of `cols()`. -/
  cols : Nat
  /-- The buffer returned by `data()`. -/
  data : Nat → Val F

/-- The result of `size()` of an Eigen matrix, `rows() * cols()`. -/
def EigMat.size (X : EigMat F) : Nat := X.rows * X.cols

/-- Stands for `BlazeMat<eT,To>` (external): the storage-order flag `To` (true for
`blaze::columnMajor`, false for `blaze::rowMajor`), the shape, the spacing between two
consecutive rows (row-major) or columns (column-major) of the padded storage, and the buffer
returned by `data()`. -/
structure BlazeMat (F : Type) where
  /-- The template flag `To`. -/
  To : Bool
  /-- The result of `rows()`. -/
  rows : Nat
  /-- The result of `columns()`. -/
  columns : Nat
  /-- The result of `spacing()`. -/
  spacing : Nat
  /-- The buffer returned by `data()`. -/
  data : Nat → Val F

/-- The constructor `BlazeMat<eT,To>(m, n)`: the padded extent `pad` of the contiguous
dimension (columns when row-major, rows when column-major) becomes the spacing. -/
def BlazeMat.sized (To : Bool) (m n : Nat) (pad : Nat → Nat) (uninit : Nat → Val F) :
    BlazeMat F :=
  BlazeMat.mk To m n (pad (if To then m else n)) uninit

/-- Stands for the element access `X(i, j)` of a Blaze matrix (external): the element in row
`i` and column `j` is stored at offset `i * spacing + j` of the buffer of a row-major matrix
and at offset `i + j * spacing` of the buffer of a column-major matrix. -/
def BlazeMat.elem (X : BlazeMat F) (i j : Nat) : Val F :=
  X.data (if X.To then i + j * X.spacing else i * X.spacing + j)

namespace internal

/-- Modelled from the spec: the per-element loop of sections 4.4 and 5.  Starting at offset
`j`, `count` more elements are processed in order, each result stored into the output buffer
at the offset of its input. -/
def eval_loop (fn : Val F → Val F) (vals_in : Nat → Val F) :
    Nat → Nat → (Nat → Val F) → (Nat → Val F)
  | _, 0, vals_out => vals_out
  | j, count + 1, vals_out =>
    eval_loop fn vals_in (j + 1) count (Function.update vals_out j (fn (vals_in j)))

/-- Modelled from the spec: the macro `EVAL_DIST_FN_VEC` (absent from the sources).  Section
4.4: for an input buffer of N elements, output[i] = f(input[i], params, log_flag) for every
i, independently, written into the pre-sized output buffer; section 5 names it the
per-element loop.  The scalar evaluator with its broadcast parameters is `fn`. -/
def EVAL_DIST_FN_VEC (fn : Val F → Val F) (vals_in vals_out : Nat → Val F)
    (num_elem : Nat) : Nat → Val F :=
  eval_loop fn vals_in 0 num_elem vals_out

/-- Source function `dgamma_vec` of `dens/dgamma.ipp`: the macro applied to `dgamma`. -/
def dgamma_vec (K : Env F) (vals_in : Nat → Val F) (shape_par scale_par : Val F) (log_form : Bool)
    (vals_out : Nat → Val F) (num_elem : Nat) :
    Nat → Val F :=
  EVAL_DIST_FN_VEC (fun x => dgamma K x shape_par scale_par log_form) vals_in vals_out num_elem

/-- Source function `dchisq_vec` of `dens/dchisq.ipp`: the macro applied to `dchisq`. -/
def dchisq_vec (K : Env F) (vals_in : Nat → Val F) (dof_par : Val F) (log_form : Bool)
    (vals_out : Nat → Val F) (num_elem : Nat) :
    Nat → Val F :=
  EVAL_DIST_FN_VEC (fun x => dchisq K x dof_par log_form) vals_in vals_out num_elem

/-- Source function `dt_vec` of `dens/dt.ipp`: the macro applied to `dt`. -/
def dt_vec (K : Env F) (vals_in : Nat → Val F) (dof_par : Val F) (log_form : Bool)
    (vals_out : Nat → Val F) (num_elem : Nat) :
    Nat → Val F :=
  EVAL_DIST_FN_VEC (fun x => dt K x dof_par log_form) vals_in vals_out num_elem

/-- Source function `dlnorm_vec` of `dens/dlnorm.ipp`: the macro applied to `dlnorm`. -/
def dlnorm_vec (K : Env F) (vals_in : Nat → Val F) (mu_par sigma_par : Val F) (log_form : Bool)
    (vals_out : Nat → Val F) (num_elem : Nat) :
    Nat → Val F :=
  EVAL_DIST_FN_VEC (fun x => dlnorm K x mu_par sigma_par log_form) vals_in vals_out num_elem

/-- Source function `pcauchy_vec` of `prob/pcauchy.ipp`: the macro applied to `pcauchy`. -/
def pcauchy_vec (K : Env F) (vals_in : Nat → Val F) (mu_par sigma_par : Val F) (log_form : Bool)
    (vals_out : Nat → Val F) (num_elem : Nat) :
    Nat → Val F :=
  EVAL_DIST_FN_VEC (fun x => pcauchy K x mu_par sigma_par log_form) vals_in vals_out num_elem

/-- Source function `pf_vec` of `prob/pf.ipp`: the macro applied to `pf`. -/
def pf_vec (K : Env F) (vals_in : Nat → Val F) (df1_par df2_par : Val F) (log_form : Bool)
    (vals_out : Nat → Val F) (num_elem : Nat) :
    Nat → Val F :=
  EVAL_DIST_FN_VEC (fun x => pf K x df1_par df2_par log_form) vals_in vals_out num_elem

/-- Source function `qbern_vec` of `quant/qbern.ipp`: the macro applied to `qbern`. -/
def qbern_vec (vals_in : Nat → Val F) (prob_par : Val F)
    (vals_out : Nat → Val F) (num_elem : Nat) :
    Nat → Val F :=
  EVAL_DIST_FN_VEC (fun x => qbern x prob_par) vals_in vals_out num_elem

/-- Source function `qgamma_vec` of `quant/qgamma.ipp`: the macro applied to `qgamma`. -/
def qgamma_vec (K : Env F) (vals_in : Nat → Val F) (shape_par scale_par : Val F)
    (vals_out : Nat → Val F) (num_elem : Nat) :
    Nat → Val F :=
  EVAL_DIST_FN_VEC (fun x => qgamma K x shape_par scale_par) vals_in vals_out num_elem

/-- Source function `qlogis_vec` of `quant/qlogis.ipp`: the macro applied to `qlogis`. -/
def qlogis_vec (K : Env F) (vals_in : Nat → Val F) (mu_par sigma_par : Val F)
    (vals_out : Nat → Val F) (num_elem : Nat) :
    Nat → Val F :=
  EVAL_DIST_FN_VEC (fun x => qlogis K x mu_par sigma_par) vals_in vals_out num_elem

end internal

/-! #### Container overloads of `dgamma` (dens/dgamma.ipp) -/

/-- Overload `dgamma(const ArmaMat<Ta>& X, ...)`. -/
def dgamma_ArmaMat (K : Env F) (X : ArmaMat F) (shape_par scale_par : Val F) (log_form : Bool)
    (uninit : Nat → Val F) : ArmaMat F :=
  let mat_out : ArmaMat F := ArmaMat.mk X.n_rows X.n_cols uninit
  { mat_out with
    memptr := internal.dgamma_vec K X.memptr shape_par scale_par log_form
      mat_out.memptr mat_out.n_elem }

/-- Overload `dgamma(const ArmaGen<mT,tT>& X, ...)`. -/
def dgamma_ArmaGen (K : Env F) (X : ArmaGen F) (shape_par scale_par : Val F) (log_form : Bool)
    (uninit : Nat → Val F) : ArmaMat F :=
  dgamma_ArmaMat K X.eval shape_par scale_par log_form uninit

/-- Overload `dgamma(const BlazeMat<Ta,To>& X, ...)`. -/
def dgamma_BlazeMat (K : Env F) (X : BlazeMat F) (shape_par scale_par : Val F) (log_form : Bool)
    (pad : Nat → Nat) (uninit : Nat → Val F) : BlazeMat F :=
  let mat_out : BlazeMat F := BlazeMat.sized X.To X.rows X.columns pad uninit
  { mat_out with
    data := internal.dgamma_vec K X.data shape_par scale_par log_form
      mat_out.data (X.rows * X.spacing) }

/-- Overload `dgamma(const EigMat<Ta,iTr,iTc>& X, ...)`. -/
def dgamma_EigMat (K : Env F) (X : EigMat F) (shape_par scale_par : Val F) (log_form : Bool)
    (uninit : Nat → Val F) : EigMat F :=
  let mat_out : EigMat F := EigMat.mk X.rows X.cols uninit
  { mat_out with
    data := internal.dgamma_vec K X.data shape_par scale_par log_form
      mat_out.data mat_out.size }

/-! #### Container overloads of `dchisq` (dens/dchisq.ipp) -/

/-- Overload `dchisq(const ArmaMat<Ta>& X, ...)`. -/
def dchisq_ArmaMat (K : Env F) (X : ArmaMat F) (dof_par : Val F) (log_form : Bool)
    (uninit : Nat → Val F) : ArmaMat F :=
  let mat_out : ArmaMat F := ArmaMat.mk X.n_rows X.n_cols uninit
  { mat_out with
    memptr := internal.dchisq_vec K X.memptr dof_par log_form
      mat_out.memptr mat_out.n_elem }

/-- Overload `dchisq(const ArmaGen<mT,tT>& X, ...)`. -/
def dchisq_ArmaGen (K : Env F) (X : ArmaGen F) (dof_par : Val F) (log_form : Bool)
    (uninit : Nat → Val F) : ArmaMat F :=
  dchisq_ArmaMat K X.eval dof_par log_form uninit

/-- Overload `dchisq(const BlazeMat<Ta,To>& X, ...)`. -/
def dchisq_BlazeMat (K : Env F) (X : BlazeMat F) (dof_par : Val F) (log_form : Bool)
    (pad : Nat → Nat) (uninit : Nat → Val F) : BlazeMat F :=
  let mat_out : BlazeMat F := BlazeMat.sized X.To X.rows X.columns pad uninit
  { mat_out with
    data := internal.dchisq_vec K X.data dof_par log_form
      mat_out.data (X.rows * X.spacing) }

/-- Overload `dchisq(const EigMat<Ta,iTr,iTc>& X, ...)`. -/
def dchisq_EigMat (K : Env F) (X : EigMat F) (dof_par : Val F) (log_form : Bool)
    (uninit : Nat → Val F) : EigMat F :=
  let mat_out : EigMat F := EigMat.mk X.rows X.cols uninit
  { mat_out with
    data := internal.dchisq_vec K X.data dof_par log_form
      mat_out.data mat_out.size }

/-! #### Container overloads of `dt` (dens/dt.ipp) -/

/-- Overload `dt(const ArmaMat<Ta>& X, ...)`. -/
def dt_ArmaMat (K : Env F) (X : ArmaMat F) (dof_par : Val F) (log_form : Bool)
    (uninit : Nat → Val F) : ArmaMat F :=
  let mat_out : ArmaMat F := ArmaMat.mk X.n_rows X.n_cols uninit
  { mat_out with
    memptr := internal.dt_vec K X.memptr dof_par log_form
      mat_out.memptr mat_out.n_elem }

/-- Overload `dt(const ArmaGen<mT,tT>& X, ...)`. -/
def dt_ArmaGen (K : Env F) (X : ArmaGen F) (dof_par : Val F) (log_form : Bool)
    (uninit : Nat → Val F) : ArmaMat F :=
  dt_ArmaMat K X.eval dof_par log_form uninit

/-- Overload `dt(const BlazeMat<Ta,To>& X, ...)`. -/
def dt_BlazeMat (K : Env F) (X : BlazeMat F) (dof_par : Val F) (log_form : Bool)
    (pad : Nat → Nat) (uninit : Nat → Val F) : BlazeMat F :=
  let mat_out : BlazeMat F := BlazeMat.sized X.To X.rows X.columns pad uninit
  { mat_out with
    data := internal.dt_vec K X.data dof_par log_form
      mat_out.data (X.rows * X.spacing) }

/-- Overload `dt(const EigMat<Ta,iTr,iTc>& X, ...)`. -/
def dt_EigMat (K : Env F) (X : EigMat F) (dof_par : Val F) (log_form : Bool)
    (uninit : Nat → Val F) : EigMat F :=
  let mat_out : EigMat F := EigMat.mk X.rows X.cols uninit
  { mat_out with
    data := internal.dt_vec K X.data dof_par log_form
      mat_out.data mat_out.size }

/-! #### Container overloads of `dlnorm` (dens/dlnorm.ipp) -/

/-- Overload `dlnorm(const ArmaMat<Ta>& X, ...)`. -/
def dlnorm_ArmaMat (K : Env F) (X : ArmaMat F) (mu_par sigma_par : Val F) (log_form : Bool)
    (uninit : Nat → Val F) : ArmaMat F :=
  let mat_out : ArmaMat F := ArmaMat.mk X.n_rows X.n_cols uninit
  { mat_out with
    memptr := internal.dlnorm_vec K X.memptr mu_par sigma_par log_form
      mat_out.memptr mat_out.n_elem }

/-- Overload `dlnorm(const ArmaGen<mT,tT>& X, ...)`. -/
def dlnorm_ArmaGen (K : Env F) (X : ArmaGen F) (mu_par sigma_par : Val F) (log_form : Bool)
    (uninit : Nat → Val F) : ArmaMat F :=
  dlnorm_ArmaMat K X.eval mu_par sigma_par log_form uninit

/-- Overload `dlnorm(const BlazeMat<Ta,To>& X, ...)`. -/
def dlnorm_BlazeMat (K : Env F) (X : BlazeMat F) (mu_par sigma_par : Val F) (log_form : Bool)
    (pad : Nat → Nat) (uninit : Nat → Val F) : BlazeMat F :=
  let mat_out : BlazeMat F := BlazeMat.sized X.To X.rows X.columns pad uninit
  { mat_out with
    data := internal.dlnorm_vec K X.data mu_par sigma_par log_form
      mat_out.data (X.rows * X.spacing) }

/-- Overload `dlnorm(const EigMat<Ta,iTr,iTc>& X, ...)`. -/
def dlnorm_EigMat (K : Env F) (X : EigMat F) (mu_par sigma_par : Val F) (log_form : Bool)
    (uninit : Nat → Val F) : EigMat F :=
  let mat_out : EigMat F := EigMat.mk X.rows X.cols uninit
  { mat_out with
    data := internal.dlnorm_vec K X.data mu_par sigma_par log_form
      mat_out.data mat_out.size }

/-! #### Container overloads of `pcauchy` (prob/pcauchy.ipp) -/

/-- Overload `pcauchy(const ArmaMat<Ta>& X, ...)`. -/
def pcauchy_ArmaMat (K : Env F) (X : ArmaMat F) (mu_par sigma_par : Val F) (log_form : Bool)
    (uninit : Nat → Val F) : ArmaMat F :=
  let mat_out : ArmaMat F := ArmaMat.mk X.n_rows X.n_cols uninit
  { mat_out with
    memptr := internal.pcauchy_vec K X.memptr mu_par sigma_par log_form
      mat_out.memptr mat_out.n_elem }

/-- Overload `pcauchy(const ArmaGen<mT,tT>& X, ...)`. -/
def pcauchy_ArmaGen (K : Env F) (X : ArmaGen F) (mu_par sigma_par : Val F) (log_form : Bool)
    (uninit : Nat → Val F) : ArmaMat F :=
  pcauchy_ArmaMat K X.eval mu_par sigma_par log_form uninit

/-- Overload `pcauchy(const BlazeMat<Ta,To>& X, ...)`. -/
def pcauchy_BlazeMat (K : Env F) (X : BlazeMat F) (mu_par sigma_par : Val F) (log_form : Bool)
    (pad : Nat → Nat) (uninit : Nat → Val F) : BlazeMat F :=
  let mat_out : BlazeMat F := BlazeMat.sized X.To X.rows X.columns pad uninit
  { mat_out with
    data := internal.pcauchy_vec K X.data mu_par sigma_par log_form
      mat_out.data (X.rows * X.spacing) }

/-- Overload `pcauchy(const EigMat<Ta,iTr,iTc>& X, ...)`. -/
def pcauchy_EigMat (K : Env F) (X : EigMat F) (mu_par sigma_par : Val F) (log_form : Bool)
    (uninit : Nat → Val F) : EigMat F :=
  let mat_out : EigMat F := EigMat.mk X.rows X.cols uninit
  { mat_out with
    data := internal.pcauchy_vec K X.data mu_par sigma_par log_form
      mat_out.data mat_out.size }

/-! #### Container overloads of `pf` (prob/pf.ipp) -/

/-- Overload `pf(const ArmaMat<Ta>& X, ...)`. -/
def pf_ArmaMat (K : Env F) (X : ArmaMat F) (df1_par df2_par : Val F) (log_form : Bool)
    (uninit : Nat → Val F) : ArmaMat F :=
  let mat_out : ArmaMat F := ArmaMat.mk X.n_rows X.n_cols uninit
  { mat_out with
    memptr := internal.pf_vec K X.memptr df1_par df2_par log_form
      mat_out.memptr mat_out.n_elem }

/-- Overload `pf(const ArmaGen<mT,tT>& X, ...)`. -/
def pf_ArmaGen (K : Env F) (X : ArmaGen F) (df1_par df2_par : Val F) (log_form : Bool)
    (uninit : Nat → Val F) : ArmaMat F :=
  pf_ArmaMat K X.eval df1_par df2_par log_form uninit

/-- Overload `pf(const BlazeMat<Ta,To>& X, ...)`. -/
def pf_BlazeMat (K : Env F) (X : BlazeMat F) (df1_par df2_par : Val F) (log_form : Bool)
    (pad : Nat → Nat) (uninit : Nat → Val F) : BlazeMat F :=
  let mat_out : BlazeMat F := BlazeMat.sized X.To X.rows X.columns pad uninit
  { mat_out with
    data := internal.pf_vec K X.data df1_par df2_par log_form
      mat_out.data (X.rows * X.spacing) }

/-- Overload `pf(const EigMat<Ta,iTr,iTc>& X, ...)`. -/
def pf_EigMat (K : Env F) (X : EigMat F) (df1_par df2_par : Val F) (log_form : Bool)
    (uninit : Nat → Val F) : EigMat F :=
  let mat_out : EigMat F := EigMat.mk X.rows X.cols uninit
  { mat_out with
    data := internal.pf_vec K X.data df1_par df2_par log_form
      mat_out.data mat_out.size }

/-! #### Container overloads of `qbern` (quant/qbern.ipp) -/

/-- Overload `qbern(const ArmaMat<Ta>& X, ...)`. -/
def qbern_ArmaMat (X : ArmaMat F) (prob_par : Val F)
    (uninit : Nat → Val F) : ArmaMat F :=
  let mat_out : ArmaMat F := ArmaMat.mk X.n_rows X.n_cols uninit
  { mat_out with
    memptr := internal.qbern_vec X.memptr prob_par
      mat_out.memptr mat_out.n_elem }

/-- Overload `qbern(const ArmaGen<mT,tT>& X, ...)`. -/
def qbern_ArmaGen (X : ArmaGen F) (prob_par : Val F)
    (uninit : Nat → Val F) : ArmaMat F :=
  qbern_ArmaMat X.eval prob_par uninit

/-- Overload `qbern(const BlazeMat<Ta,To>& X, ...)`. -/
def qbern_BlazeMat (X : BlazeMat F) (prob_par : Val F)
    (pad : Nat → Nat) (uninit : Nat → Val F) : BlazeMat F :=
  let mat_out : BlazeMat F := BlazeMat.sized X.To X.rows X.columns pad uninit
  { mat_out with
    data := internal.qbern_vec X.data prob_par
      mat_out.data (X.rows * X.spacing) }

/-- Overload `qbern(const EigMat<Ta,iTr,iTc>& X, ...)`. -/
def qbern_EigMat (X : EigMat F) (prob_par : Val F)
    (uninit : Nat → Val F) : EigMat F :=
  let mat_out : EigMat F := EigMat.mk X.rows X.cols uninit
  { mat_out with
    data := internal.qbern_vec X.data prob_par
      mat_out.data mat_out.size }

/-! #### Container overloads of `qgamma` (quant/qgamma.ipp) -/

/-- Overload `qgamma(const ArmaMat<Ta>& X, ...)`. -/
def qgamma_ArmaMat (K : Env F) (X : ArmaMat F) (shape_par scale_par : Val F)
    (uninit : Nat → Val F) : ArmaMat F :=
  let mat_out : ArmaMat F := ArmaMat.mk X.n_rows X.n_cols uninit
  { mat_out with
    memptr := internal.qgamma_vec K X.memptr shape_par scale_par
      mat_out.memptr mat_out.n_elem }

/-- Overload `qgamma(const ArmaGen<mT,tT>& X, ...)`. -/
def qgamma_ArmaGen (K : Env F) (X : ArmaGen F) (shape_par scale_par : Val F)
    (uninit : Nat → Val F) : ArmaMat F :=
  qgamma_ArmaMat K X.eval shape_par scale_par uninit

/-- Overload `qgamma(const BlazeMat<Ta,To>& X, ...)`. -/
def qgamma_BlazeMat (K : Env F) (X : BlazeMat F) (shape_par scale_par : Val F)
    (pad : Nat → Nat) (uninit : Nat → Val F) : BlazeMat F :=
  let mat_out : BlazeMat F := BlazeMat.sized X.To X.rows X.columns pad uninit
  { mat_out with
    data := internal.qgamma_vec K X.data shape_par scale_par
      mat_out.data (X.rows * X.spacing) }

/-- Overload `qgamma(const EigMat<Ta,iTr,iTc>& X, ...)`. -/
def qgamma_EigMat (K : Env F) (X : EigMat F) (shape_par scale_par : Val F)
    (uninit : Nat → Val F) : EigMat F :=
  let mat_out : EigMat F := EigMat.mk X.rows X.cols uninit
  { mat_out with
    data := internal.qgamma_vec K X.data shape_par scale_par
      mat_out.data mat_out.size }

/-! #### Container overloads of `qlogis` (quant/qlogis.ipp) -/

/-- Overload `qlogis(const ArmaMat<Ta>& X, ...)`. -/
def qlogis_ArmaMat (K : Env F) (X : ArmaMat F) (mu_par sigma_par : Val F)
    (uninit : Nat → Val F) : ArmaMat F :=
  let mat_out : ArmaMat F := ArmaMat.mk X.n_rows X.n_cols uninit
  { mat_out with
    memptr := internal.qlogis_vec K X.memptr mu_par sigma_par
      mat_out.memptr mat_out.n_elem }

/-- Overload `qlogis(const ArmaGen<mT,tT>& X, ...)`. -/
def qlogis_ArmaGen (K : Env F) (X : ArmaGen F) (mu_par sigma_par : Val F)
    (uninit : Nat → Val F) : ArmaMat F :=
  qlogis_ArmaMat K X.eval mu_par sigma_par uninit

/-- Overload `qlogis(const BlazeMat<Ta,To>& X, ...)`. -/
def qlogis_BlazeMat (K : Env F) (X : BlazeMat F) (mu_par sigma_par : Val F)
    (pad : Nat → Nat) (uninit : Nat → Val F) : BlazeMat F :=
  let mat_out : BlazeMat F := BlazeMat.sized X.To X.rows X.columns pad uninit
  { mat_out with
    data := internal.qlogis_vec K X.data mu_par sigma_par
      mat_out.data (X.rows * X.spacing) }

/-- Overload `qlogis(const EigMat<Ta,iTr,iTc>& X, ...)`. -/
def qlogis_EigMat (K : Env F) (X : EigMat F) (mu_par sigma_par : Val F)
    (uninit : Nat → Val F) : EigMat F :=
  let mat_out : EigMat F := EigMat.mk X.rows X.cols uninit
  { mat_out with
    data := internal.qlogis_vec K X.data mu_par sigma_par
      mat_out.data mat_out.size }

/-! ### Properties named by the specification -/

/-- Section 4.4: `output[i] = fn(input[i])` for every flat index `i` below `count`. -/
def ElementwiseImage (fn : Val F → Val F) (count : Nat) (input output : Nat → Val F) : Prop :=
  ∀ i, i < count → output i = fn (input i)

/-- Every element of the buffer below `count` is NaN. -/
def AllNaN (count : Nat) (buffer : Nat → Val F) : Prop :=
  ∀ i, i < count → buffer i = nan

/-- Same row count, column count and element count, for Armadillo matrices. -/
def ArmaMat.SameShape (Y X : ArmaMat F) : Prop :=
  Y.n_rows = X.n_rows ∧ Y.n_cols = X.n_cols ∧ Y.n_elem = X.n_elem

/-- Same row count, column count and element count, for Eigen matrices. -/
def EigMat.SameShape (Y X : EigMat F) : Prop :=
  Y.rows = X.rows ∧ Y.cols = X.cols ∧ Y.size = X.size

/-- Same row count, column count and element count, for Blaze matrices. -/
def BlazeMat.SameShape (Y X : BlazeMat F) : Prop :=
  Y.rows = X.rows ∧ Y.columns = X.columns ∧ Y.rows * Y.columns = X.rows * X.columns

namespace Val

/-- The value of the working type delivered for an exact result: a finite result is rounded
by `rnd`, the special values are kept. -/
def rd (rnd : F → Val F) : Val F → Val F
  | fin r => rnd r
  | v => v

/-- The operation `a + b` of a working type that rounds with `rnd`. -/
def radd (rnd : F → Val F) (a b : Val F) : Val F := rd rnd (a + b)

/-- The operation `a - b` of a working type that rounds with `rnd`. -/
def rsub (rnd : F → Val F) (a b : Val F) : Val F := rd rnd (a - b)

/-- The operation `a * b` of a working type that rounds with `rnd`. -/
def rmul (rnd : F → Val F) (a b : Val F) : Val F := rd rnd (a * b)

/-- The operation `a / b` of a working type that rounds with `rnd`. -/
def rdiv (rnd : F → Val F) (a b : Val F) : Val F := rd rnd (a / b)

end Val

/-- What the theorems ask of a rounding function: it is monotone and never NaN, it keeps the
values it delivers, it keeps 0, 1 and 1/2, and it is symmetric about 0. -/
structure RoundingLaws (rnd : F → Val F) : Prop where
  /-- Rounding is monotone; in particular a rounded value is never NaN. -/
  mono : ∀ a b : F, a ≤ b → le (rnd a) (rnd b) = true
  /-- A value delivered by the rounding is kept by it. -/
  idem : ∀ a b : F, rnd a = fin b → rnd b = fin b
  /-- Zero is a value of the working type. -/
  zero : rnd 0 = fin 0
  /-- One is a value of the working type. -/
  one : rnd 1 = fin 1
  /-- One half is a value of the working type. -/
  half : rnd (1 / 2) = fin (1 / 2)
  /-- Rounding commutes with the change of sign. -/
  neg : ∀ a : F, rnd (-a) = - rnd a

/-- Round to the nearest integer, ties to the even one. -/
def roundHalfEven [FloorRing F] (x : F) : ℤ :=
  if x - (⌊x⌋ : F) < 1 / 2 then ⌊x⌋
  else if 1 / 2 < x - (⌊x⌋ : F) then ⌊x⌋ + 1
  else if ⌊x⌋ % 2 = 0 then ⌊x⌋ else ⌊x⌋ + 1

/-- The exponent of the binade of a positive value in binary64: the integer `e` with
`2^e <= x < 2^(e+1)`, and the least normal exponent -1022 for smaller (subnormal) values. -/
def binade [FloorRing F] (x : F) : ℤ := max (Int.log 2 x) (-1022)

/-- The nearest multiple of the unit in the last place of the binade of `x`, for a
non-negative `x`: binary64 keeps 53 significant bits, so the unit is `2^(e-52)`. -/
def roundPosVal [FloorRing F] (x : F) : F :=
  (roundHalfEven (x / (2 : F) ^ (binade x - 52)) : F) * (2 : F) ^ (binade x - 52)

/-- The binary64 rounding of a non-negative value: the nearest multiple of the unit, or
+infinity when that is `2^1024` or more. -/
def roundPos [FloorRing F] (x : F) : Val F :=
  if (2 : F) ^ (1024 : ℤ) ≤ roundPosVal x then pinf else fin (roundPosVal x)

/-- The rounding of IEEE-754 binary64 (`double`), round to nearest, ties to even, symmetric
about zero. -/
def rnd64 [FloorRing F] (x : F) : Val F :=
  if x < 0 then - roundPos (-x) else roundPos x
namespace machine

/-! ### The scalar evaluators in a working type that rounds

Same sources, same guard chains; each arithmetic operation of the formulas is the rounded
operation.  The parameter predicates, `log_if` and `exp_if` involve no arithmetic and are
shared with the exact embedding; the constants `T(0.5)`, `T(1)`, `T(2)` are values of every
binary floating-point type. -/

namespace internal

/-! #### dens/dgamma.ipp -/

/-- Source function `dgamma_log_compute`, operations rounded. -/
def dgamma_log_compute (rnd : F → Val F) (K : Env F) (x shape_par scale_par : Val F) : Val F :=
  rsub rnd
    (radd rnd
      (rsub rnd (- K.lgamma shape_par) (rmul rnd shape_par (K.log scale_par)))
      (rmul rnd (rsub rnd shape_par (fin 1)) (K.log x)))
    (rdiv rnd x scale_par)

/-- Source function `dgamma_limit_vals`, operations rounded. -/
def dgamma_limit_vals (rnd : F → Val F) (x shape_par scale_par : Val F) : Val F :=
  if feq shape_par (fin 0) then
    (if feq x (fin 0) then pinf else fin 0)
  else if lt shape_par (fin 1) then pinf
  else if feq shape_par (fin 1) then rdiv rnd (fin 1) scale_par
  else fin 0

/-- Source function `dgamma_vals_check`, operations rounded. -/
def dgamma_vals_check (rnd : F → Val F) (K : Env F) (x shape_par scale_par : Val F)
    (log_form : Bool) : Val F :=
  if !stats.internal.gamma_sanity_check shape_par scale_par then nan
  else if lt x (fin 0) then stats.internal.log_if K (fin 0) log_form
  else if feq x (fin 0) || feq shape_par (fin 0) then
    stats.internal.log_if K (dgamma_limit_vals rnd x shape_par scale_par) log_form
  else stats.internal.exp_if K (dgamma_log_compute rnd K x shape_par scale_par) (!log_form)

/-- Source function `dgamma_type_check`; the casts to the common type are the identity. -/
def dgamma_type_check (rnd : F → Val F) (K : Env F) (x shape_par scale_par : Val F)
    (log_form : Bool) : Val F :=
  dgamma_vals_check rnd K x shape_par scale_par log_form

/-! #### dens/dchisq.ipp -/

/-- Source function `dchisq_compute`, operations rounded. -/
def dchisq_compute (rnd : F → Val F) (K : Env F) (x dof_par : Val F) : Val F :=
  rsub rnd
    (radd rnd
      (rsub rnd (- K.lgamma (rmul rnd (fin (1/2)) dof_par))
        (rmul rnd (rmul rnd (fin (1/2)) dof_par) (fin K.GCEM_LOG_2)))
      (rmul rnd (rsub rnd (rmul rnd (fin (1/2)) dof_par) (fin 1)) (K.log x)))
    (rdiv rnd x (fin 2))

/-- Source function `dchisq_limit_vals`. -/
def dchisq_limit_vals (_x dof_par : Val F) : Val F :=
  if lt dof_par (fin 2) then pinf
  else if feq dof_par (fin 2) then fin (1/2)
  else fin 0

/-- Source function `dchisq_vals_check`, operations rounded. -/
def dchisq_vals_check (rnd : F → Val F) (K : Env F) (x dof_par : Val F) (log_form : Bool) :
    Val F :=
  if !stats.internal.chisq_sanity_check dof_par then nan
  else if lt x (fin 0) then stats.internal.log_if K (fin 0) log_form
  else if feq x (fin 0) then stats.internal.log_if K (dchisq_limit_vals x dof_par) log_form
  else stats.internal.exp_if K (dchisq_compute rnd K x dof_par) (!log_form)

/-- Source function `dchisq_type_check`; the casts to the common type are the identity. -/
def dchisq_type_check (rnd : F → Val F) (K : Env F) (x dof_par : Val F) (log_form : Bool) :
    Val F :=
  dchisq_vals_check rnd K x dof_par log_form

/-! #### dens/dt.ipp -/

/-- Source function `dt_log_mult_term`, operations rounded. -/
def dt_log_mult_term (rnd : F → Val F) (K : Env F) (z dof_par : Val F) : Val F :=
  rmul rnd (- (radd rnd (rdiv rnd dof_par (fin 2)) (fin (1/2))))
    (K.log (radd rnd (fin 1) (rmul rnd (rdiv rnd z dof_par) z)))

/-- Source function `dt_log_cons_term`, operations rounded. -/
def dt_log_cons_term (rnd : F → Val F) (K : Env F) (_z dof_par : Val F) : Val F :=
  rsub rnd
    (rsub rnd (K.lgamma (radd rnd (rdiv rnd dof_par (fin 2)) (fin (1/2))))
      (rmul rnd (fin (1/2)) (radd rnd (K.log dof_par) (fin K.GCEM_LOG_PI))))
    (K.lgamma (rdiv rnd dof_par (fin 2)))

/-- Source function `dt_log_compute`, operations rounded. -/
def dt_log_compute (rnd : F → Val F) (K : Env F) (z dof_par : Val F) : Val F :=
  radd rnd (dt_log_cons_term rnd K z dof_par) (dt_log_mult_term rnd K z dof_par)

/-- Source function `dt_vals_check`, operations rounded. -/
def dt_vals_check (rnd : F → Val F) (K : Env F) (x dof_par : Val F) (log_form : Bool) : Val F :=
  if !stats.internal.t_sanity_check dof_par then nan
  else if feq dof_par pinf then K.dnorm x (fin 0) (fin 1) log_form
  else stats.internal.exp_if K (dt_log_compute rnd K x dof_par) (!log_form)

/-- Source function `dt_type_check`; the casts to the common type are the identity. -/
def dt_type_check (rnd : F → Val F) (K : Env F) (x dof_par : Val F) (log_form : Bool) : Val F :=
  dt_vals_check rnd K x dof_par log_form

/-! #### dens/dlnorm.ipp -/

/-- Source function `dlnorm_log_check`, operations rounded. -/
def dlnorm_log_check (rnd : F → Val F) (K : Env F) (x mu_par sigma_par : Val F)
    (log_form : Bool) : Val F :=
  if log_form = true then rsub rnd (K.dnorm (K.log x) mu_par sigma_par true) (K.log x)
  else rdiv rnd (K.dnorm (K.log x) mu_par sigma_par false) x

/-- Source function `dlnorm_vals_check`, operations rounded. -/
def dlnorm_vals_check (rnd : F → Val F) (K : Env F) (x mu_par sigma_par : Val F)
    (log_form : Bool) : Val F :=
  if !stats.internal.lnorm_sanity_check mu_par sigma_par then nan
  else if gt (fin K.epsilon) x then stats.internal.log_if K (fin 0) log_form
  else dlnorm_log_check rnd K x mu_par sigma_par log_form

/-- Source function `dlnorm_type_check`; the casts to the common type are the identity. -/
def dlnorm_type_check (rnd : F → Val F) (K : Env F) (x mu_par sigma_par : Val F)
    (log_form : Bool) : Val F :=
  dlnorm_vals_check rnd K x mu_par sigma_par log_form

/-! #### prob/pcauchy.ipp -/

/-- Source function `pcauchy_compute`, operations rounded. -/
def pcauchy_compute (rnd : F → Val F) (K : Env F) (z : Val F) : Val F :=
  radd rnd (fin (1/2)) (rdiv rnd (K.atan z) (fin K.GCEM_PI))

/-- Source function `pcauchy_vals_check`, operations rounded. -/
def pcauchy_vals_check (rnd : F → Val F) (K : Env F) (x mu_par sigma_par : Val F)
    (log_form : Bool) : Val F :=
  if !stats.internal.cauchy_sanity_check mu_par sigma_par then nan
  else stats.internal.log_if K
    (pcauchy_compute rnd K (rdiv rnd (rsub rnd x mu_par) sigma_par)) log_form

/-- Source function `pcauchy_type_check`; the casts to the common type are the identity. -/
def pcauchy_type_check (rnd : F → Val F) (K : Env F) (x mu_par sigma_par : Val F)
    (log_form : Bool) : Val F :=
  pcauchy_vals_check rnd K x mu_par sigma_par log_form

/-! #### prob/pf.ipp -/

/-- Source function `pf_compute`, operations rounded. -/
def pf_compute (rnd : F → Val F) (K : Env F) (x a_par b_par : Val F) : Val F :=
  K.incomplete_beta a_par b_par (rdiv rnd x (radd rnd (fin 1) x))

/-- Source function `pf_vals_check`, operations rounded. -/
def pf_vals_check (rnd : F → Val F) (K : Env F) (x df1_par df2_par : Val F)
    (log_form : Bool) : Val F :=
  if !stats.internal.f_sanity_check df1_par df2_par then nan
  else if gt (fin K.epsilon) x then stats.internal.log_if K (fin 0) log_form
  else stats.internal.log_if K
    (pf_compute rnd K (rdiv rnd (rmul rnd df1_par x) df2_par)
      (rdiv rnd df1_par (fin 2)) (rdiv rnd df2_par (fin 2)))
    log_form

/-- Source function `pf_type_check`; the casts to the common type are the identity. -/
def pf_type_check (rnd : F → Val F) (K : Env F) (x df1_par df2_par : Val F)
    (log_form : Bool) : Val F :=
  pf_vals_check rnd K x df1_par df2_par log_form

/-! #### quant/qbern.ipp -/

/-- Source function `qbern_compute`, operations rounded; the integer results `llint_t(1)` and
`llint_t(0)` are converted to the working type by the conditional operator. -/
def qbern_compute (rnd : F → Val F) (p prob_par : Val F) : Val F :=
  if !stats.internal.bern_sanity_check prob_par then nan
  else if lt p (fin 0) || gt p (fin 1) then nan
  else if gt p (rsub rnd (fin 1) prob_par) then fin 1
  else fin 0

/-- Source function `qbern_type_check`; the casts to the common type are the identity. -/
def qbern_type_check (rnd : F → Val F) (p prob_par : Val F) : Val F :=
  qbern_compute rnd p prob_par

/-! #### quant/qgamma.ipp -/

/-- Source function `qgamma_compute`, operations rounded. -/
def qgamma_compute (rnd : F → Val F) (K : Env F) (p shape_par scale_par : Val F) : Val F :=
  rmul rnd scale_par (K.incomplete_gamma_inv shape_par p)

/-- Source function `qgamma_vals_check`, operations rounded. -/
def qgamma_vals_check (rnd : F → Val F) (K : Env F) (p shape_par scale_par : Val F) : Val F :=
  if !stats.internal.gamma_sanity_check shape_par scale_par then nan
  else if lt p (fin 0) || gt p (fin 1) then nan
  else if feq p (fin 0) then fin 0
  else if feq p (fin 1) then pinf
  else qgamma_compute rnd K p shape_par scale_par

/-- Source function `qgamma_type_check`; the casts to the common type are the identity. -/
def qgamma_type_check (rnd : F → Val F) (K : Env F) (x shape_par scale_par : Val F) : Val F :=
  qgamma_vals_check rnd K x shape_par scale_par

/-! #### quant/qlogis.ipp -/

/-- Source function `qlogis_compute`, operations rounded. -/
def qlogis_compute (rnd : F → Val F) (K : Env F) (p mu_par sigma_par : Val F) : Val F :=
  radd rnd mu_par (rmul rnd sigma_par (K.log (rdiv rnd p (rsub rnd (fin 1) p))))

/-- Source function `qlogis_vals_check`, operations rounded. -/
def qlogis_vals_check (rnd : F → Val F) (K : Env F) (p mu_par sigma_par : Val F) : Val F :=
  if !stats.internal.logis_sanity_check mu_par sigma_par then nan
  else if lt p (fin 0) || gt p (fin 1) then nan
  else if feq p (fin 0) then - pinf
  else if feq p (fin 1) then pinf
  else qlogis_compute rnd K p mu_par sigma_par

/-- Source function `qlogis_type_check`; the casts to the common type are the identity. -/
def qlogis_type_check (rnd : F → Val F) (K : Env F) (p mu_par sigma_par : Val F) : Val F :=
  qlogis_vals_check rnd K p mu_par sigma_par

end internal

/-- Public entry point `stats::dgamma`, operations rounded. -/
def dgamma (rnd : F → Val F) (K : Env F) (x shape_par scale_par : Val F) (log_form : Bool) :
    Val F :=
  internal.dgamma_type_check rnd K x shape_par scale_par log_form

/-- Public entry point `stats::dchisq`, operations rounded. -/
def dchisq (rnd : F → Val F) (K : Env F) (x dof_par : Val F) (log_form : Bool) : Val F :=
  internal.dchisq_type_check rnd K x dof_par log_form

/-- Public entry point `stats::dt`, operations rounded. -/
def dt (rnd : F → Val F) (K : Env F) (x dof_par : Val F) (log_form : Bool) : Val F :=
  internal.dt_type_check rnd K x dof_par log_form

/-- Public entry point `stats::dlnorm`, operations rounded. -/
def dlnorm (rnd : F → Val F) (K : Env F) (x mu_par sigma_par : Val F) (log_form : Bool) :
    Val F :=
  internal.dlnorm_type_check rnd K x mu_par sigma_par log_form

/-- Public entry point `stats::pcauchy`, operations rounded. -/
def pcauchy (rnd : F → Val F) (K : Env F) (x mu_par sigma_par : Val F) (log_form : Bool) :
    Val F :=
  internal.pcauchy_type_check rnd K x mu_par sigma_par log_form

/-- Public entry point `stats::pf`, operations rounded. -/
def pf (rnd : F → Val F) (K : Env F) (x df1_par df2_par : Val F) (log_form : Bool) : Val F :=
  internal.pf_type_check rnd K x df1_par df2_par log_form

/-- Public entry point `stats::qbern`, operations rounded. -/
def qbern (rnd : F → Val F) (p prob_par : Val F) : Val F :=
  internal.qbern_type_check rnd p prob_par

/-- Public entry point `stats::qgamma`, operations rounded. -/
def qgamma (rnd : F → Val F) (K : Env F) (p shape_par scale_par : Val F) : Val F :=
  internal.qgamma_type_check rnd K p shape_par scale_par

/-- Public entry point `stats::qlogis`, operations rounded. -/
def qlogis (rnd : F → Val F) (K : Env F) (p mu_par sigma_par : Val F) : Val F :=
  internal.qlogis_type_check rnd K p mu_par sigma_par

end machine
/-! ### A binary64 environment

The working type `double` with a correctly rounded math kernel: each kernel function delivers
the binary64 rounding of the exact value of the reference environment, and each constant is
the binary64 value nearest to the real constant. -/

/-- The finite value carried by a value of the working type (0 for the special values). -/
def Val.value : Val F → F
  | fin r => r
  | _ => 0

/-- Modelled from the spec: the kernel and the constants of the reference environment,
correctly rounded to binary64; `epsilon` is the machine epsilon `2^-52` of `double`. -/
noncomputable def f64Env : Env ℝ where
  epsilon := 1 / 2 ^ 52
  GCEM_PI := (rnd64 Real.pi).value
  GCEM_LOG_2 := (rnd64 (Real.log 2)).value
  GCEM_LOG_PI := (rnd64 (Real.log Real.pi)).value
  log := fun x => rd rnd64 (refLog x)
  exp := fun x => rd rnd64 (refExp x)
  lgamma := fun x => rd rnd64 (refLgamma x)
  atan := fun x => rd rnd64 (refAtan x)
  incomplete_beta := fun a b z => rd rnd64 (refIncompleteBeta a b z)
  incomplete_gamma_inv := fun a p => rd rnd64 (refIncompleteGammaInv a p)
  dnorm := fun x mu sigma log_form => rd rnd64 (refDnorm x mu sigma log_form)

/-! ### The broadcasting layer with element types and storage bounds

The container overloads are templates over the element type `Ta` of the input, the type `Tb`
of the broadcast parameters and the element type `Tc` of the output, which defaults to `Tb`
(`template<typename Ta, typename Tb, typename Tc = Tb>` in `prob/pf.hpp`).  The scalar
evaluator returns a value of the common type; the store into the `Tc*` buffer converts it.
The definitions of this part keep that conversion as the parameter `conv` (the identity when
`Tc` is the working type), evaluate in a working type that rounds with `rnd`, and track the
number of elements that the storage of a Blaze matrix holds. -/

/-- Stands for the conversion of a floating-point value to an integral type (external, the
C++ floating-integral conversion): the fractional part of a finite value is discarded.  The
conversion of NaN or of an infinity is undefined in C++; these are left as they are and no
statement below depends on them. -/
def to_integral [FloorRing F] : Val F → Val F
  | fin r => fin (if 0 ≤ r then ((⌊r⌋ : ℤ) : F) else ((⌈r⌉ : ℤ) : F))
  | v => v

/-- Stands for the number of elements in the storage of a Blaze matrix (external): the
spacing times the number of rows of a row-major matrix, times the number of columns of a
column-major matrix. -/
def BlazeMat.capacity (X : BlazeMat F) : Nat :=
  if X.To then X.columns * X.spacing else X.rows * X.spacing

namespace machine

namespace internal

/-- Source function `dgamma_vec<Ta,Tb,Tc>` of `dens/dgamma.ipp`: the macro applied to `dgamma`;
the store into `vals_out`, a `Tc*`, converts the result with `conv`. -/
def dgamma_vec (conv : Val F → Val F) (rnd : F → Val F) (K : Env F)
    (vals_in : Nat → Val F) (shape_par scale_par : Val F) (log_form : Bool)
    (vals_out : Nat → Val F) (num_elem : Nat) :
    Nat → Val F :=
  stats.internal.EVAL_DIST_FN_VEC (fun x => conv (dgamma rnd K x shape_par scale_par log_form))
    vals_in vals_out num_elem

/-- Source function `dchisq_vec<Ta,Tb,Tc>` of `dens/dchisq.ipp`: the macro applied to `dchisq`;
the store into `vals_out`, a `Tc*`, converts the result with `conv`. -/
def dchisq_vec (conv : Val F → Val F) (rnd : F → Val F) (K : Env F)
    (vals_in : Nat → Val F) (dof_par : Val F) (log_form : Bool)
    (vals_out : Nat → Val F) (num_elem : Nat) :
    Nat → Val F :=
  stats.internal.EVAL_DIST_FN_VEC (fun x => conv (dchisq rnd K x dof_par log_form))
    vals_in vals_out num_elem

/-- Source function `dt_vec<Ta,Tb,Tc>` of `dens/dt.ipp`: the macro applied to `dt`;
the store into `vals_out`, a `Tc*`, converts the result with `conv`. -/
def dt_vec (conv : Val F → Val F) (rnd : F → Val F) (K : Env F)
    (vals_in : Nat → Val F) (dof_par : Val F) (log_form : Bool)
    (vals_out : Nat → Val F) (num_elem : Nat) :
    Nat → Val F :=
  stats.internal.EVAL_DIST_FN_VEC (fun x => conv (dt rnd K x dof_par log_form))
    vals_in vals_out num_elem

/-- Source function `dlnorm_vec<Ta,Tb,Tc>` of `dens/dlnorm.ipp`: the macro applied to `dlnorm`;
the store into `vals_out`, a `Tc*`, converts the result with `conv`. -/
def dlnorm_vec (conv : Val F → Val F) (rnd : F → Val F) (K : Env F)
    (vals_in : Nat → Val F) (mu_par sigma_par : Val F) (log_form : Bool)
    (vals_out : Nat → Val F) (num_elem : Nat) :
    Nat → Val F :=
  stats.internal.EVAL_DIST_FN_VEC (fun x => conv (dlnorm rnd K x mu_par sigma_par log_form))
    vals_in vals_out num_elem

/-- Source function `pcauchy_vec<Ta,Tb,Tc>` of `prob/pcauchy.ipp`: the macro applied to `pcauchy`;
the store into `vals_out`, a `Tc*`, converts the result with `conv`. -/
def pcauchy_vec (conv : Val F → Val F) (rnd : F → Val F) (K : Env F)
    (vals_in : Nat → Val F) (mu_par sigma_par : Val F) (log_form : Bool)
    (vals_out : Nat → Val F) (num_elem : Nat) :
    Nat → Val F :=
  stats.internal.EVAL_DIST_FN_VEC (fun x => conv (pcauchy rnd K x mu_par sigma_par log_form))
    vals_in vals_out num_elem

/-- Source function `pf_vec<Ta,Tb,Tc>` of `prob/pf.ipp`: the macro applied to `pf`;
the store into `vals_out`, a `Tc*`, converts the result with `conv`. -/
def pf_vec (conv : Val F → Val F) (rnd : F → Val F) (K : Env F)
    (vals_in : Nat → Val F) (df1_par df2_par : Val F) (log_form : Bool)
    (vals_out : Nat → Val F) (num_elem : Nat) :
    Nat → Val F :=
  stats.internal.EVAL_DIST_FN_VEC (fun x => conv (pf rnd K x df1_par df2_par log_form))
    vals_in vals_out num_elem

/-- Source function `qbern_vec<Ta,Tb,Tc>` of `quant/qbern.ipp`: the macro applied to `qbern`;
the store into `vals_out`, a `Tc*`, converts the result with `conv`. -/
def qbern_vec (conv : Val F → Val F) (rnd : F → Val F)
    (vals_in : Nat → Val F) (prob_par : Val F)
    (vals_out : Nat → Val F) (num_elem : Nat) :
    Nat → Val F :=
  stats.internal.EVAL_DIST_FN_VEC (fun x => conv (qbern rnd x prob_par))
    vals_in vals_out num_elem

/-- Source function `qgamma_vec<Ta,Tb,Tc>` of `quant/qgamma.ipp`: the macro applied to `qgamma`;
the store into `vals_out`, a `Tc*`, converts the result with `conv`. -/
def qgamma_vec (conv : Val F → Val F) (rnd : F → Val F) (K : Env F)
    (vals_in : Nat → Val F) (shape_par scale_par : Val F)
    (vals_out : Nat → Val F) (num_elem : Nat) :
    Nat → Val F :=
  stats.internal.EVAL_DIST_FN_VEC (fun x => conv (qgamma rnd K x shape_par scale_par))
    vals_in vals_out num_elem

/-- Source function `qlogis_vec<Ta,Tb,Tc>` of `quant/qlogis.ipp`: the macro applied to `qlogis`;
the store into `vals_out`, a `Tc*`, converts the result with `conv`. -/
def qlogis_vec (conv : Val F → Val F) (rnd : F → Val F) (K : Env F)
    (vals_in : Nat → Val F) (mu_par sigma_par : Val F)
    (vals_out : Nat → Val F) (num_elem : Nat) :
    Nat → Val F :=
  stats.internal.EVAL_DIST_FN_VEC (fun x => conv (qlogis rnd K x mu_par sigma_par))
    vals_in vals_out num_elem

end internal

/-! #### Container overloads of `dgamma` (dens/dgamma.ipp), typed -/

/-- Overload `dgamma(const ArmaMat<Ta>& X, ...)`. -/
def dgamma_ArmaMat (conv : Val F → Val F) (rnd : F → Val F) (K : Env F)
    (X : ArmaMat F) (shape_par scale_par : Val F) (log_form : Bool)
    (uninit : Nat → Val F) : ArmaMat F :=
  let mat_out : ArmaMat F := ArmaMat.mk X.n_rows X.n_cols uninit
  { mat_out with
    memptr := internal.dgamma_vec conv rnd K X.memptr shape_par scale_par log_form
      mat_out.memptr mat_out.n_elem }

/-- Overload `dgamma(const ArmaGen<mT,tT>& X, ...)`. -/
def dgamma_ArmaGen (conv : Val F → Val F) (rnd : F → Val F) (K : Env F)
    (X : ArmaGen F) (shape_par scale_par : Val F) (log_form : Bool)
    (uninit : Nat → Val F) : ArmaMat F :=
  dgamma_ArmaMat conv rnd K X.eval shape_par scale_par log_form uninit

/-- Overload `dgamma(const BlazeMat<Ta,To>& X, ...)`, with the bounds of the storage tracked: the
loop reads `X.data()` and writes `mat_out.data()` at the offsets below `rows*spacing`; `none`
stands for the undefined behaviour of an access past the storage of either matrix. -/
def dgamma_BlazeMat (conv : Val F → Val F) (rnd : F → Val F) (K : Env F)
    (X : BlazeMat F) (shape_par scale_par : Val F) (log_form : Bool)
    (pad : Nat → Nat) (uninit : Nat → Val F) : Option (BlazeMat F) :=
  let mat_out : BlazeMat F := BlazeMat.sized X.To X.rows X.columns pad uninit
  if X.rows * X.spacing ≤ X.capacity ∧ X.rows * X.spacing ≤ mat_out.capacity then
    some { mat_out with
      data := internal.dgamma_vec conv rnd K X.data shape_par scale_par log_form
        mat_out.data (X.rows * X.spacing) }
  else none

/-- Overload `dgamma(const EigMat<Ta,iTr,iTc>& X, ...)`. -/
def dgamma_EigMat (conv : Val F → Val F) (rnd : F → Val F) (K : Env F)
    (X : EigMat F) (shape_par scale_par : Val F) (log_form : Bool)
    (uninit : Nat → Val F) : EigMat F :=
  let mat_out : EigMat F := EigMat.mk X.rows X.cols uninit
  { mat_out with
    data := internal.dgamma_vec conv rnd K X.data shape_par scale_par log_form
      mat_out.data mat_out.size }

/-! #### Container overloads of `dchisq` (dens/dchisq.ipp), typed -/

/-- Overload `dchisq(const ArmaMat<Ta>& X, ...)`. -/
def dchisq_ArmaMat (conv : Val F → Val F) (rnd : F → Val F) (K : Env F)
    (X : ArmaMat F) (dof_par : Val F) (log_form : Bool)
    (uninit : Nat → Val F) : ArmaMat F :=
  let mat_out : ArmaMat F := ArmaMat.mk X.n_rows X.n_cols uninit
  { mat_out with
    memptr := internal.dchisq_vec conv rnd K X.memptr dof_par log_form
      mat_out.memptr mat_out.n_elem }

/-- Overload `dchisq(const ArmaGen<mT,tT>& X, ...)`. -/
def dchisq_ArmaGen (conv : Val F → Val F) (rnd : F → Val F) (K : Env F)
    (X : ArmaGen F) (dof_par : Val F) (log_form : Bool)
    (uninit : Nat → Val F) : ArmaMat F :=
  dchisq_ArmaMat conv rnd K X.eval dof_par log_form uninit

/-- Overload `dchisq(const BlazeMat<Ta,To>& X, ...)`, with the bounds of the storage tracked: the
loop reads `X.data()` and writes `mat_out.data()` at the offsets below `rows*spacing`; `none`
stands for the undefined behaviour of an access past the storage of either matrix. -/
def dchisq_BlazeMat (conv : Val F → Val F) (rnd : F → Val F) (K : Env F)
    (X : BlazeMat F) (dof_par : Val F) (log_form : Bool)
    (pad : Nat → Nat) (uninit : Nat → Val F) : Option (BlazeMat F) :=
  let mat_out : BlazeMat F := BlazeMat.sized X.To X.rows X.columns pad uninit
  if X.rows * X.spacing ≤ X.capacity ∧ X.rows * X.spacing ≤ mat_out.capacity then
    some { mat_out with
      data := internal.dchisq_vec conv rnd K X.data dof_par log_form
        mat_out.data (X.rows * X.spacing) }
  else none

/-- Overload `dchisq(const EigMat<Ta,iTr,iTc>& X, ...)`. -/
def dchisq_EigMat (conv : Val F → Val F) (rnd : F → Val F) (K : Env F)
    (X : EigMat F) (dof_par : Val F) (log_form : Bool)
    (uninit : Nat → Val F) : EigMat F :=
  let mat_out : EigMat F := EigMat.mk X.rows X.cols uninit
  { mat_out with
    data := internal.dchisq_vec conv rnd K X.data dof_par log_form
      mat_out.data mat_out.size }

/-! #### Container overloads of `dt` (dens/dt.ipp), typed -/

/-- Overload `dt(const ArmaMat<Ta>& X, ...)`. -/
def dt_ArmaMat (conv : Val F → Val F) (rnd : F → Val F) (K : Env F)
    (X : ArmaMat F) (dof_par : Val F) (log_form : Bool)
    (uninit : Nat → Val F) : ArmaMat F :=
  let mat_out : ArmaMat F := ArmaMat.mk X.n_rows X.n_cols uninit
  { mat_out with
    memptr := internal.dt_vec conv rnd K X.memptr dof_par log_form
      mat_out.memptr mat_out.n_elem }

/-- Overload `dt(const ArmaGen<mT,tT>& X, ...)`. -/
def dt_ArmaGen (conv : Val F → Val F) (rnd : F → Val F) (K : Env F)
    (X : ArmaGen F) (dof_par : Val F) (log_form : Bool)
    (uninit : Nat → Val F) : ArmaMat F :=
  dt_ArmaMat conv rnd K X.eval dof_par log_form uninit

/-- Overload `dt(const BlazeMat<Ta,To>& X, ...)`, with the bounds of the storage tracked: the
loop reads `X.data()` and writes `mat_out.data()` at the offsets below `rows*spacing`; `none`
stands for the undefined behaviour of an access past the storage of either matrix. -/
def dt_BlazeMat (conv : Val F → Val F) (rnd : F → Val F) (K : Env F)
    (X : BlazeMat F) (dof_par : Val F) (log_form : Bool)
    (pad : Nat → Nat) (uninit : Nat → Val F) : Option (BlazeMat F) :=
  let mat_out : BlazeMat F := BlazeMat.sized X.To X.rows X.columns pad uninit
  if X.rows * X.spacing ≤ X.capacity ∧ X.rows * X.spacing ≤ mat_out.capacity then
    some { mat_out with
      data := internal.dt_vec conv rnd K X.data dof_par log_form
        mat_out.data (X.rows * X.spacing) }
  else none

/-- Overload `dt(const EigMat<Ta,iTr,iTc>& X, ...)`. -/
def dt_EigMat (conv : Val F → Val F) (rnd : F → Val F) (K : Env F)
    (X : EigMat F) (dof_par : Val F) (log_form : Bool)
    (uninit : Nat → Val F) : EigMat F :=
  let mat_out : EigMat F := EigMat.mk X.rows X.cols uninit
  { mat_out with
    data := internal.dt_vec conv rnd K X.data dof_par log_form
      mat_out.data mat_out.size }

/-! #### Container overloads of `dlnorm` (dens/dlnorm.ipp), typed -/

/-- Overload `dlnorm(const ArmaMat<Ta>& X, ...)`. -/
def dlnorm_ArmaMat (conv : Val F → Val F) (rnd : F → Val F) (K : Env F)
    (X : ArmaMat F) (mu_par sigma_par : Val F) (log_form : Bool)
    (uninit : Nat → Val F) : ArmaMat F :=
  let mat_out : ArmaMat F := ArmaMat.mk X.n_rows X.n_cols uninit
  { mat_out with
    memptr := internal.dlnorm_vec conv rnd K X.memptr mu_par sigma_par log_form
      mat_out.memptr mat_out.n_elem }

/-- Overload `dlnorm(const ArmaGen<mT,tT>& X, ...)`. -/
def dlnorm_ArmaGen (conv : Val F → Val F) (rnd : F → Val F) (K : Env F)
    (X : ArmaGen F) (mu_par sigma_par : Val F) (log_form : Bool)
    (uninit : Nat → Val F) : ArmaMat F :=
  dlnorm_ArmaMat conv rnd K X.eval mu_par sigma_par log_form uninit

/-- Overload `dlnorm(const BlazeMat<Ta,To>& X, ...)`, with the bounds of the storage tracked: the
loop reads `X.data()` and writes `mat_out.data()` at the offsets below `rows*spacing`; `none`
stands for the undefined behaviour of an access past the storage of either matrix. -/
def dlnorm_BlazeMat (conv : Val F → Val F) (rnd : F → Val F) (K : Env F)
    (X : BlazeMat F) (mu_par sigma_par : Val F) (log_form : Bool)
    (pad : Nat → Nat) (uninit : Nat → Val F) : Option (BlazeMat F) :=
  let mat_out : BlazeMat F := BlazeMat.sized X.To X.rows X.columns pad uninit
  if X.rows * X.spacing ≤ X.capacity ∧ X.rows * X.spacing ≤ mat_out.capacity then
    some { mat_out with
      data := internal.dlnorm_vec conv rnd K X.data mu_par sigma_par log_form
        mat_out.data (X.rows * X.spacing) }
  else none

/-- Overload `dlnorm(const EigMat<Ta,iTr,iTc>& X, ...)`. -/
def dlnorm_EigMat (conv : Val F → Val F) (rnd : F → Val F) (K : Env F)
    (X : EigMat F) (mu_par sigma_par : Val F) (log_form : Bool)
    (uninit : Nat → Val F) : EigMat F :=
  let mat_out : EigMat F := EigMat.mk X.rows X.cols uninit
  { mat_out with
    data := internal.dlnorm_vec conv rnd K X.data mu_par sigma_par log_form
      mat_out.data mat_out.size }

/-! #### Container overloads of `pcauchy` (prob/pcauchy.ipp), typed -/

/-- Overload `pcauchy(const ArmaMat<Ta>& X, ...)`. -/
def pcauchy_ArmaMat (conv : Val F → Val F) (rnd : F → Val F) (K : Env F)
    (X : ArmaMat F) (mu_par sigma_par : Val F) (log_form : Bool)
    (uninit : Nat → Val F) : ArmaMat F :=
  let mat_out : ArmaMat F := ArmaMat.mk X.n_rows X.n_cols uninit
  { mat_out with
    memptr := internal.pcauchy_vec conv rnd K X.memptr mu_par sigma_par log_form
      mat_out.memptr mat_out.n_elem }

/-- Overload `pcauchy(const ArmaGen<mT,tT>& X, ...)`. -/
def pcauchy_ArmaGen (conv : Val F → Val F) (rnd : F → Val F) (K : Env F)
    (X : ArmaGen F) (mu_par sigma_par : Val F) (log_form : Bool)
    (uninit : Nat → Val F) : ArmaMat F :=
  pcauchy_ArmaMat conv rnd K X.eval mu_par sigma_par log_form uninit

/-- Overload `pcauchy(const BlazeMat<Ta,To>& X, ...)`, with the bounds of the storage tracked: the
loop reads `X.data()` and writes `mat_out.data()` at the offsets below `rows*spacing`; `none`
stands for the undefined behaviour of an access past the storage of either matrix. -/
def pcauchy_BlazeMat (conv : Val F → Val F) (rnd : F → Val F) (K : Env F)
    (X : BlazeMat F) (mu_par sigma_par : Val F) (log_form : Bool)
    (pad : Nat → Nat) (uninit : Nat → Val F) : Option (BlazeMat F) :=
  let mat_out : BlazeMat F := BlazeMat.sized X.To X.rows X.columns pad uninit
  if X.rows * X.spacing ≤ X.capacity ∧ X.rows * X.spacing ≤ mat_out.capacity then
    some { mat_out with
      data := internal.pcauchy_vec conv rnd K X.data mu_par sigma_par log_form
        mat_out.data (X.rows * X.spacing) }
  else none

/-- Overload `pcauchy(const EigMat<Ta,iTr,iTc>& X, ...)`. -/
def pcauchy_EigMat (conv : Val F → Val F) (rnd : F → Val F) (K : Env F)
    (X : EigMat F) (mu_par sigma_par : Val F) (log_form : Bool)
    (uninit : Nat → Val F) : EigMat F :=
  let mat_out : EigMat F := EigMat.mk X.rows X.cols uninit
  { mat_out with
    data := internal.pcauchy_vec conv rnd K X.data mu_par sigma_par log_form
      mat_out.data mat_out.size }

/-! #### Container overloads of `pf` (prob/pf.ipp), typed -/

/-- Overload `pf(const ArmaMat<Ta>& X, ...)`. -/
def pf_ArmaMat (conv : Val F → Val F) (rnd : F → Val F) (K : Env F)
    (X : ArmaMat F) (df1_par df2_par : Val F) (log_form : Bool)
    (uninit : Nat → Val F) : ArmaMat F :=
  let mat_out : ArmaMat F := ArmaMat.mk X.n_rows X.n_cols uninit
  { mat_out with
    memptr := internal.pf_vec conv rnd K X.memptr df1_par df2_par log_form
      mat_out.memptr mat_out.n_elem }

/-- Overload `pf(const ArmaGen<mT,tT>& X, ...)`. -/
def pf_ArmaGen (conv : Val F → Val F) (rnd : F → Val F) (K : Env F)
    (X : ArmaGen F) (df1_par df2_par : Val F) (log_form : Bool)
    (uninit : Nat → Val F) : ArmaMat F :=
  pf_ArmaMat conv rnd K X.eval df1_par df2_par log_form uninit

/-- Overload `pf(const BlazeMat<Ta,To>& X, ...)`, with the bounds of the storage tracked: the
loop reads `X.data()` and writes `mat_out.data()` at the offsets below `rows*spacing`; `none`
stands for the undefined behaviour of an access past the storage of either matrix. -/
def pf_BlazeMat (conv : Val F → Val F) (rnd : F → Val F) (K : Env F)
    (X : BlazeMat F) (df1_par df2_par : Val F) (log_form : Bool)
    (pad : Nat → Nat) (uninit : Nat → Val F) : Option (BlazeMat F) :=
  let mat_out : BlazeMat F := BlazeMat.sized X.To X.rows X.columns pad uninit
  if X.rows * X.spacing ≤ X.capacity ∧ X.rows * X.spacing ≤ mat_out.capacity then
    some { mat_out with
      data := internal.pf_vec conv rnd K X.data df1_par df2_par log_form
        mat_out.data (X.rows * X.spacing) }
  else none

/-- Overload `pf(const EigMat<Ta,iTr,iTc>& X, ...)`. -/
def pf_EigMat (conv : Val F → Val F) (rnd : F → Val F) (K : Env F)
    (X : EigMat F) (df1_par df2_par : Val F) (log_form : Bool)
    (uninit : Nat → Val F) : EigMat F :=
  let mat_out : EigMat F := EigMat.mk X.rows X.cols uninit
  { mat_out with
    data := internal.pf_vec conv rnd K X.data df1_par df2_par log_form
      mat_out.data mat_out.size }

/-! #### Container overloads of `qbern` (quant/qbern.ipp), typed -/

/-- Overload `qbern(const ArmaMat<Ta>& X, ...)`. -/
def qbern_ArmaMat (conv : Val F → Val F) (rnd : F → Val F)
    (X : ArmaMat F) (prob_par : Val F)
    (uninit : Nat → Val F) : ArmaMat F :=
  let mat_out : ArmaMat F := ArmaMat.mk X.n_rows X.n_cols uninit
  { mat_out with
    memptr := internal.qbern_vec conv rnd X.memptr prob_par
      mat_out.memptr mat_out.n_elem }

/-- Overload `qbern(const ArmaGen<mT,tT>& X, ...)`. -/
def qbern_ArmaGen (conv : Val F → Val F) (rnd : F → Val F)
    (X : ArmaGen F) (prob_par : Val F)
    (uninit : Nat → Val F) : ArmaMat F :=
  qbern_ArmaMat conv rnd X.eval prob_par uninit

/-- Overload `qbern(const BlazeMat<Ta,To>& X, ...)`, with the bounds of the storage tracked: the
loop reads `X.data()` and writes `mat_out.data()` at the offsets below `rows*spacing`; `none`
stands for the undefined behaviour of an access past the storage of either matrix. -/
def qbern_BlazeMat (conv : Val F → Val F) (rnd : F → Val F)
    (X : BlazeMat F) (prob_par : Val F)
    (pad : Nat → Nat) (uninit : Nat → Val F) : Option (BlazeMat F) :=
  let mat_out : BlazeMat F := BlazeMat.sized X.To X.rows X.columns pad uninit
  if X.rows * X.spacing ≤ X.capacity ∧ X.rows * X.spacing ≤ mat_out.capacity then
    some { mat_out with
      data := internal.qbern_vec conv rnd X.data prob_par
        mat_out.data (X.rows * X.spacing) }
  else none

/-- Overload `qbern(const EigMat<Ta,iTr,iTc>& X, ...)`. -/
def qbern_EigMat (conv : Val F → Val F) (rnd : F → Val F)
    (X : EigMat F) (prob_par : Val F)
    (uninit : Nat → Val F) : EigMat F :=
  let mat_out : EigMat F := EigMat.mk X.rows X.cols uninit
  { mat_out with
    data := internal.qbern_vec conv rnd X.data prob_par
      mat_out.data mat_out.size }

/-! #### Container overloads of `qgamma` (quant/qgamma.ipp), typed -/

/-- Overload `qgamma(const ArmaMat<Ta>& X, ...)`. -/
def qgamma_ArmaMat (conv : Val F → Val F) (rnd : F → Val F) (K : Env F)
    (X : ArmaMat F) (shape_par scale_par : Val F)
    (uninit : Nat → Val F) : ArmaMat F :=
  let mat_out : ArmaMat F := ArmaMat.mk X.n_rows X.n_cols uninit
  { mat_out with
    memptr := internal.qgamma_vec conv rnd K X.memptr shape_par scale_par
      mat_out.memptr mat_out.n_elem }

/-- Overload `qgamma(const ArmaGen<mT,tT>& X, ...)`. -/
def qgamma_ArmaGen (conv : Val F → Val F) (rnd : F → Val F) (K : Env F)
    (X : ArmaGen F) (shape_par scale_par : Val F)
    (uninit : Nat → Val F) : ArmaMat F :=
  qgamma_ArmaMat conv rnd K X.eval shape_par scale_par uninit

/-- Overload `qgamma(const BlazeMat<Ta,To>& X, ...)`, with the bounds of the storage tracked: the
loop reads `X.data()` and writes `mat_out.data()` at the offsets below `rows*spacing`; `none`
stands for the undefined behaviour of an access past the storage of either matrix. -/
def qgamma_BlazeMat (conv : Val F → Val F) (rnd : F → Val F) (K : Env F)
    (X : BlazeMat F) (shape_par scale_par : Val F)
    (pad : Nat → Nat) (uninit : Nat → Val F) : Option (BlazeMat F) :=
  let mat_out : BlazeMat F := BlazeMat.sized X.To X.rows X.columns pad uninit
  if X.rows * X.spacing ≤ X.capacity ∧ X.rows * X.spacing ≤ mat_out.capacity then
    some { mat_out with
      data := internal.qgamma_vec conv rnd K X.data shape_par scale_par
        mat_out.data (X.rows * X.spacing) }
  else none

/-- Overload `qgamma(const EigMat<Ta,iTr,iTc>& X, ...)`. -/
def qgamma_EigMat (conv : Val F → Val F) (rnd : F → Val F) (K : Env F)
    (X : EigMat F) (shape_par scale_par : Val F)
    (uninit : Nat → Val F) : EigMat F :=
  let mat_out : EigMat F := EigMat.mk X.rows X.cols uninit
  { mat_out with
    data := internal.qgamma_vec conv rnd K X.data shape_par scale_par
      mat_out.data mat_out.size }

/-! #### Container overloads of `qlogis` (quant/qlogis.ipp), typed -/

/-- Overload `qlogis(const ArmaMat<Ta>& X, ...)`. -/
def qlogis_ArmaMat (conv : Val F → Val F) (rnd : F → Val F) (K : Env F)
    (X : ArmaMat F) (mu_par sigma_par : Val F)
    (uninit : Nat → Val F) : ArmaMat F :=
  let mat_out : ArmaMat F := ArmaMat.mk X.n_rows X.n_cols uninit
  { mat_out with
    memptr := internal.qlogis_vec conv rnd K X.memptr mu_par sigma_par
      mat_out.memptr mat_out.n_elem }

/-- Overload `qlogis(const ArmaGen<mT,tT>& X, ...)`. -/
def qlogis_ArmaGen (conv : Val F → Val F) (rnd : F → Val F) (K : Env F)
    (X : ArmaGen F) (mu_par sigma_par : Val F)
    (uninit : Nat → Val F) : ArmaMat F :=
  qlogis_ArmaMat conv rnd K X.eval mu_par sigma_par uninit

/-- Overload `qlogis(const BlazeMat<Ta,To>& X, ...)`, with the bounds of the storage tracked: the
loop reads `X.data()` and writes `mat_out.data()` at the offsets below `rows*spacing`; `none`
stands for the undefined behaviour of an access past the storage of either matrix. -/
def qlogis_BlazeMat (conv : Val F → Val F) (rnd : F → Val F) (K : Env F)
    (X : BlazeMat F) (mu_par sigma_par : Val F)
    (pad : Nat → Nat) (uninit : Nat → Val F) : Option (BlazeMat F) :=
  let mat_out : BlazeMat F := BlazeMat.sized X.To X.rows X.columns pad uninit
  if X.rows * X.spacing ≤ X.capacity ∧ X.rows * X.spacing ≤ mat_out.capacity then
    some { mat_out with
      data := internal.qlogis_vec conv rnd K X.data mu_par sigma_par
        mat_out.data (X.rows * X.spacing) }
  else none

/-- Overload `qlogis(const EigMat<Ta,iTr,iTc>& X, ...)`. -/
def qlogis_EigMat (conv : Val F → Val F) (rnd : F → Val F) (K : Env F)
    (X : EigMat F) (mu_par sigma_par : Val F)
    (uninit : Nat → Val F) : EigMat F :=
  let mat_out : EigMat F := EigMat.mk X.rows X.cols uninit
  { mat_out with
    data := internal.qlogis_vec conv rnd K X.data mu_par sigma_par
      mat_out.data mat_out.size }

end machine

/-! ## Theorems -/

namespace Val

@[simp] theorem neg_fin (a : F) : -(fin a) = fin (-a) := rfl

@[simp] theorem add_fin (a b : F) : fin a + fin b = fin (a + b) := rfl

@[simp] theorem sub_fin (a b : F) : fin a - fin b = fin (a - b) := by
  show add (fin a) (neg (fin b)) = _
  simp [add, neg, sub_eq_add_neg]

@[simp] theorem mul_fin (a b : F) : fin a * fin b = fin (a * b) := rfl

theorem div_fin (a : F) {b : F} (hb : b ≠ 0) : fin a / fin b = fin (a / b) := by
  show div (fin a) (fin b) = _
  simp [div, hb]

theorem lt_asymm_false {a b : Val F} (h : lt a b = true) : lt b a = false := by
  cases a <;> cases b <;> simp_all [lt]
  exact le_of_lt h

theorem feq_lt_false {a b : Val F} (h : feq a b = true) : lt a b = false := by
  cases a <;> cases b <;> simp_all [lt, feq]

theorem feq_gt_false {a b : Val F} (h : feq a b = true) : lt b a = false := by
  cases a <;> cases b <;> simp_all [lt, feq]

theorem lt_feq_false {a b : Val F} (h : lt a b = true) : feq a b = false := by
  cases a <;> cases b <;> simp_all [lt, feq]
  exact ne_of_lt h

theorem gt_feq_false {a b : Val F} (h : lt b a = true) : feq a b = false := by
  cases a <;> cases b <;> simp_all [lt, feq]
  exact ne_of_gt h

theorem ge_not_gt {a b : Val F} (h : ge a b = true) : gt b a = false := by
  cases a <;> cases b <;> simp_all [ge, gt, le, lt, feq]
  rcases h with h | h
  · exact le_of_lt h
  · exact le_of_eq h

end Val

open internal

/-! ### Contracts met by the reference environment -/

/-- The logarithm and log-gamma of the reference environment: the logarithm at 0 and at a
positive real, log-gamma at a positive real, and the two identities `log (exp y) = y` and
`log (1 / s) = -log s` for `s > 0`.  The values at the infinities, and those of the
exponential and of the arctangent, hold by definition. -/
theorem refEnv_contracts :
    refEnv.log (fin 0) = ninf ∧
    (∀ r : ℝ, 0 < r → refEnv.log (fin r) = fin (Real.log r)) ∧
    (∀ r : ℝ, 0 < r → refEnv.lgamma (fin r) = fin (Real.log (Real.Gamma r))) ∧
    (∀ y : Val ℝ, refEnv.log (refEnv.exp y) = y) ∧
    (∀ s : Val ℝ, gt s (fin 0) = true → refEnv.log (fin 1 / s) = - refEnv.log s) := by
  have hzero : refEnv.log (fin 0) = ninf := (if_neg (lt_irrefl (0 : ℝ))).trans (if_pos rfl)
  have hfin : ∀ r : ℝ, 0 < r → refEnv.log (fin r) = fin (Real.log r) := fun r hr => if_pos hr
  refine ⟨hzero, hfin, fun r hr => if_pos hr, ?_, ?_⟩
  · intro y
    cases y with
    | nan => rfl
    | ninf => exact hzero
    | pinf => rfl
    | fin r => exact (hfin _ (Real.exp_pos r)).trans (congrArg fin (Real.log_exp r))
  · intro s hs
    cases s with
    | nan => simp [gt, lt] at hs
    | ninf => simp [gt, lt] at hs
    | pinf =>
      have e : (fin 1 / pinf : Val ℝ) = fin 0 := by
        show div (fin 1) pinf = fin 0
        simp [div]
      rw [e, hzero]
      rfl
    | fin r =>
      have hr : 0 < r := by simpa [gt, lt] using hs
      rw [div_fin 1 (ne_of_gt hr), hfin _ (one_div_pos.2 hr), hfin r hr, one_div, Real.log_inv]
      rfl

/-! ### C1: invalid parameters -/

/-- C1: for each of the nine scalar evaluators, whenever the parameter predicate of the family
fails, the result is NaN, for every primary input `x` or `p` (boundary inputs included) and
for both values of `log_form`. -/
theorem invalid_parameters_yield_nan (K : Env F) (x p a b : Val F) (log_form : Bool) :
    (chisq_sanity_check a = false → dchisq K x a log_form = nan) ∧
    (gamma_sanity_check a b = false → dgamma K x a b log_form = nan) ∧
    (lnorm_sanity_check a b = false → dlnorm K x a b log_form = nan) ∧
    (t_sanity_check a = false → dt K x a log_form = nan) ∧
    (cauchy_sanity_check a b = false → pcauchy K x a b log_form = nan) ∧
    (f_sanity_check a b = false → pf K x a b log_form = nan) ∧
    (bern_sanity_check a = false → qbern p a = nan) ∧
    (gamma_sanity_check a b = false → qgamma K p a b = nan) ∧
    (logis_sanity_check a b = false → qlogis K p a b = nan) := by
  refine ⟨?_, ?_, ?_, ?_, ?_, ?_, ?_, ?_, ?_⟩ <;> intro h
  · simp [dchisq, dchisq_type_check, dchisq_vals_check, h]
  · simp [dgamma, dgamma_type_check, dgamma_vals_check, h]
  · simp [dlnorm, dlnorm_type_check, dlnorm_vals_check, h]
  · simp [dt, dt_type_check, dt_vals_check, h]
  · simp [pcauchy, pcauchy_type_check, pcauchy_vals_check, h]
  · simp [pf, pf_type_check, pf_vals_check, h]
  · simp [qbern, qbern_type_check, qbern_compute, h]
  · simp [qgamma, qgamma_type_check, qgamma_vals_check, h]
  · simp [qlogis, qlogis_type_check, qlogis_vals_check, h]

/-- C1 at df = shape = mu = prob = -1 and scale = sigma = df2 = 0, with x = 0 and p = 1. -/
theorem invalid_parameters_yield_nan_witness :
    dchisq refEnv (fin 0) (fin (-1)) true = nan ∧
    dgamma refEnv (fin 0) (fin (-1)) (fin 0) true = nan ∧
    dlnorm refEnv (fin 0) (fin (-1)) (fin 0) true = nan ∧
    dt refEnv (fin 0) (fin (-1)) true = nan ∧
    pcauchy refEnv (fin 0) (fin (-1)) (fin 0) true = nan ∧
    pf refEnv (fin 0) (fin (-1)) (fin 0) true = nan ∧
    qbern (fin 1) (fin (-1) : Val ℝ) = nan ∧
    qgamma refEnv (fin 1) (fin (-1)) (fin 0) = nan ∧
    qlogis refEnv (fin 1) (fin (-1)) (fin 0) = nan := by
  have h := invalid_parameters_yield_nan refEnv (fin 0) (fin 1) (fin (-1)) (fin 0) true
  refine ⟨h.1 ?_, h.2.1 ?_, h.2.2.1 ?_, h.2.2.2.1 ?_, h.2.2.2.2.1 ?_, h.2.2.2.2.2.1 ?_,
    h.2.2.2.2.2.2.1 ?_, h.2.2.2.2.2.2.2.1 ?_, h.2.2.2.2.2.2.2.2 ?_⟩ <;>
  simp [chisq_sanity_check, gamma_sanity_check, lnorm_sanity_check, t_sanity_check,
    cauchy_sanity_check, f_sanity_check, bern_sanity_check, logis_sanity_check,
    gt, ge, le, lt, feq, isFinite]

/-! ### C2: the Gamma density on the general branch -/

/-- C4: for a valid df, `dchisq(0, df, false)` is +infinity when df < 2, exactly 0.5 when
df == 2 and 0 when df > 2; with `log_form = true` the results are +infinity, `log(0.5)` and
-infinity, given that the kernel has `log(0) = -infinity` and `log(+infinity) = +infinity`. -/
theorem dchisq_at_zero (K : Env F) (dof : Val F)
    (hlog0 : K.log (fin 0) = ninf) (hloginf : K.log pinf = pinf)
    (hvalid : chisq_sanity_check dof = true) :
    (lt dof (fin 2) = true →
      dchisq K (fin 0) dof false = pinf ∧ dchisq K (fin 0) dof true = pinf) ∧
    (feq dof (fin 2) = true →
      dchisq K (fin 0) dof false = fin (1/2) ∧ dchisq K (fin 0) dof true = K.log (fin (1/2))) ∧
    (gt dof (fin 2) = true →
      dchisq K (fin 0) dof false = fin 0 ∧ dchisq K (fin 0) dof true = ninf) := by
  have hx0 : lt (fin (0 : F)) (fin 0) = false := by simp [lt]
  have hxe : feq (fin (0 : F)) (fin 0) = true := by simp [feq]
  have hd : ∀ lf, dchisq K (fin 0) dof lf = log_if K (dchisq_limit_vals (fin 0) dof) lf := by
    intro lf
    simp [dchisq, dchisq_type_check, dchisq_vals_check, hvalid, hx0, hxe]
  refine ⟨fun h => ?_, fun h => ?_, fun h => ?_⟩
  · simp [hd, dchisq_limit_vals, h, log_if, hloginf]
  · simp [hd, dchisq_limit_vals, feq_lt_false h, h, log_if]
  · simp [hd, dchisq_limit_vals, lt_asymm_false h, gt_feq_false h, log_if, hlog0]

/-- C4 at df = 1, 2 and 3, in the reference environment. -/
theorem dchisq_at_zero_witness :
    (dchisq refEnv (fin 0) (fin 1) false = pinf ∧ dchisq refEnv (fin 0) (fin 1) true = pinf) ∧
    (dchisq refEnv (fin 0) (fin 2) false = fin (1/2) ∧
      dchisq refEnv (fin 0) (fin 2) true = refEnv.log (fin (1/2))) ∧
    (dchisq refEnv (fin 0) (fin 3) false = fin 0 ∧ dchisq refEnv (fin 0) (fin 3) true = ninf) := by
  refine ⟨(dchisq_at_zero refEnv (fin 1) refEnv_contracts.1 rfl ?_).1 ?_,
    (dchisq_at_zero refEnv (fin 2) refEnv_contracts.1 rfl ?_).2.1 ?_,
    (dchisq_at_zero refEnv (fin 3) refEnv_contracts.1 rfl ?_).2.2 ?_⟩ <;>
  norm_num [chisq_sanity_check, gt, lt, feq]

/-! ### C5: below the support -/

/-- C5: for valid parameters and every x < 0 (the infinite one included), `dgamma` and
`dchisq` return exactly 0 in natural form and -infinity in log form; the only kernel fact used
is `log(0) = -infinity`, for an arbitrary kernel, so the log-gamma formula plays no part. -/
theorem density_below_support (K : Env F) (x shape scale dof : Val F)
    (hlog0 : K.log (fin 0) = ninf) (hx : lt x (fin 0) = true) :
    (gamma_sanity_check shape scale = true →
      dgamma K x shape scale false = fin 0 ∧ dgamma K x shape scale true = ninf) ∧
    (chisq_sanity_check dof = true →
      dchisq K x dof false = fin 0 ∧ dchisq K x dof true = ninf) := by
  constructor <;> intro hv
  · simp [dgamma, dgamma_type_check, dgamma_vals_check, hv, hx, log_if, hlog0]
  · simp [dchisq, dchisq_type_check, dchisq_vals_check, hv, hx, log_if, hlog0]

/-- C5 at x = -1 with shape 2, scale 3 and df 4, in the reference environment. -/
theorem density_below_support_witness :
    (dgamma refEnv (fin (-1)) (fin 2) (fin 3) false = fin 0 ∧
      dgamma refEnv (fin (-1)) (fin 2) (fin 3) true = ninf) ∧
    (dchisq refEnv (fin (-1)) (fin 4) false = fin 0 ∧
      dchisq refEnv (fin (-1)) (fin 4) true = ninf) := by
  have h := density_below_support refEnv (fin (-1)) (fin 2) (fin 3) (fin 4) refEnv_contracts.1
    (by simp [lt])
  exact ⟨h.1 (by simp [gamma_sanity_check, ge, gt, le, lt]),
    h.2 (by simp [chisq_sanity_check, gt, lt])⟩

/-! ### C6: log form against natural form -/

/-- C7: +infinity passes the Student-t parameter check, and for every x and both values of
`log_form`, `dt(x, +infinity, log_form)` is `dnorm(x, 0, 1, log_form)`: the infinite-df guard
is taken before the log-gamma formula. -/
theorem dt_infinite_dof_is_dnorm (K : Env F) (x : Val F) (log_form : Bool) :
    t_sanity_check (pinf : Val F) = true ∧
    dt K x pinf log_form = K.dnorm x (fin 0) (fin 1) log_form := by
  have hv : t_sanity_check (pinf : Val F) = true := by simp [t_sanity_check, gt, lt]
  exact ⟨hv, by simp [dt, dt_type_check, dt_vals_check, hv, feq]⟩

/-! ### C8, C9: the F distribution function -/

/-- C9: for valid df1, df2 and every x strictly below machine epsilon, `pf` returns exactly 0
in natural form and -infinity in log form, for an arbitrary kernel with `log(0) = -infinity`
(so the incomplete-beta kernel plays no part); at x equal to epsilon the kernel branch is
taken. -/
theorem pf_below_epsilon (K : Env F) (x df1 df2 : Val F)
    (hlog0 : K.log (fin 0) = ninf) (hvalid : f_sanity_check df1 df2 = true) :
    (lt x (fin K.epsilon) = true →
      pf K x df1 df2 false = fin 0 ∧ pf K x df1 df2 true = ninf) ∧
    (∀ log_form, pf K (fin K.epsilon) df1 df2 log_form
      = log_if K (K.incomplete_beta (df1 / fin 2) (df2 / fin 2)
          ((df1 * fin K.epsilon / df2) / (fin 1 + df1 * fin K.epsilon / df2))) log_form) := by
  constructor
  · intro hx
    have hg : gt (fin K.epsilon) x = true := hx
    constructor <;> simp [pf, pf_type_check, pf_vals_check, hvalid, hg, log_if, hlog0]
  · intro lf
    simp [pf, pf_type_check, pf_vals_check, pf_compute, hvalid, gt, lt]

/-- C9 in the reference environment (epsilon = 2^-52) with df1 = 10, df2 = 12: a negative x,
zero and the positive x = 2^-53 all give 0 and -infinity. -/
theorem pf_below_epsilon_witness :
    (pf refEnv (fin (-1)) (fin 10) (fin 12) false = fin 0 ∧
      pf refEnv (fin (-1)) (fin 10) (fin 12) true = ninf) ∧
    (pf refEnv (fin 0) (fin 10) (fin 12) false = fin 0 ∧
      pf refEnv (fin 0) (fin 10) (fin 12) true = ninf) ∧
    (pf refEnv (fin (1 / 2 ^ 53)) (fin 10) (fin 12) false = fin 0 ∧
      pf refEnv (fin (1 / 2 ^ 53)) (fin 10) (fin 12) true = ninf) := by
  have hv : f_sanity_check (fin (10 : ℝ)) (fin 12) = true := by simp [f_sanity_check, gt, lt]
  refine ⟨(pf_below_epsilon refEnv (fin (-1)) (fin 10) (fin 12) refEnv_contracts.1 hv).1 ?_,
    (pf_below_epsilon refEnv (fin 0) (fin 10) (fin 12) refEnv_contracts.1 hv).1 ?_,
    (pf_below_epsilon refEnv (fin (1 / 2 ^ 53)) (fin 10) (fin 12) refEnv_contracts.1 hv).1 ?_⟩ <;>
  norm_num [lt, (show refEnv.epsilon = 1 / 2 ^ 52 from rfl)]

/-! ### C10: the Cauchy distribution function -/

/-- The real Cauchy distribution function at a standardised argument lies strictly between 0
and 1. -/
theorem cauchy_cdf_bounds (z : ℝ) :
    0 < 1 / 2 + Real.arctan z / Real.pi ∧ 1 / 2 + Real.arctan z / Real.pi < 1 := by
  have h1 := Real.neg_pi_div_two_lt_arctan z
  have h2 := Real.arctan_lt_pi_div_two z
  have h3 : -(1 / 2) < Real.arctan z / Real.pi := by
    rw [lt_div_iff₀ Real.pi_pos]; linarith
  have h4 : Real.arctan z / Real.pi < 1 / 2 := by
    rw [div_lt_iff₀ Real.pi_pos]; linarith
  constructor <;> linarith

/-- The real Cauchy distribution function is monotone. -/
theorem cauchy_cdf_mono {z1 z2 : ℝ} (h : z1 ≤ z2) :
    1 / 2 + Real.arctan z1 / Real.pi ≤ 1 / 2 + Real.arctan z2 / Real.pi := by
  have h1 : Real.arctan z1 ≤ Real.arctan z2 := Real.arctan_strictMono.monotone h
  have h2 : Real.arctan z1 / Real.pi ≤ Real.arctan z2 / Real.pi :=
    div_le_div_of_nonneg_right h1 (le_of_lt Real.pi_pos)
  linarith

/-- Evaluation of `pcauchy` at finite arguments with a valid scale. -/
theorem pcauchy_fin (K : Env ℝ)
    (hpi : K.GCEM_PI = Real.pi)
    (hatan : ∀ r : ℝ, K.atan (fin r) = fin (Real.arctan r))
    (x mu sigma : ℝ) (hsigma : 0 < sigma) (log_form : Bool) :
    pcauchy K (fin x) (fin mu) (fin sigma) log_form
      = log_if K (fin (1 / 2 + Real.arctan ((x - mu) / sigma) / Real.pi)) log_form := by
  have hv : cauchy_sanity_check (fin mu) (fin sigma) = true := by
    simp [cauchy_sanity_check, isFinite, gt, lt, hsigma]
  have hc : pcauchy_compute K ((fin x - fin mu) / fin sigma)
      = fin (1 / 2 + Real.arctan ((x - mu) / sigma) / Real.pi) := by
    rw [pcauchy_compute, sub_fin, div_fin _ (ne_of_gt hsigma), hatan, hpi,
      div_fin _ Real.pi_ne_zero, add_fin]
  simp only [pcauchy, pcauchy_type_check, pcauchy_vals_check, hv, hc]
  rfl

/-- Evaluation of `pcauchy` at `x = -infinity`. -/
theorem pcauchy_ninf (K : Env ℝ)
    (hpi : K.GCEM_PI = Real.pi)
    (hatan : K.atan ninf = fin (-(Real.pi / 2)))
    (mu sigma : ℝ) (hsigma : 0 < sigma) (log_form : Bool) :
    pcauchy K ninf (fin mu) (fin sigma) log_form = log_if K (fin 0) log_form := by
  have hv : cauchy_sanity_check (fin mu) (fin sigma) = true := by
    simp [cauchy_sanity_check, isFinite, gt, lt, hsigma]
  have hz : (ninf - fin mu) / fin sigma = (ninf : Val ℝ) := by
    show div (add ninf (neg (fin mu))) (fin sigma) = ninf
    simp [neg, add, div, le_of_lt hsigma]
  have hc : pcauchy_compute K ((ninf - fin mu) / fin sigma) = fin 0 := by
    rw [hz, pcauchy_compute, hatan, hpi, div_fin _ Real.pi_ne_zero, add_fin]
    congr 1
    field_simp
  simp only [pcauchy, pcauchy_type_check, pcauchy_vals_check, hv, hc]
  rfl

/-- Evaluation of `pcauchy` at `x = +infinity`. -/
theorem pcauchy_pinf (K : Env ℝ)
    (hpi : K.GCEM_PI = Real.pi)
    (hatan : K.atan pinf = fin (Real.pi / 2))
    (mu sigma : ℝ) (hsigma : 0 < sigma) (log_form : Bool) :
    pcauchy K pinf (fin mu) (fin sigma) log_form = log_if K (fin 1) log_form := by
  have hv : cauchy_sanity_check (fin mu) (fin sigma) = true := by
    simp [cauchy_sanity_check, isFinite, gt, lt, hsigma]
  have hz : (pinf - fin mu) / fin sigma = (pinf : Val ℝ) := by
    show div (add pinf (neg (fin mu))) (fin sigma) = pinf
    simp [neg, add, div, le_of_lt hsigma]
  have hc : pcauchy_compute K ((pinf - fin mu) / fin sigma) = fin 1 := by
    rw [hz, pcauchy_compute, hatan, hpi, div_fin _ Real.pi_ne_zero, add_fin]
    congr 1
    field_simp
    ring
  simp only [pcauchy, pcauchy_type_check, pcauchy_vals_check, hv, hc]
  rfl

/-- The comparison `<=` on finite values is the order of the field. -/
theorem Val.le_fin_iff (a b : F) : le (fin a) (fin b) = true ↔ a ≤ b := by
  simp [le, lt, feq, le_iff_lt_or_eq]

/-- The output transform `log_if` preserves the order of non-negative finite values. -/
theorem log_if_mono (K : Env ℝ)
    (hlog : ∀ r : ℝ, 0 < r → K.log (fin r) = fin (Real.log r))
    (hlog0 : K.log (fin 0) = ninf)
    {a b : ℝ} (ha : 0 ≤ a) (hab : a ≤ b) (log_form : Bool) :
    le (log_if K (fin a) log_form) (log_if K (fin b) log_form) = true := by
  cases log_form with
  | false => simpa [log_if] using (Val.le_fin_iff a b).2 hab
  | true =>
    simp only [log_if, if_true]
    rcases eq_or_lt_of_le ha with h0 | h0
    · rw [← h0, hlog0]
      rcases eq_or_lt_of_le hab with hb | hb
      · rw [← hb, ← h0, hlog0]; rfl
      · rw [hlog b (lt_of_le_of_lt ha hb)]; rfl
    · rw [hlog a h0, hlog b (lt_of_lt_of_le h0 hab)]
      exact (Val.le_fin_iff _ _).2 (Real.log_le_log h0 hab)

/-- C11: for a finite mu, a finite sigma > 0 and every x1 <= x2 (the infinities included),
`pcauchy(x1, mu, sigma, log_form) <= pcauchy(x2, mu, sigma, log_form)` for both values of
`log_form`, given a kernel whose constant and functions are pi, arctan (with its limits at the
infinities) and the real logarithm (with `log(0) = -infinity`). -/
theorem pcauchy_monotone (K : Env ℝ)
    (hpi : K.GCEM_PI = Real.pi)
    (hatan : ∀ r : ℝ, K.atan (fin r) = fin (Real.arctan r))
    (hatan_ninf : K.atan ninf = fin (-(Real.pi / 2)))
    (hatan_pinf : K.atan pinf = fin (Real.pi / 2))
    (hlog : ∀ r : ℝ, 0 < r → K.log (fin r) = fin (Real.log r))
    (hlog0 : K.log (fin 0) = ninf)
    (x1 x2 : Val ℝ) (mu sigma : ℝ) (hsigma : 0 < sigma) (hx : le x1 x2 = true)
    (log_form : Bool) :
    le (pcauchy K x1 (fin mu) (fin sigma) log_form)
      (pcauchy K x2 (fin mu) (fin sigma) log_form) = true := by
  have hb := fun z => cauchy_cdf_bounds z
  cases x1 with
  | nan => simp [le, lt, feq] at hx
  | pinf =>
    cases x2 with
    | pinf =>
      rw [pcauchy_pinf K hpi hatan_pinf mu sigma hsigma]
      exact log_if_mono K hlog hlog0 zero_le_one (le_refl _) log_form
    | nan => simp [le, lt, feq] at hx
    | ninf => simp [le, lt, feq] at hx
    | fin r => simp [le, lt, feq] at hx
  | ninf =>
    rw [pcauchy_ninf K hpi hatan_ninf mu sigma hsigma]
    cases x2 with
    | nan => simp [le, lt, feq] at hx
    | ninf =>
      rw [pcauchy_ninf K hpi hatan_ninf mu sigma hsigma]
      exact log_if_mono K hlog hlog0 (le_refl _) (le_refl _) log_form
    | pinf =>
      rw [pcauchy_pinf K hpi hatan_pinf mu sigma hsigma]
      exact log_if_mono K hlog hlog0 (le_refl _) zero_le_one log_form
    | fin r =>
      rw [pcauchy_fin K hpi hatan r mu sigma hsigma]
      exact log_if_mono K hlog hlog0 (le_refl _) (le_of_lt (hb _).1) log_form
  | fin r1 =>
    rw [pcauchy_fin K hpi hatan r1 mu sigma hsigma]
    cases x2 with
    | nan => simp [le, lt, feq] at hx
    | ninf => simp [le, lt, feq] at hx
    | pinf =>
      rw [pcauchy_pinf K hpi hatan_pinf mu sigma hsigma]
      exact log_if_mono K hlog hlog0 (le_of_lt (hb _).1) (le_of_lt (hb _).2) log_form
    | fin r2 =>
      rw [pcauchy_fin K hpi hatan r2 mu sigma hsigma]
      have h12 : r1 ≤ r2 := (Val.le_fin_iff r1 r2).1 hx
      have hz : (r1 - mu) / sigma ≤ (r2 - mu) / sigma :=
        div_le_div_of_nonneg_right (by linarith) (le_of_lt hsigma)
      exact log_if_mono K hlog hlog0 (le_of_lt (hb _).1) (cauchy_cdf_mono hz) log_form

/-- C11 at mu = 1, sigma = 3 in the reference environment: from x = 0 to x = 2.5 in log form,
and from x = -infinity to x = 2.5 in natural form. -/
theorem pcauchy_monotone_witness :
    le (pcauchy refEnv (fin 0) (fin 1) (fin 3) true)
      (pcauchy refEnv (fin (5/2)) (fin 1) (fin 3) true) = true ∧
    le (pcauchy refEnv ninf (fin 1) (fin 3) false)
      (pcauchy refEnv (fin (5/2)) (fin 1) (fin 3) false) = true :=
  ⟨pcauchy_monotone refEnv rfl (fun _ => rfl) rfl rfl
      refEnv_contracts.2.1 refEnv_contracts.1 (fin 0) (fin (5/2)) 1 3 (by norm_num)
      (by norm_num [le, lt, feq]) true,
    pcauchy_monotone refEnv rfl (fun _ => rfl) rfl rfl
      refEnv_contracts.2.1 refEnv_contracts.1 ninf (fin (5/2)) 1 3 (by norm_num)
      (by norm_num [le, lt, feq]) false⟩

/-! ### Helpers for the F distribution function -/

/-- Evaluation of `pf` on the kernel branch at finite arguments. -/
theorem pf_fin_kernel (K : Env F) {x d1 d2 : F} (h1 : 0 < d1) (h2 : 0 < d2)
    (heps : 0 < K.epsilon) (hx : K.epsilon ≤ x) (log_form : Bool) :
    pf K (fin x) (fin d1) (fin d2) log_form
      = log_if K (K.incomplete_beta (fin (d1 / 2)) (fin (d2 / 2))
          (fin ((d1 * x / d2) / (1 + d1 * x / d2)))) log_form := by
  have hv : f_sanity_check (fin d1) (fin d2) = true := by
    simp [f_sanity_check, gt, lt, h1, h2]
  have hg : gt (fin K.epsilon) (fin x) = false := by simp [gt, lt, hx]
  have hx0 : 0 < x := lt_of_lt_of_le heps hx
  have ht : 0 < d1 * x / d2 := div_pos (mul_pos h1 hx0) h2
  have hd : (1 + d1 * x / d2) ≠ 0 := by
    have : 0 < 1 + d1 * x / d2 := by linarith
    exact ne_of_gt this
  simp only [pf, pf_type_check, pf_vals_check, pf_compute, hv, hg]
  rw [mul_fin, div_fin _ (ne_of_gt h2), add_fin, div_fin _ hd,
    div_fin _ (two_ne_zero), div_fin _ (two_ne_zero)]
  rfl

/-- With both parameters 1 the reference incomplete beta function is the identity on
[0,1]. -/
theorem refIncompleteBeta_one_one (z : ℝ) (h0 : 0 ≤ z) (h1 : z ≤ 1) :
    refEnv.incomplete_beta (fin 1) (fin 1) (fin z) = fin z := by
  have hI : betaIntegrand 1 1 = fun _ => (1 : ℝ) := by
    funext t
    show t ^ ((1 : ℝ) - 1) * (1 - t) ^ ((1 : ℝ) - 1) = 1
    simp
  have hc : (0 : ℝ) < 1 ∧ (0 : ℝ) < 1 ∧ 0 ≤ z ∧ z ≤ 1 := ⟨one_pos, one_pos, h0, h1⟩
  refine (if_pos hc).trans ?_
  rw [hI]
  simp

/-! ### C14 to C17: the quantile functions -/

/-- C14: for valid parameters and an arbitrary kernel, `qgamma(0, shape, scale) = 0`,
`qgamma(1, shape, scale) = +infinity`, `qlogis(0, mu, sigma) = -infinity` and
`qlogis(1, mu, sigma) = +infinity`. -/
theorem quantile_endpoints (K : Env F) (shape scale mu sigma : Val F) :
    (gamma_sanity_check shape scale = true →
      qgamma K (fin 0) shape scale = fin 0 ∧ qgamma K (fin 1) shape scale = pinf) ∧
    (logis_sanity_check mu sigma = true →
      qlogis K (fin 0) mu sigma = ninf ∧ qlogis K (fin 1) mu sigma = pinf) := by
  constructor <;> intro hv
  · constructor <;>
    simp [qgamma, qgamma_type_check, qgamma_vals_check, hv, lt, gt, feq]
  · have h10 : ¬ (1 : F) < 0 := not_lt_of_gt zero_lt_one
    have hn : -(pinf : Val F) = ninf := rfl
    constructor <;>
    simp [qlogis, qlogis_type_check, qlogis_vals_check, hv, lt, gt, feq, h10, hn]

/-- C14 at the documented examples `qgamma(0, 2, 3)` and `qgamma(1, 2, 3)`, and at
`qlogis(0, 1, 2)` and `qlogis(1, 1, 2)`. -/
theorem quantile_endpoints_witness :
    (qgamma refEnv (fin 0) (fin 2) (fin 3) = fin 0 ∧ qgamma refEnv (fin 1) (fin 2) (fin 3) = pinf) ∧
    (qlogis refEnv (fin 0) (fin 1) (fin 2) = ninf ∧ qlogis refEnv (fin 1) (fin 1) (fin 2) = pinf) :=
  ⟨(quantile_endpoints refEnv (fin 2) (fin 3) (fin 1) (fin 2)).1
      (by simp [gamma_sanity_check, ge, gt, le, lt]),
    (quantile_endpoints refEnv (fin 2) (fin 3) (fin 1) (fin 2)).2
      (by simp [logis_sanity_check, gt, lt])⟩

/-- C15: for `qgamma`, `qlogis` and `qbern`, every p with p < 0 or p > 1 yields NaN; and for
every p with 0 <= p <= 1 the range guard is false, so that with valid parameters the result is
the one of the branches after the guard. -/
theorem quantile_range_guard (K : Env F) (p a b prob : Val F) :
    ((lt p (fin 0) || gt p (fin 1)) = true →
      qgamma K p a b = nan ∧ qlogis K p a b = nan ∧ qbern p prob = nan) ∧
    (ge p (fin 0) = true → le p (fin 1) = true →
      (lt p (fin 0) || gt p (fin 1)) = false ∧
      (gamma_sanity_check a b = true →
        qgamma K p a b = if feq p (fin 0) then fin 0
          else if feq p (fin 1) then pinf else qgamma_compute K p a b) ∧
      (logis_sanity_check a b = true →
        qlogis K p a b = if feq p (fin 0) then ninf
          else if feq p (fin 1) then pinf else qlogis_compute K p a b) ∧
      (bern_sanity_check prob = true →
        qbern p prob = if gt p (fin 1 - prob) then fin 1 else fin 0)) := by
  constructor
  · intro h
    refine ⟨?_, ?_, ?_⟩
    · simp only [qgamma, qgamma_type_check, qgamma_vals_check, h]
      split_ifs <;> rfl
    · simp only [qlogis, qlogis_type_check, qlogis_vals_check, h]
      split_ifs <;> rfl
    · simp only [qbern, qbern_type_check, qbern_compute, h]
      split_ifs <;> rfl
  · intro h0 h1
    have hg : (lt p (fin 0) || gt p (fin 1)) = false := by
      have e0 : lt p (fin 0) = false := ge_not_gt h0
      have e1 : gt p (fin 1) = false := ge_not_gt h1
      simp [e0, e1]
    refine ⟨hg, fun hv => ?_, fun hv => ?_, fun hv => ?_⟩
    · simp [qgamma, qgamma_type_check, qgamma_vals_check, hv, hg]
    · simp only [qlogis, qlogis_type_check, qlogis_vals_check, hv, hg]
      rfl
    · simp [qbern, qbern_type_check, qbern_compute, hv, hg]

/-- C15 in the reference environment: p = 3/2 is rejected by all three quantile functions, and
the range guard is false at p = 1/2. -/
theorem quantile_range_guard_witness :
    (qgamma refEnv (fin (3/2)) (fin 2) (fin 3) = nan ∧
      qlogis refEnv (fin (3/2)) (fin 2) (fin 3) = nan ∧
      qbern (fin (3/2)) (fin (4/10) : Val ℝ) = nan) ∧
    (lt (fin (1/2) : Val ℝ) (fin 0) || gt (fin (1/2) : Val ℝ) (fin 1)) = false :=
  ⟨(quantile_range_guard refEnv (fin (3/2)) (fin 2) (fin 3) (fin (4/10))).1
      (by norm_num [lt, gt]),
    ((quantile_range_guard refEnv (fin (1/2)) (fin 2) (fin 3) (fin (4/10))).2
      (by norm_num [ge, le, lt, feq]) (by norm_num [le, lt, feq])).1⟩

/-- The loop overwrites exactly the offsets `j .. j + count - 1`, each with the scalar result
for the input element at the same offset. -/
theorem eval_loop_apply {G : Type} (fn : Val G → Val G) (vals_in : Nat → Val G)
    (count : Nat) :
    ∀ (j : Nat) (vals_out : Nat → Val G) (i : Nat),
      eval_loop fn vals_in j count vals_out i
        = if j ≤ i ∧ i < j + count then fn (vals_in i) else vals_out i := by
  induction count with
  | zero =>
    intro j vals_out i
    have h : ¬ (j ≤ i ∧ i < j + 0) := by omega
    rw [eval_loop, if_neg h]
  | succ n ih =>
    intro j vals_out i
    rw [eval_loop, ih]
    by_cases h1 : j + 1 ≤ i ∧ i < j + 1 + n
    · have h2 : j ≤ i ∧ i < j + (n + 1) := by omega
      simp [h1, h2]
    · by_cases h3 : i = j
      · have h2 : j ≤ i ∧ i < j + (n + 1) := by omega
        subst h3
        simp [h1, h2]
      · have h2 : ¬ (j ≤ i ∧ i < j + (n + 1)) := by omega
        simp [h1, h2, Function.update_noteq h3]

/-- The macro overwrites exactly the offsets below `num_elem`. -/
theorem EVAL_DIST_FN_VEC_apply {G : Type} (fn : Val G → Val G)
    (vals_in vals_out : Nat → Val G)
    (num_elem i : Nat) :
    EVAL_DIST_FN_VEC fn vals_in vals_out num_elem i
      = if i < num_elem then fn (vals_in i) else vals_out i := by
  simp [EVAL_DIST_FN_VEC, eval_loop_apply]

/-! ### C21: the Blaze overloads -/

/-- Offsets reached by the flat loop of a Blaze overload: the output holds the scalar result
below `rows * spacing` and the content of the fresh storage from there on. -/
theorem dgamma_BlazeMat_data (K : Env F) (X : BlazeMat F) (a b : Val F) (log_form : Bool)
    (pad : Nat → Nat) (uninit : Nat → Val F) (k : Nat) :
    (dgamma_BlazeMat K X a b log_form pad uninit).data k
      = if k < X.rows * X.spacing then dgamma K (X.data k) a b log_form else uninit k := by
  simp [dgamma_BlazeMat, dgamma_vec, EVAL_DIST_FN_VEC_apply, BlazeMat.sized]

/-- The same for the Blaze overload of `pf`. -/
theorem pf_BlazeMat_data (K : Env F) (X : BlazeMat F) (a b : Val F) (log_form : Bool)
    (pad : Nat → Nat) (uninit : Nat → Val F) (k : Nat) :
    (pf_BlazeMat K X a b log_form pad uninit).data k
      = if k < X.rows * X.spacing then pf K (X.data k) a b log_form else uninit k := by
  simp [pf_BlazeMat, pf_vec, EVAL_DIST_FN_VEC_apply, BlazeMat.sized]

/-- Row-major Blaze matrices are covered: with the spacing of the input kept by the output
and at least `columns`, every logical element is the scalar result. -/
theorem dgamma_BlazeMat_rowMajor (K : Env F) (X : BlazeMat F) (a b : Val F)
    (log_form : Bool) (pad : Nat → Nat) (uninit : Nat → Val F)
    (hTo : X.To = false) (hpad : pad X.columns = X.spacing) (hsp : X.columns ≤ X.spacing)
    (i j : Nat) (hi : i < X.rows) (hj : j < X.columns) :
    (dgamma_BlazeMat K X a b log_form pad uninit).elem i j
      = dgamma K (X.elem i j) a b log_form := by
  have hlt : i * X.spacing + j < X.rows * X.spacing := by
    have h1 : i * X.spacing + j < i * X.spacing + X.spacing := by omega
    have h2 : i * X.spacing + X.spacing = (i + 1) * X.spacing := by ring
    have h3 : (i + 1) * X.spacing ≤ X.rows * X.spacing := Nat.mul_le_mul_right _ hi
    omega
  have hsp2 : (dgamma_BlazeMat K X a b log_form pad uninit).spacing = X.spacing := by
    simp [dgamma_BlazeMat, BlazeMat.sized, hTo, hpad]
  have hTo2 : (dgamma_BlazeMat K X a b log_form pad uninit).To = false := by
    simp [dgamma_BlazeMat, BlazeMat.sized, hTo]
  simp only [BlazeMat.elem, hTo2, hsp2, hTo, dgamma_BlazeMat_data, Bool.false_eq_true, if_false,
    hlt, if_true]

/-- Column-major Blaze matrices with more columns than rows are not covered: the first
element of column `rows` keeps the content of the fresh storage. -/
theorem dgamma_BlazeMat_columnMajor_gap (K : Env F) (X : BlazeMat F) (a b : Val F)
    (log_form : Bool) (pad : Nat → Nat) (uninit : Nat → Val F)
    (hTo : X.To = true) (hpad : pad X.rows = X.spacing) :
    (dgamma_BlazeMat K X a b log_form pad uninit).elem 0 X.rows
      = uninit (X.rows * X.spacing) := by
  have hsp2 : (dgamma_BlazeMat K X a b log_form pad uninit).spacing = X.spacing := by
    simp [dgamma_BlazeMat, BlazeMat.sized, hTo, hpad]
  have hTo2 : (dgamma_BlazeMat K X a b log_form pad uninit).To = true := by
    simp [dgamma_BlazeMat, BlazeMat.sized, hTo]
  simp [BlazeMat.elem, hTo2, hsp2, dgamma_BlazeMat_data]

/-- C21: the code at a column-major 3x4 Blaze matrix with spacing 4 (rows padded to a multiple
of 4).  The flat loop is handed `rows * spacing = 12` elements, while element (0, 3) sits at
offset `0 + 3 * 4 = 12`: the output element (0, 3) of the `dgamma` and of the `pf` overload is
the content of the fresh storage at offset 12 (here 12), not the scalar result for the input
element (0, 3) (here 1/3 and 1/2). -/
theorem blaze_columnMajor_3x4_not_covered :
    (dgamma_BlazeMat refEnv (BlazeMat.mk true 3 4 4 (fun _ => fin 0)) (fin 1) (fin 3) false
        (fun n => (n + 3) / 4 * 4) (fun k => fin (k : ℝ))).elem 0 3 = fin 12 ∧
    dgamma refEnv ((BlazeMat.mk true 3 4 4 (fun _ => fin 0)).elem 0 3) (fin 1) (fin 3) false
      = fin (1 / 3) ∧
    (pf_BlazeMat refEnv (BlazeMat.mk true 3 4 4 (fun _ => fin 1)) (fin 2) (fin 2) false
        (fun n => (n + 3) / 4 * 4) (fun k => fin (k : ℝ))).elem 0 3 = fin 12 ∧
    pf refEnv ((BlazeMat.mk true 3 4 4 (fun _ => fin 1)).elem 0 3) (fin 2) (fin 2) false
      = fin (1 / 2) := by
  refine ⟨?_, ?_, ?_, ?_⟩
  · simp [BlazeMat.elem, dgamma_BlazeMat, dgamma_vec, EVAL_DIST_FN_VEC_apply, BlazeMat.sized]
  · have hv : gamma_sanity_check (fin (1 : ℝ)) (fin 3) = true := by
      simp [gamma_sanity_check, ge, gt, le, lt]
    simp [BlazeMat.elem, dgamma, dgamma_type_check, dgamma_vals_check, dgamma_limit_vals, hv,
      log_if, lt, feq, div_fin]
  · simp [BlazeMat.elem, pf_BlazeMat, pf_vec, EVAL_DIST_FN_VEC_apply, BlazeMat.sized]
  · have he : (0 : ℝ) < refEnv.epsilon := by show (0 : ℝ) < 1 / 2 ^ 52; norm_num
    have hx : refEnv.epsilon ≤ (1 : ℝ) := by show (1 / 2 ^ 52 : ℝ) ≤ 1; norm_num
    have h := @pf_fin_kernel ℝ _ refEnv 1 2 2 (by norm_num) (by norm_num)
      he hx false
    have e1 : ((2 : ℝ) / 2) = 1 := by norm_num
    have e2 : ((2 : ℝ) * 1 / 2) / (1 + 2 * 1 / 2) = 1 / 2 := by norm_num
    simp only [BlazeMat.elem, if_true]
    rw [h, e1, e2, refIncompleteBeta_one_one _ (by norm_num) (by norm_num)]
    rfl

/-! ### C22: a NaN probability -/

/-- For a NaN probability both range comparisons and the final comparison of `qbern` are
false, so the last branch is taken. -/
theorem qbern_nan_p (prob : Val F) (hv : bern_sanity_check prob = true) :
    qbern nan prob = fin 0 := by
  simp [qbern, qbern_type_check, qbern_compute, hv, lt, gt]
  cases h : (fin 1 - prob) <;> simp [lt]

/-- For a NaN probability `qgamma` reaches the kernel, and returns NaN when the kernel
propagates NaN. -/
theorem qgamma_nan_p (K : Env F) (shape scale : Val F)
    (hv : gamma_sanity_check shape scale = true)
    (hk : K.incomplete_gamma_inv shape nan = nan) :
    qgamma K nan shape scale = nan := by
  have h : scale * (nan : Val F) = nan := by
    show mul scale nan = nan
    cases scale <;> rfl
  simp [qgamma, qgamma_type_check, qgamma_vals_check, qgamma_compute, hv, lt, gt, feq, hk, h]

/-- For a NaN probability `qlogis` reaches the closed form, and returns NaN when the kernel
log propagates NaN. -/
theorem qlogis_nan_p (K : Env F) (mu sigma : Val F)
    (hv : logis_sanity_check mu sigma = true) (hk : K.log nan = nan) :
    qlogis K nan mu sigma = nan := by
  have h1 : (nan : Val F) / (fin 1 - nan) = nan := rfl
  have h2 : sigma * (nan : Val F) = nan := by
    show mul sigma nan = nan
    cases sigma <;> rfl
  have h3 : mu + (nan : Val F) = nan := by
    show add mu nan = nan
    cases mu <;> rfl
  simp [qlogis, qlogis_type_check, qlogis_vals_check, qlogis_compute, hv, lt, gt, feq, hk, h1,
    h2, h3]

/-- C22: the code at a NaN probability.  With the valid prob = 0.4, `qbern(NaN, 0.4)` is 0, not
NaN; `qgamma(NaN, 2, 3)` and `qlogis(NaN, 1, 2)` are NaN in the reference environment, by
propagation through the kernel and the arithmetic. -/
theorem qbern_nan_p_returns_zero :
    bern_sanity_check (fin (4/10) : Val ℝ) = true ∧
    qbern nan (fin (4/10) : Val ℝ) = fin 0 ∧
    qgamma refEnv nan (fin 2) (fin 3) = nan ∧
    qlogis refEnv nan (fin 1) (fin 2) = nan := by
  have hv : bern_sanity_check (fin (4/10) : Val ℝ) = true := by
    norm_num [bern_sanity_check, ge, le, lt, feq]
  refine ⟨hv, qbern_nan_p _ hv, qgamma_nan_p refEnv _ _ ?_ rfl, qlogis_nan_p refEnv _ _ ?_ rfl⟩
  · simp [gamma_sanity_check, ge, gt, le, lt]
  · simp [logis_sanity_check, gt, lt]

/-! ### C23: the range of the F distribution function -/

/-- Evaluation of `pf` at `x = +infinity`: the transformed argument `inf / (1 + inf)` is NaN. -/
theorem pf_at_pinf (K : Env F) {d1 d2 : F} (h1 : 0 < d1) (h2 : 0 < d2) (log_form : Bool) :
    pf K pinf (fin d1) (fin d2) log_form
      = log_if K (K.incomplete_beta (fin (d1 / 2)) (fin (d2 / 2)) nan) log_form := by
  have hv : f_sanity_check (fin d1) (fin d2) = true := by
    simp [f_sanity_check, gt, lt, h1, h2]
  have e1 : fin d1 * (pinf : Val F) / fin d2 = pinf := by
    show div (mul (fin d1) pinf) (fin d2) = pinf
    simp [mul, div, infTimes, ne_of_gt h1, h1, le_of_lt h2]
  have e2 : (pinf : Val F) / (fin 1 + pinf) = nan := rfl
  simp only [pf, pf_type_check, pf_vals_check, pf_compute, hv, gt, lt, e1, e2]
  rw [div_fin _ two_ne_zero, div_fin _ two_ne_zero]
  rfl

/-- C23 fails at x = +infinity: with df1 = df2 = 2 the reference incomplete beta function maps
[0,1] into [0,1], and yet `pf(+infinity, 2, 2, false)` is NaN; it is neither `>= 0` nor equal
to 1. -/
theorem pf_at_pinf_counterexample :
    (∀ z : ℝ, 0 ≤ z → z ≤ 1 →
      le (fin 0) (refEnv.incomplete_beta (fin (2 / 2)) (fin (2 / 2)) (fin z)) = true ∧
      le (refEnv.incomplete_beta (fin (2 / 2)) (fin (2 / 2)) (fin z)) (fin 1) = true) ∧
    pf refEnv pinf (fin 2) (fin 2) false = nan ∧
    le (fin 0) (pf refEnv pinf (fin 2) (fin 2) false) = false ∧
    feq (pf refEnv pinf (fin 2) (fin 2) false) (fin 1) = false := by
  have hp : pf refEnv pinf (fin 2) (fin 2) false = nan := by
    rw [pf_at_pinf refEnv (by norm_num) (by norm_num)]
    rfl
  have e : ((2 : ℝ) / 2) = 1 := by norm_num
  refine ⟨?_, hp, ?_, ?_⟩
  · intro z h0 h1
    rw [e, refIncompleteBeta_one_one z h0 h1]
    exact ⟨(Val.le_fin_iff _ _).2 h0, (Val.le_fin_iff _ _).2 h1⟩
  · rw [hp]; rfl
  · rw [hp]; rfl

/-! ### C24: log form of the log-normal density -/

/-- Multiplication by 1 is the identity of the working type. -/
theorem Val.one_mul_val (k : Val F) : fin 1 * k = k := by
  show mul (fin 1) k = k
  cases k <;> simp [mul, infTimes]

/-! ### C26: the chi-squared density as a Gamma density -/

/-- The comparison `>= 0` on a finite value is the order of the field. -/
theorem Val.ge_zero_fin_iff (a : F) : ge (fin a) (fin 0) = true ↔ 0 ≤ a := by
  simp [ge, le, lt, feq, le_iff_lt_or_eq]

/-! ### C28 to C30: point mass, epsilon cut-off, symmetry -/

/-- C28: shape 0 is valid with any scale > 0, `dgamma(0, 0, scale, .)` is +infinity in both
forms, and for every x that does not compare equal to 0, `dgamma(x, 0, scale, false)` is 0
with log form -infinity; for an arbitrary kernel with `log(0) = -infinity` and
`log(+infinity) = +infinity`, so the log-gamma formula plays no part. -/
theorem dgamma_point_mass (K : Env F) (x scale : Val F)
    (hlog0 : K.log (fin 0) = ninf) (hloginf : K.log pinf = pinf)
    (hscale : gt scale (fin 0) = true) :
    gamma_sanity_check (fin 0) scale = true ∧
    (dgamma K (fin 0) (fin 0) scale false = pinf ∧
      dgamma K (fin 0) (fin 0) scale true = pinf) ∧
    (feq x (fin 0) = false →
      dgamma K x (fin 0) scale false = fin 0 ∧ dgamma K x (fin 0) scale true = ninf) := by
  have hv : gamma_sanity_check (fin (0 : F)) scale = true := by
    simp [gamma_sanity_check, ge, le, lt, feq, hscale]
  have h00 : feq (fin (0 : F)) (fin 0) = true := by simp [feq]
  have l00 : lt (fin (0 : F)) (fin 0) = false := by simp [lt]
  refine ⟨hv, ⟨?_, ?_⟩, fun hx => ⟨?_, ?_⟩⟩
  · simp [dgamma, dgamma_type_check, dgamma_vals_check, dgamma_limit_vals, hv, h00, l00, log_if]
  · simp [dgamma, dgamma_type_check, dgamma_vals_check, dgamma_limit_vals, hv, h00, l00, log_if,
      hloginf]
  · simp only [dgamma, dgamma_type_check, dgamma_vals_check, dgamma_limit_vals, hv, h00, hx,
      log_if]
    split_ifs <;> simp_all
  · simp only [dgamma, dgamma_type_check, dgamma_vals_check, dgamma_limit_vals, hv, h00, hx,
      log_if]
    split_ifs <;> simp_all

/-- C28 at scale 3 with x = 0, x = 2 and x = -2, in the reference environment. -/
theorem dgamma_point_mass_witness :
    (dgamma refEnv (fin 0) (fin 0) (fin 3) false = pinf ∧
      dgamma refEnv (fin 0) (fin 0) (fin 3) true = pinf) ∧
    (dgamma refEnv (fin 2) (fin 0) (fin 3) false = fin 0 ∧
      dgamma refEnv (fin 2) (fin 0) (fin 3) true = ninf) ∧
    (dgamma refEnv (fin (-2)) (fin 0) (fin 3) false = fin 0 ∧
      dgamma refEnv (fin (-2)) (fin 0) (fin 3) true = ninf) := by
  have hs : gt (fin (3 : ℝ)) (fin 0) = true := by simp [gt, lt]
  exact ⟨(dgamma_point_mass refEnv (fin 2) (fin 3) refEnv_contracts.1 rfl hs).2.1,
    (dgamma_point_mass refEnv (fin 2) (fin 3) refEnv_contracts.1 rfl hs).2.2
      (by simp [feq]),
    (dgamma_point_mass refEnv (fin (-2)) (fin 3) refEnv_contracts.1 rfl hs).2.2
      (by simp [feq])⟩

/-- C29: for a valid sigma, every x strictly below machine epsilon gives `dlnorm` exactly 0 (log
form -infinity), and every x at or above epsilon gives `dnorm(log x, mu, sigma, false) / x`. -/
theorem dlnorm_epsilon_cutoff (K : Env F) (x mu sigma : Val F)
    (hlog0 : K.log (fin 0) = ninf)
    (hv : lnorm_sanity_check mu sigma = true) :
    (lt x (fin K.epsilon) = true →
      dlnorm K x mu sigma false = fin 0 ∧ dlnorm K x mu sigma true = ninf) ∧
    (ge x (fin K.epsilon) = true →
      dlnorm K x mu sigma false = K.dnorm (K.log x) mu sigma false / x) := by
  constructor
  · intro h
    have hg : gt (fin K.epsilon) x = true := h
    constructor <;>
    simp [dlnorm, dlnorm_type_check, dlnorm_vals_check, hv, hg, log_if, hlog0]
  · intro h
    have hg : gt (fin K.epsilon) x = false := ge_not_gt h
    simp [dlnorm, dlnorm_type_check, dlnorm_vals_check, dlnorm_log_check, hv, hg]

/-- C29 in the reference environment (epsilon = 2^-52): the positive x = 2^-53 gives 0 and
-infinity, and x = 2 gives the quotient. -/
theorem dlnorm_epsilon_cutoff_witness :
    (dlnorm refEnv (fin (1 / 2 ^ 53)) (fin 1) (fin 2) false = fin 0 ∧
      dlnorm refEnv (fin (1 / 2 ^ 53)) (fin 1) (fin 2) true = ninf) ∧
    dlnorm refEnv (fin 2) (fin 1) (fin 2) false
      = refEnv.dnorm (refEnv.log (fin 2)) (fin 1) (fin 2) false / fin 2 := by
  have hv : lnorm_sanity_check (fin (1 : ℝ)) (fin 2) = true := by
    simp [lnorm_sanity_check, gt, lt]
  exact ⟨(dlnorm_epsilon_cutoff refEnv (fin (1 / 2 ^ 53)) (fin 1) (fin 2) refEnv_contracts.1 hv).1
      (by norm_num [lt, (show refEnv.epsilon = 1 / 2 ^ 52 from rfl)]),
    (dlnorm_epsilon_cutoff refEnv (fin 2) (fin 1) (fin 2) refEnv_contracts.1 hv).2
      (by norm_num [ge, le, lt, feq, (show refEnv.epsilon = 1 / 2 ^ 52 from rfl)])⟩

/-- The squared term of the Student-t density is even. -/
theorem dt_square_term_even (x : Val F) {d : F} (hd : 0 < d) :
    (-x / fin d) * (-x) = (x / fin d) * x := by
  cases x with
  | nan => rfl
  | ninf =>
    show mul (div (neg ninf) (fin d)) (neg ninf) = mul (div ninf (fin d)) ninf
    simp [neg, div, mul, le_of_lt hd]
  | pinf =>
    show mul (div (neg pinf) (fin d)) (neg pinf) = mul (div pinf (fin d)) pinf
    simp [neg, div, mul, le_of_lt hd]
  | fin r =>
    rw [neg_fin, div_fin _ (ne_of_gt hd), div_fin _ (ne_of_gt hd), mul_fin, mul_fin]
    congr 1
    ring

/-- C30: for every finite df > 0, every x and both values of `log_form`,
`dt(-x, df, log_form) = dt(x, df, log_form)`. -/
theorem dt_symmetric (K : Env F) (x : Val F) (d : F) (log_form : Bool) (hd : 0 < d) :
    dt K (-x) (fin d) log_form = dt K x (fin d) log_form := by
  have hf : feq (fin d) (pinf : Val F) = false := rfl
  simp only [dt, dt_type_check, dt_vals_check, dt_log_compute, dt_log_cons_term,
    dt_log_mult_term, dt_square_term_even x hd, hf, Bool.false_eq_true, if_false]

/-- C30 at the documented example `dt(0.37, 11, false)` and at x = +infinity in log form. -/
theorem dt_symmetric_witness :
    dt refEnv (-(fin (37/100))) (fin 11) false = dt refEnv (fin (37/100)) (fin 11) false ∧
    dt refEnv (-pinf) (fin 11) true = dt refEnv pinf (fin 11) true :=
  ⟨dt_symmetric refEnv (fin (37/100)) 11 false (by norm_num),
    dt_symmetric refEnv pinf 11 true (by norm_num)⟩

/-! ### C31: point symmetry of the Cauchy cdf -/

/-- C31: the Cauchy cdf is point-symmetric about its location. For a finite location `mu`, a
finite scale `sigma > 0` and every displacement `d` that is not NaN (finite or infinite),
`pcauchy(mu + d, mu, sigma, false) + pcauchy(mu - d, mu, sigma, false) = 1`, and
`pcauchy(mu, mu, sigma, false) = 1/2`. The kernel `atan` is the real arctangent with limits
`-pi/2` and `pi/2` at the infinities, and `GCEM_PI` is `pi`. -/
theorem pcauchy_point_symmetric (K : Env ℝ)
    (hpi : K.GCEM_PI = Real.pi)
    (hatan : ∀ r : ℝ, K.atan (fin r) = fin (Real.arctan r))
    (hatan_ninf : K.atan ninf = fin (-(Real.pi / 2)))
    (hatan_pinf : K.atan pinf = fin (Real.pi / 2))
    (d : Val ℝ) (mu sigma : ℝ) (hsigma : 0 < sigma) (hd : d ≠ nan) :
    pcauchy K (fin mu + d) (fin mu) (fin sigma) false
        + pcauchy K (fin mu - d) (fin mu) (fin sigma) false = fin 1 ∧
    pcauchy K (fin mu) (fin mu) (fin sigma) false = fin (1 / 2) := by
  constructor
  · cases d with
    | nan => exact absurd rfl hd
    | ninf =>
      have e1 : (fin mu + ninf : Val ℝ) = ninf := rfl
      have e2 : (fin mu - ninf : Val ℝ) = pinf := rfl
      rw [e1, e2, pcauchy_ninf K hpi hatan_ninf mu sigma hsigma,
        pcauchy_pinf K hpi hatan_pinf mu sigma hsigma]
      simp [log_if]
    | pinf =>
      have e1 : (fin mu + pinf : Val ℝ) = pinf := rfl
      have e2 : (fin mu - pinf : Val ℝ) = ninf := rfl
      rw [e1, e2, pcauchy_ninf K hpi hatan_ninf mu sigma hsigma,
        pcauchy_pinf K hpi hatan_pinf mu sigma hsigma]
      simp [log_if]
    | fin r =>
      rw [add_fin, sub_fin, pcauchy_fin K hpi hatan _ mu sigma hsigma,
        pcauchy_fin K hpi hatan _ mu sigma hsigma]
      simp only [log_if, Bool.false_eq_true, if_false, add_fin]
      congr 1
      have e1 : (mu + r - mu) / sigma = r / sigma := by ring
      have e2 : (mu - r - mu) / sigma = -(r / sigma) := by ring
      rw [e1, e2, Real.arctan_neg]
      ring
  · rw [pcauchy_fin K hpi hatan mu mu sigma hsigma]
    simp [log_if]

/-- Instance of the point symmetry at `mu = 1`, `sigma = 3`, `d = 3/2` in the reference
environment. -/
theorem pcauchy_point_symmetric_witness :
    pcauchy refEnv (fin 1 + fin (3/2)) (fin 1) (fin 3) false
        + pcauchy refEnv (fin 1 - fin (3/2)) (fin 1) (fin 3) false = fin 1 ∧
    pcauchy refEnv (fin 1) (fin 1) (fin 3) false = fin (1 / 2) :=
  pcauchy_point_symmetric refEnv rfl (fun _ => rfl) rfl rfl
    (fin (3/2)) 1 3 (by norm_num) (by simp)

/-! ## The working type with rounding: theorems -/

/-! ### Order of the working type -/

namespace Val

theorem le_trans_val {a b c : Val F} (h1 : le a b = true) (h2 : le b c = true) : le a c = true := by
  cases a <;> cases b <;> cases c <;> simp [le, lt, feq] at h1 h2 ⊢
  rename_i x y z
  rcases h1 with h1 | h1 <;> rcases h2 with h2 | h2
  · exact Or.inl (lt_trans h1 h2)
  · exact Or.inl (h2 ▸ h1)
  · exact Or.inl (h1 ▸ h2)
  · exact Or.inr (h1.trans h2)

theorem le_antisymm_val {a b : Val F} (h1 : le a b = true) (h2 : le b a = true) : a = b := by
  cases a <;> cases b <;> simp [le, lt, feq] at h1 h2 ⊢
  rename_i x y
  rcases h1 with h1 | h1
  · rcases h2 with h2 | h2
    · exact absurd (lt_trans h1 h2) (lt_irrefl _)
    · exact h2.symm
  · exact h1

theorem neg_le_neg_val {a b : Val F} (h : le a b = true) : le (-b) (-a) = true := by
  cases a <;> cases b <;> first | rfl | (simp [le, lt, feq] at h; done) | skip
  rename_i x y
  rw [neg_fin, neg_fin, Val.le_fin_iff]
  exact neg_le_neg_iff.2 ((Val.le_fin_iff _ _).1 h)

end Val

/-! ### The binary64 rounding -/

theorem two_zpow_pos (n : ℤ) : (0 : F) < (2 : F) ^ n := zpow_pos (by norm_num) n

theorem two_zpow_mono {m n : ℤ} (h : m ≤ n) : (2 : F) ^ m ≤ (2 : F) ^ n :=
  zpow_le_zpow_right₀ (by norm_num) h

theorem two_zpow_split (e : ℤ) : (2 : F) ^ (e + 1) = 2 ^ (53 : ℤ) * (2 : F) ^ (e - 52) := by
  rw [← zpow_add₀ (by norm_num : (2 : F) ≠ 0)]
  congr 1; ring

theorem two_zpow_split0 (e : ℤ) : (2 : F) ^ e = 2 ^ (52 : ℤ) * (2 : F) ^ (e - 52) := by
  rw [← zpow_add₀ (by norm_num : (2 : F) ≠ 0)]
  congr 1; ring

section
variable [FloorRing F]

theorem roundHalfEven_intCast (n : ℤ) : roundHalfEven (n : F) = n := by
  simp [roundHalfEven]

theorem floor_le_roundHalfEven (x : F) : ⌊x⌋ ≤ roundHalfEven x := by
  unfold roundHalfEven
  split_ifs <;> omega

theorem roundHalfEven_le_floor_add_one (x : F) : roundHalfEven x ≤ ⌊x⌋ + 1 := by
  unfold roundHalfEven
  split_ifs <;> omega

theorem roundHalfEven_mono {x y : F} (h : x ≤ y) : roundHalfEven x ≤ roundHalfEven y := by
  have hf : ⌊x⌋ ≤ ⌊y⌋ := Int.floor_mono h
  rcases lt_or_eq_of_le hf with hlt | heq
  · calc roundHalfEven x ≤ ⌊x⌋ + 1 := roundHalfEven_le_floor_add_one x
      _ ≤ ⌊y⌋ := hlt
      _ ≤ roundHalfEven y := floor_le_roundHalfEven y
  · unfold roundHalfEven
    rw [heq]
    have hxy : x - (⌊y⌋ : F) ≤ y - (⌊y⌋ : F) := by linarith
    split_ifs <;> first | omega | (exfalso; linarith)

theorem roundHalfEven_le_of_le {x : F} {n : ℤ} (h : x ≤ n) : roundHalfEven x ≤ n := by
  have := roundHalfEven_mono h
  rwa [roundHalfEven_intCast] at this

theorem le_roundHalfEven_of_le {x : F} {n : ℤ} (h : (n : F) ≤ x) : n ≤ roundHalfEven x := by
  have := roundHalfEven_mono h
  rwa [roundHalfEven_intCast] at this

/-- Nearest integer when no tie. -/
theorem roundHalfEven_eq_of_lt {x : F} {n : ℤ} (h1 : (n : F) - 1 / 2 < x)
    (h2 : x < (n : F) + 1 / 2) :
    roundHalfEven x = n := by
  have hfl : ⌊x⌋ = n ∨ ⌊x⌋ = n - 1 := by
    have a : n - 1 ≤ ⌊x⌋ := by
      rw [Int.le_floor]; push_cast; linarith
    have b : ⌊x⌋ < n + 1 := by
      rw [Int.floor_lt]; push_cast; linarith
    omega
  have h3 := Int.floor_le x
  have h4 := Int.lt_floor_add_one x
  unfold roundHalfEven
  rcases hfl with h | h
  · rw [h] at h3 h4 ⊢
    rw [if_pos (by linarith)]
  · rw [h] at h3 h4 ⊢
    push_cast at h3 h4 ⊢
    rw [if_neg (by linarith), if_pos (by linarith)]
    ring

theorem roundHalfEven_tie_even {x : F} {n : ℤ} (h : x = (n : F) + 1 / 2) (hn : n % 2 = 0) :
    roundHalfEven x = n := by
  have hfl : ⌊x⌋ = n := by
    rw [Int.floor_eq_iff]; constructor <;> linarith
  unfold roundHalfEven
  rw [hfl, if_neg (by linarith), if_neg (by linarith), if_pos hn]

theorem roundHalfEven_tie_odd {x : F} {n : ℤ} (h : x = (n : F) + 1 / 2) (hn : n % 2 = 1) :
    roundHalfEven x = n + 1 := by
  have hfl : ⌊x⌋ = n := by
    rw [Int.floor_eq_iff]; constructor <;> linarith
  unfold roundHalfEven
  rw [hfl, if_neg (by linarith), if_neg (by linarith), if_neg (by omega)]


theorem binade_ge (x : F) : -1022 ≤ binade x := le_max_right _ _

theorem log_le_binade (x : F) : Int.log 2 x ≤ binade x := le_max_left _ _

theorem lt_two_zpow_binade_succ (x : F) : x < (2 : F) ^ (binade x + 1) := by
  have h := Int.lt_zpow_succ_log_self (by norm_num : 1 < 2) x
  have h2 : ((2 : ℕ) : F) ^ (Int.log 2 x + 1) ≤ (2 : F) ^ (binade x + 1) := by
    rw [Nat.cast_ofNat]
    exact two_zpow_mono (by have := log_le_binade x; omega)
  exact lt_of_lt_of_le h h2

theorem two_zpow_binade_le {x : F} (hx : 0 < x) (hb : -1022 < binade x) :
    (2 : F) ^ binade x ≤ x := by
  have hlog : binade x = Int.log 2 x := by
    unfold binade at hb ⊢
    rcases le_total (Int.log 2 x) (-1022) with h | h
    · rw [max_eq_right h] at hb; omega
    · rw [max_eq_left h]
  rw [hlog]
  have h := Int.zpow_log_le_self (by norm_num : 1 < 2) hx
  rwa [Nat.cast_ofNat] at h

theorem binade_mono {a b : F} (ha : 0 < a) (h : a ≤ b) : binade a ≤ binade b :=
  max_le_max (Int.log_mono_right ha h) (le_refl _)

/-- The binade of a value between two consecutive powers of two. -/
theorem binade_eq {x : F} {e : ℤ} (he : -1022 ≤ e) (h1 : (2 : F) ^ e ≤ x)
    (h2 : x < (2 : F) ^ (e + 1)) : binade x = e := by
  have hx : 0 < x := lt_of_lt_of_le (two_zpow_pos e) h1
  have a : e ≤ Int.log 2 x := by
    rw [← Int.zpow_le_iff_le_log (by norm_num : 1 < 2) hx, Nat.cast_ofNat]; exact h1
  have b : Int.log 2 x < e + 1 := by
    rw [← Int.lt_zpow_iff_log_lt (by norm_num : 1 < 2) hx, Nat.cast_ofNat]; exact h2
  unfold binade
  rw [max_eq_left (by omega)]
  omega

/-- The binade of a subnormal value. -/
theorem binade_eq_min {x : F} (h0 : 0 < x) (h2 : x < (2 : F) ^ (-1022 : ℤ)) :
    binade x = -1022 := by
  have b : Int.log 2 x < -1022 := by
    rw [← Int.lt_zpow_iff_log_lt (by norm_num : 1 < 2) h0, Nat.cast_ofNat]; exact h2
  unfold binade
  exact max_eq_right (le_of_lt b)

theorem roundPos_def (x : F) :
    roundPos x = if (2 : F) ^ (1024 : ℤ) ≤ roundPosVal x then pinf else fin (roundPosVal x) := rfl

theorem roundPosVal_le_top (x : F) : roundPosVal x ≤ (2 : F) ^ (binade x + 1) := by
  have hu := two_zpow_pos (F := F) (binade x - 52)
  have h := lt_two_zpow_binade_succ x
  have h1 : x / (2 : F) ^ (binade x - 52) ≤ ((2 ^ 53 : ℤ) : F) := by
    have e : ((2 ^ 53 : ℤ) : F) = (2 : F) ^ (53 : ℤ) := by norm_num
    rw [e, div_le_iff₀ hu, ← two_zpow_split]
    exact le_of_lt h
  have h2 := roundHalfEven_le_of_le h1
  unfold roundPosVal
  rw [two_zpow_split]
  have h3 : ((roundHalfEven (x / (2 : F) ^ (binade x - 52)) : ℤ) : F) ≤ (2 : F) ^ (53 : ℤ) := by
    have : (2 : F) ^ (53 : ℤ) = ((2 ^ 53 : ℤ) : F) := by norm_cast
    rw [this]
    exact_mod_cast h2
  exact mul_le_mul_of_nonneg_right h3 (le_of_lt hu)

theorem roundPosVal_ge_bot {x : F} (hx : 0 < x) (hb : -1022 < binade x) :
    (2 : F) ^ binade x ≤ roundPosVal x := by
  have hu := two_zpow_pos (F := F) (binade x - 52)
  have h := two_zpow_binade_le hx hb
  have h1 : ((2 ^ 52 : ℤ) : F) ≤ x / (2 : F) ^ (binade x - 52) := by
    have e : ((2 ^ 52 : ℤ) : F) = (2 : F) ^ (52 : ℤ) := by norm_num
    rw [e, le_div_iff₀ hu, ← two_zpow_split0]
    exact h
  have h2 := le_roundHalfEven_of_le h1
  unfold roundPosVal
  rw [two_zpow_split0]
  have h3 : (2 : F) ^ (52 : ℤ) ≤ ((roundHalfEven (x / (2 : F) ^ (binade x - 52)) : ℤ) : F) := by
    have : (2 : F) ^ (52 : ℤ) = ((2 ^ 52 : ℤ) : F) := by norm_cast
    rw [this]
    exact_mod_cast h2
  exact mul_le_mul_of_nonneg_right h3 (le_of_lt hu)

theorem roundPosVal_nonneg {x : F} (hx : 0 ≤ x) : 0 ≤ roundPosVal x := by
  have hu := two_zpow_pos (F := F) (binade x - 52)
  have h1 : ((0 : ℤ) : F) ≤ x / (2 : F) ^ (binade x - 52) := by
    push_cast; exact div_nonneg hx (le_of_lt hu)
  have h2 := le_roundHalfEven_of_le h1
  unfold roundPosVal
  exact mul_nonneg (by exact_mod_cast h2) (le_of_lt hu)

theorem roundPosVal_zero : roundPosVal (0 : F) = 0 := by
  unfold roundPosVal
  rw [zero_div]
  have : roundHalfEven (0 : F) = 0 := by
    have := roundHalfEven_intCast (F := F) 0
    simpa using this
  rw [this]; simp

theorem roundPosVal_mono {a b : F} (ha : 0 ≤ a) (h : a ≤ b) : roundPosVal a ≤ roundPosVal b := by
  rcases eq_or_lt_of_le ha with h0 | hpos
  · rw [← h0, roundPosVal_zero]; exact roundPosVal_nonneg (le_trans ha h)
  · have hbpos : 0 < b := lt_of_lt_of_le hpos h
    have hb := binade_mono hpos h
    rcases eq_or_lt_of_le hb with heq | hlt
    · unfold roundPosVal
      rw [heq]
      have hu := two_zpow_pos (F := F) (binade b - 52)
      have : a / (2 : F) ^ (binade b - 52) ≤ b / (2 : F) ^ (binade b - 52) :=
        div_le_div_of_nonneg_right h (le_of_lt hu)
      have h2 := roundHalfEven_mono this
      exact mul_le_mul_of_nonneg_right (by exact_mod_cast h2) (le_of_lt hu)
    · calc roundPosVal a ≤ (2 : F) ^ (binade a + 1) := roundPosVal_le_top a
        _ ≤ (2 : F) ^ binade b := two_zpow_mono (by omega)
        _ ≤ roundPosVal b := roundPosVal_ge_bot hbpos (by have := binade_ge a; omega)

theorem roundPos_mono {a b : F} (ha : 0 ≤ a) (h : a ≤ b) :
    le (roundPos a) (roundPos b) = true := by
  have hm := roundPosVal_mono ha h
  rw [roundPos_def, roundPos_def]
  by_cases hb : (2 : F) ^ (1024 : ℤ) ≤ roundPosVal b
  · rw [if_pos hb]
    by_cases hA : (2 : F) ^ (1024 : ℤ) ≤ roundPosVal a
    · rw [if_pos hA]; rfl
    · rw [if_neg hA]; rfl
  · rw [if_neg hb, if_neg (fun hA => hb (le_trans hA hm))]
    exact (Val.le_fin_iff _ _).2 hm


/-- A value that is an integer multiple of the unit of its own binade is its own rounding. -/
theorem roundPosVal_of_mant {y : F} {e n : ℤ} (hb : binade y = e)
    (hy : y = (n : F) * (2 : F) ^ (e - 52)) : roundPosVal y = y := by
  have hu := two_zpow_pos (F := F) (e - 52)
  unfold roundPosVal
  rw [hb]
  have : y / (2 : F) ^ (e - 52) = (n : F) := by
    rw [hy]; field_simp
  rw [this, roundHalfEven_intCast, ← hy]

theorem roundPosVal_idem {x : F} (hx : 0 ≤ x) : roundPosVal (roundPosVal x) = roundPosVal x := by
  rcases eq_or_lt_of_le (roundPosVal_nonneg hx) with h0 | hpos
  · rw [← h0, roundPosVal_zero]
  · have hu := two_zpow_pos (F := F) (binade x - 52)
    have hxpos : 0 < x := by
      rcases eq_or_lt_of_le hx with h | h
      · rw [← h, roundPosVal_zero] at hpos; exact absurd hpos (lt_irrefl _)
      · exact h
    have htop := roundPosVal_le_top x
    have hy : roundPosVal x
        = ((roundHalfEven (x / (2 : F) ^ (binade x - 52)) : ℤ) : F) * (2 : F) ^ (binade x - 52) :=
      rfl
    rcases eq_or_lt_of_le htop with heq | hlt
    · -- the rounded value is the next power of two
      have hb : binade (roundPosVal x) = binade x + 1 := by
        apply binade_eq (by have := binade_ge x; omega)
        · exact le_of_eq heq.symm
        · rw [heq]
          have : (2 : F) ^ (binade x + 1 + 1) = 2 * (2 : F) ^ (binade x + 1) := by
            rw [zpow_add_one₀ (by norm_num : (2 : F) ≠ 0)]; ring
          rw [this]
          have := two_zpow_pos (F := F) (binade x + 1)
          linarith
      apply roundPosVal_of_mant (n := 2 ^ 52) hb
      rw [heq]
      have e : ((2 ^ 52 : ℤ) : F) = (2 : F) ^ (52 : ℤ) := by norm_num
      rw [e, ← two_zpow_split0]
    · by_cases hbig : (2 : F) ^ binade x ≤ roundPosVal x
      · have hb : binade (roundPosVal x) = binade x := binade_eq (binade_ge x) hbig hlt
        exact roundPosVal_of_mant hb hy
      · have hmin : binade x = -1022 := by
          by_contra hne
          have : -1022 < binade x := lt_of_le_of_ne (binade_ge x) (Ne.symm hne)
          exact hbig (roundPosVal_ge_bot hxpos this)
        have hb : binade (roundPosVal x) = binade x := by
          rw [hmin]
          apply binade_eq_min hpos
          rw [← hmin]
          exact lt_of_not_ge hbig
        exact roundPosVal_of_mant hb hy

theorem roundPos_idem {x y : F} (hx : 0 ≤ x) (h : roundPos x = fin y) : roundPos y = fin y := by
  rw [roundPos_def] at h
  by_cases hb : (2 : F) ^ (1024 : ℤ) ≤ roundPosVal x
  · rw [if_pos hb] at h; cases h
  · rw [if_neg hb] at h
    have hy : roundPosVal x = y := by injection h
    have := roundPosVal_idem hx
    rw [hy] at this
    rw [roundPos_def, this, if_neg (by rw [← hy]; exact hb)]

theorem roundPos_nonneg {x : F} (hx : 0 ≤ x) : le (fin 0) (roundPos x) = true := by
  rw [roundPos_def]
  split_ifs
  · rfl
  · exact (Val.le_fin_iff _ _).2 (roundPosVal_nonneg hx)

theorem roundPos_zero : roundPos (0 : F) = fin 0 := by
  rw [roundPos_def, roundPosVal_zero, if_neg]
  exact not_le_of_gt (two_zpow_pos 1024)

/-- Evaluation of the rounding of a non-negative value from its binade and its rounded
significand. -/
theorem roundPos_eq {x : F} {e n : ℤ} (hb : binade x = e)
    (hn : roundHalfEven (x / (2 : F) ^ (e - 52)) = n)
    (hlt : (n : F) * (2 : F) ^ (e - 52) < (2 : F) ^ (1024 : ℤ)) :
    roundPos x = fin ((n : F) * (2 : F) ^ (e - 52)) := by
  rw [roundPos_def]
  unfold roundPosVal
  rw [hb, hn, if_neg (not_le_of_gt hlt)]

end

namespace Val

theorem neg_neg_val (a : Val F) : -(-a) = a := by
  cases a <;> first | rfl | (rw [neg_fin, neg_fin, neg_neg])

theorem le_of_fin_le {a b : F} (h : a ≤ b) : le (fin a) (fin b) = true :=
  (Val.le_fin_iff a b).2 h

theorem le_pinf {a : Val F} (h : a ≠ nan) : le a pinf = true := by
  cases a <;> first | rfl | exact absurd rfl h

theorem ninf_le {a : Val F} (h : a ≠ nan) : le ninf a = true := by
  cases a <;> first | rfl | exact absurd rfl h

theorem ne_nan_of_le_left {a b : Val F} (h : le a b = true) : a ≠ nan := by
  intro e; rw [e] at h; cases b <;> simp [le, lt, feq] at h

theorem ne_nan_of_le_right {a b : Val F} (h : le a b = true) : b ≠ nan := by
  intro e; rw [e] at h; cases a <;> simp [le, lt, feq] at h

/-- A value between two finite values is finite. -/
theorem fin_of_between {v : Val F} {a b : F} (h1 : le (fin a) v = true)
    (h2 : le v (fin b) = true) : ∃ r : F, v = fin r ∧ a ≤ r ∧ r ≤ b := by
  cases v with
  | nan => simp [le, lt, feq] at h1
  | ninf => simp [le, lt, feq] at h1
  | pinf => simp [le, lt, feq] at h2
  | fin r => exact ⟨r, rfl, (Val.le_fin_iff _ _).1 h1, (Val.le_fin_iff _ _).1 h2⟩

end Val

/-- Exact arithmetic is a rounding that satisfies the laws. -/
theorem roundingLaws_exact : RoundingLaws (fin : F → Val F) where
  mono := fun _ _ h => Val.le_of_fin_le h
  idem := fun _ _ _ => rfl
  zero := rfl
  one := rfl
  half := rfl
  neg := fun _ => rfl

section
variable [FloorRing F]

theorem rnd64_of_nonneg {x : F} (hx : 0 ≤ x) : rnd64 x = roundPos x := by
  unfold rnd64
  rw [if_neg (not_lt.2 hx)]

theorem rnd64_of_neg {x : F} (hx : x < 0) : rnd64 x = - roundPos (-x) := by
  unfold rnd64
  rw [if_pos hx]

theorem rnd64_zero : rnd64 (0 : F) = fin 0 := by
  rw [rnd64_of_nonneg (le_refl _), roundPos_zero]

theorem rnd64_neg (x : F) : rnd64 (-x) = - rnd64 x := by
  rcases lt_trichotomy x 0 with h | h | h
  · rw [rnd64_of_neg h, rnd64_of_nonneg (by linarith), Val.neg_neg_val]
  · rw [h, neg_zero, rnd64_zero, neg_fin, neg_zero]
  · rw [rnd64_of_neg (by linarith : -x < 0), rnd64_of_nonneg (le_of_lt h), neg_neg]

theorem rnd64_mono {a b : F} (h : a ≤ b) : le (rnd64 a) (rnd64 b) = true := by
  by_cases ha : a < 0
  · by_cases hb : b < 0
    · rw [rnd64_of_neg ha, rnd64_of_neg hb]
      exact Val.neg_le_neg_val (roundPos_mono (by linarith) (by linarith))
    · rw [rnd64_of_neg ha, rnd64_of_nonneg (not_lt.1 hb)]
      have h1 : le (- roundPos (-a)) (fin 0) = true := by
        have := Val.neg_le_neg_val (roundPos_nonneg (by linarith : (0 : F) ≤ -a))
        rwa [neg_fin, neg_zero] at this
      exact Val.le_trans_val h1 (roundPos_nonneg (not_lt.1 hb))
  · rw [rnd64_of_nonneg (not_lt.1 ha), rnd64_of_nonneg (le_trans (not_lt.1 ha) h)]
    exact roundPos_mono (not_lt.1 ha) h

theorem rnd64_idem {a b : F} (h : rnd64 a = fin b) : rnd64 b = fin b := by
  by_cases ha : a < 0
  · rw [rnd64_of_neg ha] at h
    have h2 : roundPos (-a) = fin (-b) := by
      have := congrArg (fun v => -v) h
      simpa [Val.neg_neg_val] using this
    have hb := roundPos_idem (by linarith : (0 : F) ≤ -a) h2
    have hb0 : 0 ≤ -b := by
      have := roundPos_nonneg (by linarith : (0 : F) ≤ -a)
      rw [h2] at this
      exact (Val.le_fin_iff _ _).1 this
    have : rnd64 (-b) = fin (-b) := by rw [rnd64_of_nonneg hb0, hb]
    rw [rnd64_neg] at this
    have := congrArg (fun v => -v) this
    simpa [Val.neg_neg_val] using this
  · rw [rnd64_of_nonneg (not_lt.1 ha)] at h
    have hb0 : 0 ≤ b := by
      have := roundPos_nonneg (not_lt.1 ha)
      rw [h] at this
      exact (Val.le_fin_iff _ _).1 this
    rw [rnd64_of_nonneg hb0]
    exact roundPos_idem (not_lt.1 ha) h

/-- A positive value that is an integer multiple of the unit of its binade, below the
overflow threshold, is a binary64 value. -/
theorem rnd64_exact {x : F} (e n : ℤ) (he : -1022 ≤ e) (h1 : (2 : F) ^ e ≤ x)
    (h2 : x < (2 : F) ^ (e + 1)) (hn : x = (n : F) * (2 : F) ^ (e - 52))
    (hov : x < (2 : F) ^ (1024 : ℤ)) : rnd64 x = fin x := by
  have hx : 0 < x := lt_of_lt_of_le (two_zpow_pos e) h1
  rw [rnd64_of_nonneg (le_of_lt hx), roundPos_def,
    roundPosVal_of_mant (binade_eq he h1 h2) hn, if_neg (not_le_of_gt hov)]

/-- Rounding of a positive value that is nearer to the multiple `n` of the unit of its
binade than to any other. -/
theorem rnd64_near {x : F} (e n : ℤ) (he : -1022 ≤ e) (h1 : (2 : F) ^ e ≤ x)
    (h2 : x < (2 : F) ^ (e + 1))
    (hlo : ((n : F) - 1 / 2) * (2 : F) ^ (e - 52) < x)
    (hhi : x < ((n : F) + 1 / 2) * (2 : F) ^ (e - 52))
    (hov : (n : F) * (2 : F) ^ (e - 52) < (2 : F) ^ (1024 : ℤ)) :
    rnd64 x = fin ((n : F) * (2 : F) ^ (e - 52)) := by
  have hx : 0 < x := lt_of_lt_of_le (two_zpow_pos e) h1
  have hu := two_zpow_pos (F := F) (e - 52)
  rw [rnd64_of_nonneg (le_of_lt hx)]
  apply roundPos_eq (binade_eq he h1 h2) _ hov
  apply roundHalfEven_eq_of_lt
  · rw [lt_div_iff₀ hu]; exact hlo
  · rw [div_lt_iff₀ hu]; exact hhi

/-- Rounding of a tie: the even neighbour is chosen. -/
theorem rnd64_tie {x : F} (e n m : ℤ) (he : -1022 ≤ e) (h1 : (2 : F) ^ e ≤ x)
    (h2 : x < (2 : F) ^ (e + 1))
    (hx : x = ((n : F) + 1 / 2) * (2 : F) ^ (e - 52))
    (hm : m = if n % 2 = 0 then n else n + 1)
    (hov : (m : F) * (2 : F) ^ (e - 52) < (2 : F) ^ (1024 : ℤ)) :
    rnd64 x = fin ((m : F) * (2 : F) ^ (e - 52)) := by
  have hxp : 0 < x := lt_of_lt_of_le (two_zpow_pos e) h1
  have hu := two_zpow_pos (F := F) (e - 52)
  rw [rnd64_of_nonneg (le_of_lt hxp)]
  apply roundPos_eq (binade_eq he h1 h2) _ hov
  have hq : x / (2 : F) ^ (e - 52) = (n : F) + 1 / 2 := by
    rw [hx, mul_div_assoc, div_self (ne_of_gt hu), mul_one]
  by_cases hp : n % 2 = 0
  · rw [hm, if_pos hp]; exact roundHalfEven_tie_even hq hp
  · rw [hm, if_neg hp]; exact roundHalfEven_tie_odd hq (by omega)

/-- A value between two values with the same rounding has that rounding. -/
theorem rnd64_between {lo x hi : F} {v : Val F} (h1 : lo ≤ x) (h2 : x ≤ hi)
    (hlo : rnd64 lo = v) (hhi : rnd64 hi = v) : rnd64 x = v := by
  have a := rnd64_mono h1
  have b := rnd64_mono h2
  rw [hlo] at a
  rw [hhi] at b
  exact Val.le_antisymm_val b a

theorem rnd64_one : rnd64 (1 : F) = fin 1 := by
  apply rnd64_exact 0 (2 ^ 52) <;> norm_num

theorem rnd64_half : rnd64 (1 / 2 : F) = fin (1 / 2) := by
  apply rnd64_exact (-1) (2 ^ 52) <;> norm_num

/-- The binary64 rounding satisfies the laws. -/
theorem rnd64_laws : RoundingLaws (rnd64 : F → Val F) where
  mono := fun _ _ h => rnd64_mono h
  idem := fun _ _ h => rnd64_idem h
  zero := rnd64_zero
  one := rnd64_one
  half := rnd64_half
  neg := rnd64_neg

end

/-! ### Rounded operations -/

namespace Val

theorem rd_exact {G : Type} (v : Val G) : rd fin v = v := by
  cases v <;> rfl

theorem radd_exact (a b : Val F) : radd fin a b = a + b := rd_exact _

theorem rsub_exact (a b : Val F) : rsub fin a b = a - b := rd_exact _

theorem rmul_exact (a b : Val F) : rmul fin a b = a * b := rd_exact _

theorem rdiv_exact (a b : Val F) : rdiv fin a b = a / b := rd_exact _

theorem radd_fin (rnd : F → Val F) (a b : F) : radd rnd (fin a) (fin b) = rnd (a + b) := rfl

theorem rsub_fin (rnd : F → Val F) (a b : F) : rsub rnd (fin a) (fin b) = rnd (a - b) := by
  unfold rsub
  rw [sub_fin]
  rfl

theorem rmul_fin (rnd : F → Val F) (a b : F) : rmul rnd (fin a) (fin b) = rnd (a * b) := rfl

theorem rdiv_fin (rnd : F → Val F) (a : F) {b : F} (hb : b ≠ 0) :
    rdiv rnd (fin a) (fin b) = rnd (a / b) := by
  unfold rdiv
  rw [div_fin a hb]
  rfl

theorem rd_ne_nan {rnd : F → Val F} (hR : RoundingLaws rnd) {v : Val F} (h : v ≠ nan) :
    rd rnd v ≠ nan := by
  cases v with
  | nan => exact absurd rfl h
  | ninf => intro e; cases e
  | pinf => intro e; cases e
  | fin r => exact ne_nan_of_le_left (hR.mono r r (le_refl r))

theorem rd_mono {rnd : F → Val F} (hR : RoundingLaws rnd) {a b : Val F}
    (h : le a b = true) : le (rd rnd a) (rd rnd b) = true := by
  cases a with
  | nan => simp [le, lt, feq] at h
  | ninf => exact ninf_le (rd_ne_nan hR (ne_nan_of_le_right h))
  | pinf =>
    cases b with
    | pinf => rfl
    | nan => simp [le, lt, feq] at h
    | ninf => simp [le, lt, feq] at h
    | fin r => simp [le, lt, feq] at h
  | fin x =>
    cases b with
    | nan => simp [le, lt, feq] at h
    | ninf => simp [le, lt, feq] at h
    | pinf => exact le_pinf (rd_ne_nan hR (by intro e; cases e))
    | fin y => exact hR.mono x y ((Val.le_fin_iff x y).1 h)

theorem rnd_nonneg {rnd : F → Val F} (hR : RoundingLaws rnd) {a : F} (h : 0 ≤ a) :
    le (fin 0) (rnd a) = true := by
  have := hR.mono 0 a h
  rwa [hR.zero] at this

theorem rnd_le_one {rnd : F → Val F} (hR : RoundingLaws rnd) {a : F} (h : a ≤ 1) :
    le (rnd a) (fin 1) = true := by
  have := hR.mono a 1 h
  rwa [hR.one] at this

/-- Rounding keeps a value inside the unit interval. -/
theorem rnd_unit {rnd : F → Val F} (hR : RoundingLaws rnd) {a : F} (h0 : 0 ≤ a) (h1 : a ≤ 1) :
    ∃ r : F, rnd a = fin r ∧ 0 ≤ r ∧ r ≤ 1 :=
  fin_of_between (rnd_nonneg hR h0) (rnd_le_one hR h1)

theorem add_left_mono (m : F) {a b : Val F} (h : le a b = true) :
    le (fin m + a) (fin m + b) = true := by
  cases a <;> cases b <;> first | rfl | (simp [le, lt, feq] at h; done) | skip
  rename_i x y
  rw [add_fin, add_fin]
  exact le_of_fin_le (by have := (Val.le_fin_iff x y).1 h; linarith)

theorem mul_pos_left_mono {s : F} (hs : 0 < s) {a b : Val F} (h : le a b = true) :
    le (fin s * a) (fin s * b) = true := by
  have e1 : (fin s * ninf : Val F) = ninf := by
    show infTimes false s = ninf
    simp [infTimes, ne_of_gt hs, hs]
  have e2 : (fin s * pinf : Val F) = pinf := by
    show infTimes true s = pinf
    simp [infTimes, ne_of_gt hs, hs]
  cases a <;> cases b <;> first | (simp [le, lt, feq] at h; done) | skip
  · rw [e1]; rfl
  · rw [e1, e2]; rfl
  · rw [e1, mul_fin]; rfl
  · rw [e2]; rfl
  · rw [e2, mul_fin]; rfl
  · rename_i x y
    rw [mul_fin, mul_fin]
    exact le_of_fin_le (mul_le_mul_of_nonneg_left ((Val.le_fin_iff x y).1 h) (le_of_lt hs))

end Val

/-! ### The exact embedding is the rounded one without rounding -/

theorem machine_dgamma_exact (K : Env F) (x a b : Val F) (log_form : Bool) :
    machine.dgamma fin K x a b log_form = dgamma K x a b log_form := by
  simp only [machine.dgamma, machine.internal.dgamma_type_check,
    machine.internal.dgamma_vals_check, machine.internal.dgamma_limit_vals,
    machine.internal.dgamma_log_compute, dgamma, dgamma_type_check, dgamma_vals_check,
    dgamma_limit_vals, dgamma_log_compute, radd_exact, rsub_exact, rmul_exact, rdiv_exact]

theorem machine_dchisq_exact (K : Env F) (x a : Val F) (log_form : Bool) :
    machine.dchisq fin K x a log_form = dchisq K x a log_form := by
  simp only [machine.dchisq, machine.internal.dchisq_type_check,
    machine.internal.dchisq_vals_check, machine.internal.dchisq_limit_vals,
    machine.internal.dchisq_compute, dchisq, dchisq_type_check, dchisq_vals_check,
    dchisq_limit_vals, dchisq_compute, radd_exact, rsub_exact, rmul_exact, rdiv_exact]

theorem machine_dt_exact (K : Env F) (x a : Val F) (log_form : Bool) :
    machine.dt fin K x a log_form = dt K x a log_form := by
  simp only [machine.dt, machine.internal.dt_type_check, machine.internal.dt_vals_check,
    machine.internal.dt_log_compute, machine.internal.dt_log_cons_term,
    machine.internal.dt_log_mult_term, dt, dt_type_check, dt_vals_check, dt_log_compute,
    dt_log_cons_term, dt_log_mult_term, radd_exact, rsub_exact, rmul_exact, rdiv_exact]

theorem machine_dlnorm_exact (K : Env F) (x a b : Val F) (log_form : Bool) :
    machine.dlnorm fin K x a b log_form = dlnorm K x a b log_form := by
  simp only [machine.dlnorm, machine.internal.dlnorm_type_check,
    machine.internal.dlnorm_vals_check, machine.internal.dlnorm_log_check, dlnorm,
    dlnorm_type_check, dlnorm_vals_check, dlnorm_log_check, rsub_exact, rdiv_exact]

theorem machine_pcauchy_exact (K : Env F) (x a b : Val F) (log_form : Bool) :
    machine.pcauchy fin K x a b log_form = pcauchy K x a b log_form := by
  simp only [machine.pcauchy, machine.internal.pcauchy_type_check,
    machine.internal.pcauchy_vals_check, machine.internal.pcauchy_compute, pcauchy,
    pcauchy_type_check, pcauchy_vals_check, pcauchy_compute, radd_exact, rsub_exact,
    rdiv_exact]

theorem machine_pf_exact (K : Env F) (x a b : Val F) (log_form : Bool) :
    machine.pf fin K x a b log_form = pf K x a b log_form := by
  simp only [machine.pf, machine.internal.pf_type_check, machine.internal.pf_vals_check,
    machine.internal.pf_compute, pf, pf_type_check, pf_vals_check, pf_compute, radd_exact,
    rmul_exact, rdiv_exact]

theorem machine_qbern_exact (p a : Val F) :
    machine.qbern fin p a = qbern p a := by
  simp only [machine.qbern, machine.internal.qbern_type_check,
    machine.internal.qbern_compute, qbern, qbern_type_check, qbern_compute, rsub_exact]

theorem machine_qgamma_exact (K : Env F) (p a b : Val F) :
    machine.qgamma fin K p a b = qgamma K p a b := by
  simp only [machine.qgamma, machine.internal.qgamma_type_check,
    machine.internal.qgamma_vals_check, machine.internal.qgamma_compute, qgamma,
    qgamma_type_check, qgamma_vals_check, qgamma_compute, rmul_exact]

theorem machine_qlogis_exact (K : Env F) (p a b : Val F) :
    machine.qlogis fin K p a b = qlogis K p a b := by
  simp only [machine.qlogis, machine.internal.qlogis_type_check,
    machine.internal.qlogis_vals_check, machine.internal.qlogis_compute, qlogis,
    qlogis_type_check, qlogis_vals_check, qlogis_compute, radd_exact, rsub_exact,
    rmul_exact, rdiv_exact]

/-! ### C33: the Bernoulli quantile -/

/-- Evaluation of `qbern` at a valid probability parameter and a probability in [0,1], in a
working type that rounds. -/
theorem machine_qbern_fin (rnd : F → Val F) {p prob : F} (hp0 : 0 ≤ p) (hp1 : p ≤ 1)
    (hq0 : 0 ≤ prob) (hq1 : prob ≤ 1) :
    machine.qbern rnd (fin p) (fin prob)
      = if lt (rnd (1 - prob)) (fin p) = true then fin 1 else fin 0 := by
  have hv : bern_sanity_check (fin prob) = true := by
    have a : ge (fin prob) (fin (0 : F)) = true := (Val.ge_zero_fin_iff _).2 hq0
    have b : le (fin prob) (fin (1 : F)) = true := (Val.le_fin_iff _ _).2 hq1
    simp [bern_sanity_check, a, b]
  have n0 : lt (fin p) (fin (0 : F)) = false := by simp [lt, hp0]
  have n1 : lt (fin (1 : F)) (fin p) = false := by simp [lt, hp1]
  simp only [machine.qbern, machine.internal.qbern_type_check, machine.internal.qbern_compute,
    hv, n0, n1, rsub_fin, gt]
  simp

theorem Val.lt_of_lt_of_le_val {a b c : Val F} (h1 : lt a b = true) (h2 : le b c = true) :
    lt a c = true := by
  cases a <;> cases b <;> cases c <;> simp [le, lt, feq] at h1 h2 ⊢
  rename_i x y z
  rcases h2 with h2 | h2
  · exact h1.trans h2
  · exact h2 ▸ h1

theorem Val.lt_of_le_of_lt_val {a b c : Val F} (h1 : le a b = true) (h2 : lt b c = true) :
    lt a c = true := by
  cases a <;> cases b <;> cases c <;> simp [le, lt, feq] at h1 h2 ⊢
  rename_i x y z
  rcases h1 with h1 | h1
  · exact h1.trans h2
  · exact h1 ▸ h2

theorem Val.lt_irrefl_val (a : Val F) : lt a a = false := by
  cases a <;> simp [lt]

/-- C33, as the code has it: for `prob` and `p` in `[0,1]`, in a working type whose rounding
is monotone and keeps 0 and 1, `qbern(p, prob)` is exactly 0 or exactly 1; it is
non-decreasing in `p` for fixed `prob` and in `prob` for fixed `p`; `qbern(0, prob) = 0`;
`qbern(1, prob) = 1` exactly when the rounded difference `1 - prob` is below 1, which needs
`prob > 0` but is more than `prob > 0`. -/
theorem qbern_rounded_zero_one_monotone (rnd : F → Val F) (hR : RoundingLaws rnd)
    (p p2 prob prob2 : F)
    (hp0 : 0 ≤ p) (hp : p ≤ p2) (hp1 : p2 ≤ 1)
    (hq0 : 0 ≤ prob) (hq : prob ≤ prob2) (hq1 : prob2 ≤ 1) :
    (machine.qbern rnd (fin p) (fin prob) = fin 0 ∨
      machine.qbern rnd (fin p) (fin prob) = fin 1) ∧
    le (machine.qbern rnd (fin p) (fin prob)) (machine.qbern rnd (fin p2) (fin prob)) = true ∧
    le (machine.qbern rnd (fin p) (fin prob)) (machine.qbern rnd (fin p) (fin prob2)) = true ∧
    machine.qbern rnd (fin 0) (fin prob) = fin 0 ∧
    (machine.qbern rnd (fin 1) (fin prob) = fin 1 ↔ lt (rnd (1 - prob)) (fin 1) = true) ∧
    (machine.qbern rnd (fin 1) (fin prob) = fin 1 → 0 < prob) := by
  have hpu : p ≤ 1 := le_trans hp hp1
  have hp20 : 0 ≤ p2 := le_trans hp0 hp
  have hqu : prob ≤ 1 := le_trans hq hq1
  have hq20 : 0 ≤ prob2 := le_trans hq0 hq
  have l01 : le (fin (0 : F)) (fin 1) = true := (Val.le_fin_iff _ _).2 zero_le_one
  have l00 : le (fin (0 : F)) (fin 0) = true := (Val.le_fin_iff _ _).2 (le_refl _)
  have l11 : le (fin (1 : F)) (fin 1) = true := (Val.le_fin_iff _ _).2 (le_refl _)
  have h10 : (fin (1 : F)) ≠ fin 0 := by
    intro e; injection e with e; exact one_ne_zero e
  refine ⟨?_, ?_, ?_, ?_, ?_, ?_⟩
  · rw [machine_qbern_fin rnd hp0 hpu hq0 hqu]
    by_cases h : lt (rnd (1 - prob)) (fin p) = true
    · simp [h]
    · simp [h]
  · rw [machine_qbern_fin rnd hp0 hpu hq0 hqu, machine_qbern_fin rnd hp20 hp1 hq0 hqu]
    by_cases h : lt (rnd (1 - prob)) (fin p) = true
    · have h2 : lt (rnd (1 - prob)) (fin p2) = true :=
        Val.lt_of_lt_of_le_val h (Val.le_of_fin_le hp)
      simp [h, h2, l11]
    · by_cases h2 : lt (rnd (1 - prob)) (fin p2) = true
      · simp [h, h2, l01]
      · simp [h, h2, l00]
  · rw [machine_qbern_fin rnd hp0 hpu hq0 hqu, machine_qbern_fin rnd hp0 hpu hq20 hq1]
    by_cases h : lt (rnd (1 - prob)) (fin p) = true
    · have h2 : lt (rnd (1 - prob2)) (fin p) = true :=
        Val.lt_of_le_of_lt_val (hR.mono _ _ (by linarith)) h
      simp [h, h2, l11]
    · by_cases h2 : lt (rnd (1 - prob2)) (fin p) = true
      · simp [h, h2, l01]
      · simp [h, h2, l00]
  · rw [machine_qbern_fin rnd (le_refl _) zero_le_one hq0 hqu]
    have h : lt (rnd (1 - prob)) (fin (0 : F)) = false := by
      have h1 := Val.rnd_nonneg hR (by linarith : (0 : F) ≤ 1 - prob)
      cases hl : lt (rnd (1 - prob)) (fin (0 : F))
      · rfl
      · have := Val.lt_of_lt_of_le_val hl h1
        rw [Val.lt_irrefl_val] at this
        cases this
    simp [h]
  · rw [machine_qbern_fin rnd zero_le_one (le_refl _) hq0 hqu]
    by_cases h : lt (rnd (1 - prob)) (fin (1 : F)) = true
    · simp [h]
    · simp [h, Ne.symm h10]
  · rw [machine_qbern_fin rnd zero_le_one (le_refl _) hq0 hqu]
    intro h
    by_contra hn
    have h0 : prob = 0 := le_antisymm (not_lt.1 hn) hq0
    rw [h0, sub_zero, hR.one, Val.lt_irrefl_val] at h
    simp at h

/-- C33 in binary64 at `p = 1/2 <= 7/10` and `prob = 4/10 <= 6/10`. -/
theorem qbern_rounded_zero_one_monotone_witness :
    (machine.qbern rnd64 (fin (1/2)) (fin (4/10) : Val ℝ) = fin 0 ∨
      machine.qbern rnd64 (fin (1/2)) (fin (4/10) : Val ℝ) = fin 1) ∧
    le (machine.qbern rnd64 (fin (1/2)) (fin (4/10) : Val ℝ))
      (machine.qbern rnd64 (fin (7/10)) (fin (4/10))) = true ∧
    le (machine.qbern rnd64 (fin (1/2)) (fin (4/10) : Val ℝ))
      (machine.qbern rnd64 (fin (1/2)) (fin (6/10))) = true ∧
    machine.qbern rnd64 (fin 0) (fin (4/10) : Val ℝ) = fin 0 ∧
    (machine.qbern rnd64 (fin 1) (fin (4/10) : Val ℝ) = fin 1 ↔
      lt (rnd64 (1 - 4/10 : ℝ)) (fin 1) = true) ∧
    (machine.qbern rnd64 (fin 1) (fin (4/10) : Val ℝ) = fin 1 → (0 : ℝ) < 4/10) :=
  qbern_rounded_zero_one_monotone rnd64 rnd64_laws (1/2) (7/10) (4/10) (6/10) (by norm_num)
    (by norm_num) (by norm_num) (by norm_num) (by norm_num) (by norm_num)

/-- C33, the counterexample: in binary64 `1 - 2^-60` rounds to 1, so `qbern(1, 2^-60)` is 0
although `2^-60 > 0`. -/
theorem qbern_one_tiny_prob_counterexample :
    machine.qbern rnd64 (fin 1) (fin (1 / 2 ^ 60 : ℝ)) = fin 0 ∧ (0 : ℝ) < 1 / 2 ^ 60 := by
  constructor
  · have h := rnd64_near (x := (1 - 1 / 2 ^ 60 : ℝ)) (-1) (2 ^ 53) (by norm_num)
      (by norm_num) (by norm_num) (by norm_num) (by norm_num) (by norm_num)
    have e : (((2 ^ 53 : ℤ) : ℝ) * (2 : ℝ) ^ ((-1 : ℤ) - 52)) = 1 := by norm_num
    rw [e] at h
    rw [machine_qbern_fin rnd64 zero_le_one (le_refl _) (by norm_num) (by norm_num), h,
      Val.lt_irrefl_val]
    simp
  · norm_num

/-! ### Contracts met by the binary64 environment -/

/-- The correctly rounded logarithm: its value at 0, at a positive real and at 1; it is
non-decreasing on the non-negative values; and it is at most 0 on [0,1]. -/
theorem f64Env_log_contracts :
    f64Env.log (fin 0) = ninf ∧
    (∀ r : ℝ, 0 < r → f64Env.log (fin r) = rnd64 (Real.log r)) ∧
    f64Env.log (fin 1) = fin 0 ∧
    (∀ a b : Val ℝ, le (fin 0) a = true → le a b = true →
      le (f64Env.log a) (f64Env.log b) = true) ∧
    (∀ v : ℝ, 0 ≤ v → v ≤ 1 → le (f64Env.log (fin v)) (fin 0) = true) := by
  have hzero : f64Env.log (fin 0) = ninf := by
    show rd rnd64 (refLog (fin 0)) = rd rnd64 ninf
    exact congrArg _ ((if_neg (lt_irrefl (0 : ℝ))).trans (if_pos rfl))
  have hfin : ∀ r : ℝ, 0 < r → f64Env.log (fin r) = rnd64 (Real.log r) := by
    intro r hr
    show rd rnd64 (refLog (fin r)) = rd rnd64 (fin (Real.log r))
    exact congrArg _ (if_pos hr)
  have hpinf : f64Env.log pinf = pinf := rfl
  have hone : f64Env.log (fin 1) = fin 0 := by
    rw [hfin 1 one_pos, Real.log_one, rnd64_zero]
  have hmono : ∀ a b : Val ℝ, le (fin 0) a = true → le a b = true →
      le (f64Env.log a) (f64Env.log b) = true := by
    intro a b ha hab
    have hb0 : le (fin 0) b = true := Val.le_trans_val ha hab
    have key : ∀ v : Val ℝ, le (fin 0) v = true → f64Env.log v ≠ nan := by
      intro v hv
      cases v with
      | nan => simp [le, lt, feq] at hv
      | ninf => simp [le, lt, feq] at hv
      | pinf => intro e; cases e
      | fin x =>
        rcases eq_or_lt_of_le ((Val.le_fin_iff _ _).1 hv) with h | h
        · rw [← h, hzero]; intro e; cases e
        · rw [hfin _ h]; exact Val.ne_nan_of_le_left (rnd64_mono (le_refl _))
    cases a with
    | nan => simp [le, lt, feq] at ha
    | ninf => simp [le, lt, feq] at ha
    | pinf =>
      cases b with
      | pinf => rfl
      | nan => simp [le, lt, feq] at hab
      | ninf => simp [le, lt, feq] at hab
      | fin y => simp [le, lt, feq] at hab
    | fin x =>
      have hx : 0 ≤ x := (Val.le_fin_iff _ _).1 ha
      rcases eq_or_lt_of_le hx with h | h
      · rw [← h, hzero]; exact Val.ninf_le (key b hb0)
      · cases b with
        | nan => simp [le, lt, feq] at hab
        | ninf => simp [le, lt, feq] at hab
        | pinf => rw [hpinf]; exact Val.le_pinf (key _ ha)
        | fin y =>
          have hxy : x ≤ y := (Val.le_fin_iff _ _).1 hab
          rw [hfin _ h, hfin _ (lt_of_lt_of_le h hxy)]
          exact rnd64_mono (Real.log_le_log h hxy)
  refine ⟨hzero, hfin, hone, hmono, fun v h0 h1 => ?_⟩
  have h := hmono (fin v) (fin 1) (Val.le_of_fin_le h0) (Val.le_of_fin_le h1)
  rwa [hone] at h

/-! ### C32: monotonicity of the logistic quantile -/

/-- Evaluation of `qlogis` strictly inside the unit interval, in a working type that
rounds. -/
theorem machine_qlogis_interior (rnd : F → Val F) (K : Env F) {p mu sigma : F}
    (hsigma : 0 < sigma) (hp0 : 0 < p) (hp1 : p < 1) :
    machine.qlogis rnd K (fin p) (fin mu) (fin sigma)
      = radd rnd (fin mu) (rmul rnd (fin sigma)
          (K.log (rdiv rnd (fin p) (rnd (1 - p))))) := by
  have hv : logis_sanity_check (fin mu) (fin sigma) = true := by
    simp [logis_sanity_check, gt, lt, hsigma]
  have e0 : lt (fin p) (fin (0 : F)) = false := by simp [lt, le_of_lt hp0]
  have e1 : lt (fin (1 : F)) (fin p) = false := by simp [lt, le_of_lt hp1]
  have e2 : feq (fin p) (fin (0 : F)) = false := by simp [feq, ne_of_gt hp0]
  have e3 : feq (fin p) (fin (1 : F)) = false := by simp [feq, ne_of_lt hp1]
  simp only [machine.qlogis, machine.internal.qlogis_type_check,
    machine.internal.qlogis_vals_check, machine.internal.qlogis_compute, hv, gt, e0, e1, e2,
    e3, rsub_fin]
  rfl

/-- The endpoint values of `qlogis` at finite valid parameters. -/
theorem machine_qlogis_ends (rnd : F → Val F) (K : Env F) (mu sigma : F) (hsigma : 0 < sigma) :
    machine.qlogis rnd K (fin 0) (fin mu) (fin sigma) = ninf ∧
    machine.qlogis rnd K (fin 1) (fin mu) (fin sigma) = pinf := by
  have hv : logis_sanity_check (fin mu) (fin sigma) = true := by
    simp [logis_sanity_check, gt, lt, hsigma]
  have hn : -(pinf : Val F) = ninf := rfl
  constructor <;>
  simp [machine.qlogis, machine.internal.qlogis_type_check, machine.internal.qlogis_vals_check,
    hv, lt, gt, feq, hn]

/-- The rounded odds `p / (1 - p)` are non-negative and non-decreasing on the open unit
interval. -/
theorem rounded_odds_mono {rnd : F → Val F} (hR : RoundingLaws rnd) {p1 p2 : F}
    (h0 : 0 < p1) (h12 : p1 ≤ p2) (h2 : p2 < 1) :
    le (fin 0) (rdiv rnd (fin p1) (rnd (1 - p1))) = true ∧
    le (rdiv rnd (fin p1) (rnd (1 - p1))) (rdiv rnd (fin p2) (rnd (1 - p2))) = true := by
  have h1 : p1 < 1 := lt_of_le_of_lt h12 h2
  obtain ⟨r1, e1, r1n, r1u⟩ := Val.rnd_unit hR (by linarith : (0 : F) ≤ 1 - p1) (by linarith)
  obtain ⟨r2, e2, r2n, r2u⟩ := Val.rnd_unit hR (by linarith : (0 : F) ≤ 1 - p2) (by linarith)
  have hr : r2 ≤ r1 := by
    have := hR.mono (1 - p2) (1 - p1) (by linarith)
    rw [e1, e2] at this
    exact (Val.le_fin_iff _ _).1 this
  have hz : ∀ q : F, 0 < q → rdiv rnd (fin q) (fin (0 : F)) = pinf := by
    intro q hq
    have : (fin q / fin (0 : F) : Val F) = pinf := by
      show Val.div (fin q) (fin 0) = pinf
      simp [Val.div, infTimes, ne_of_gt hq, hq]
    unfold rdiv
    rw [this]
    rfl
  rw [e1, e2]
  rcases eq_or_lt_of_le r2n with hr2 | hr2
  · -- the second divisor is rounded to zero
    rw [← hr2, hz p2 (lt_of_lt_of_le h0 h12)]
    rcases eq_or_lt_of_le r1n with hr1 | hr1
    · rw [← hr1, hz p1 h0]; exact ⟨rfl, rfl⟩
    · rw [rdiv_fin rnd p1 (ne_of_gt hr1)]
      have hn := Val.rnd_nonneg hR (le_of_lt (div_pos h0 hr1))
      exact ⟨hn, Val.le_pinf (Val.ne_nan_of_le_right hn)⟩
  · have hr1 : 0 < r1 := lt_of_lt_of_le hr2 hr
    rw [rdiv_fin rnd p1 (ne_of_gt hr1), rdiv_fin rnd p2 (ne_of_gt hr2)]
    refine ⟨Val.rnd_nonneg hR (le_of_lt (div_pos h0 hr1)), hR.mono _ _ ?_⟩
    rw [div_le_div_iff₀ hr1 hr2]
    have : p1 * r2 ≤ p2 * r2 := mul_le_mul_of_nonneg_right h12 (le_of_lt hr2)
    have : p2 * r2 ≤ p2 * r1 := mul_le_mul_of_nonneg_left hr (le_of_lt (lt_of_lt_of_le h0 h12))
    linarith

/-- C32, as the code has it: in a working type whose rounding is monotone, with a kernel
logarithm that is non-decreasing on the non-negative values and has `log 1 = 0`, for a finite
`mu`, a finite `sigma > 0` and `0 <= p1 <= p2 <= 1`, `qlogis(p1) <= qlogis(p2)` in the
extended order: `qlogis` is non-decreasing on the closed interval, with the endpoint values
`-infinity` at 0 and `+infinity` at 1; and `qlogis(1/2, mu, sigma) = mu` when `mu` is a value
of the working type.  Strictness is not asserted. -/
theorem qlogis_rounded_nondecreasing (rnd : F → Val F) (hR : RoundingLaws rnd) (K : Env F)
    (hlog : ∀ a b : Val F, le (fin 0) a = true → le a b = true →
      le (K.log a) (K.log b) = true)
    (hlog1 : K.log (fin 1) = fin 0)
    (p1 p2 mu sigma : F) (hsigma : 0 < sigma) (hmu : rnd mu = fin mu)
    (h0 : 0 ≤ p1) (h12 : p1 ≤ p2) (h1 : p2 ≤ 1) :
    le (machine.qlogis rnd K (fin p1) (fin mu) (fin sigma))
      (machine.qlogis rnd K (fin p2) (fin mu) (fin sigma)) = true ∧
    machine.qlogis rnd K (fin 0) (fin mu) (fin sigma) = ninf ∧
    machine.qlogis rnd K (fin 1) (fin mu) (fin sigma) = pinf ∧
    machine.qlogis rnd K (fin (1 / 2)) (fin mu) (fin sigma) = fin mu := by
  have hends := machine_qlogis_ends rnd K mu sigma hsigma
  -- the value strictly inside the interval is never NaN
  have hmid : ∀ q1 q2 : F, 0 < q1 → q1 ≤ q2 → q2 < 1 →
      le (machine.qlogis rnd K (fin q1) (fin mu) (fin sigma))
        (machine.qlogis rnd K (fin q2) (fin mu) (fin sigma)) = true := by
    intro q1 q2 hq1 hq12 hq2
    rw [machine_qlogis_interior rnd K hsigma hq1 (lt_of_le_of_lt hq12 hq2),
      machine_qlogis_interior rnd K hsigma (lt_of_lt_of_le hq1 hq12) hq2]
    obtain ⟨hn, hm⟩ := rounded_odds_mono hR hq1 hq12 hq2
    have hl := hlog _ _ hn hm
    unfold radd rmul
    exact Val.rd_mono hR (Val.add_left_mono mu (Val.rd_mono hR (Val.mul_pos_left_mono hsigma hl)))
  refine ⟨?_, hends.1, hends.2, ?_⟩
  · rcases eq_or_lt_of_le h0 with hp1 | hp1
    · rw [← hp1, hends.1]
      rcases eq_or_lt_of_le h1 with hp2 | hp2
      · rw [hp2, hends.2]; rfl
      · rcases eq_or_lt_of_le (le_trans h0 h12) with hp3 | hp3
        · rw [← hp3, hends.1]; rfl
        · exact Val.ninf_le (Val.ne_nan_of_le_left (hmid p2 p2 hp3 (le_refl _) hp2))
    · rcases eq_or_lt_of_le h1 with hp2 | hp2
      · rw [hp2, hends.2]
        rcases eq_or_lt_of_le (le_trans h12 h1) with hp3 | hp3
        · rw [hp3, hends.2]; rfl
        · exact Val.le_pinf (Val.ne_nan_of_le_left (hmid p1 p1 hp1 (le_refl _) hp3))
      · exact hmid p1 p2 hp1 h12 hp2
  · rw [machine_qlogis_interior rnd K hsigma (by norm_num) (by norm_num)]
    have e : (1 : F) - 1 / 2 = 1 / 2 := by norm_num
    rw [e, hR.half, rdiv_fin rnd _ (by norm_num : (1 / 2 : F) ≠ 0)]
    have e2 : (1 / 2 : F) / (1 / 2) = 1 := by norm_num
    rw [e2, hR.one, hlog1, rmul_fin, mul_zero, hR.zero, radd_fin, add_zero, hmu]

/-- C32 in binary64 with the correctly rounded kernel, at `mu = 1`, `sigma = 2` and
`p1 = 1/4 <= p2 = 3/4`. -/
theorem qlogis_rounded_nondecreasing_witness :
    le (machine.qlogis rnd64 f64Env (fin (1 / 4)) (fin 1) (fin 2))
      (machine.qlogis rnd64 f64Env (fin (3 / 4)) (fin 1) (fin 2)) = true ∧
    machine.qlogis rnd64 f64Env (fin 0) (fin 1) (fin 2) = ninf ∧
    machine.qlogis rnd64 f64Env (fin 1) (fin 1) (fin 2) = pinf ∧
    machine.qlogis rnd64 f64Env (fin (1 / 2)) (fin 1) (fin 2) = fin 1 :=
  qlogis_rounded_nondecreasing rnd64 rnd64_laws f64Env f64Env_log_contracts.2.2.2.1
    f64Env_log_contracts.2.2.1
    (1 / 4) (3 / 4) 1 2 (by norm_num) rnd64_one (by norm_num) (by norm_num) (by norm_num)

/-- The rounding of a value between two binary64 values lies between them. -/
theorem rnd64_range [FloorRing F] {lo x hi : F} (h1 : lo ≤ x) (h2 : x ≤ hi)
    (hlo : rnd64 lo = fin lo) (hhi : rnd64 hi = fin hi) :
    ∃ r : F, rnd64 x = fin r ∧ lo ≤ r ∧ r ≤ hi := by
  have a := rnd64_mono h1
  have b := rnd64_mono h2
  rw [hlo] at a
  rw [hhi] at b
  exact Val.fin_of_between a b

theorem rnd64_two [FloorRing F] : rnd64 (2 : F) = fin 2 := by
  apply rnd64_exact 1 (2 ^ 52) <;> norm_num

theorem rnd64_four [FloorRing F] : rnd64 (4 : F) = fin 4 := by
  apply rnd64_exact 2 (2 ^ 52) <;> norm_num

theorem rnd64_quarter [FloorRing F] : rnd64 (1 / 4 : F) = fin (1 / 4) := by
  apply rnd64_exact (-2) (2 ^ 52) <;> norm_num

theorem rnd64_neg_two [FloorRing F] : rnd64 (-2 : F) = fin (-2) := by
  rw [rnd64_neg, rnd64_two, neg_fin]

theorem log_four_le_two : Real.log 4 ≤ 2 := by
  rw [Real.log_le_iff_le_exp (by norm_num)]
  have h := Real.add_one_le_exp (1 : ℝ)
  have e : Real.exp 2 = Real.exp 1 * Real.exp 1 := by
    rw [← Real.exp_add]; norm_num
  rw [e]
  nlinarith

/-- C32, the counterexample: in binary64 with the correctly rounded logarithm,
`qlogis(1/4, 10^17, 1)` and `qlogis(3/4, 10^17, 1)` are both `10^17`, so the quantile is not
strictly increasing. -/
theorem qlogis_not_strict_counterexample :
    machine.qlogis rnd64 f64Env (fin (1 / 4)) (fin (10 ^ 17)) (fin 1) = fin (10 ^ 17) ∧
    machine.qlogis rnd64 f64Env (fin (3 / 4)) (fin (10 ^ 17)) (fin 1) = fin (10 ^ 17) ∧
    lt (machine.qlogis rnd64 f64Env (fin (1 / 4)) (fin (10 ^ 17)) (fin 1))
      (machine.qlogis rnd64 f64Env (fin (3 / 4)) (fin (10 ^ 17)) (fin 1)) = false := by
  -- with the location `10^17` and the scale 1 every logit between `log(1/4)` and `log 4` is
  -- absorbed by the rounding of the sum: the unit in the last place of `10^17` is 16
  have absorbed : ∀ d : ℝ, 1 / 4 ≤ d → d ≤ 4 →
      radd rnd64 (fin (10 ^ 17)) (rmul rnd64 (fin 1) (f64Env.log (fin d))) = fin (10 ^ 17) := by
    intro d h1 h2
    have hd : 0 < d := by linarith
    have hl1 : -2 ≤ Real.log d := by
      have : Real.log (1 / 4) ≤ Real.log d := Real.log_le_log (by norm_num) h1
      have e : Real.log (1 / 4) = - Real.log 4 := by
        rw [one_div, Real.log_inv]
      have := log_four_le_two
      linarith
    have hl2 : Real.log d ≤ 2 := le_trans (Real.log_le_log hd h2) log_four_le_two
    obtain ⟨l, el, l1, l2⟩ := rnd64_range hl1 hl2 rnd64_neg_two rnd64_two
    rw [f64Env_log_contracts.2.1 d hd, el, rmul_fin, one_mul]
    obtain ⟨m, em, m1, m2⟩ := rnd64_range l1 l2 rnd64_neg_two rnd64_two
    rw [em, radd_fin]
    have lo : rnd64 (10 ^ 17 + (-2) : ℝ) = fin (10 ^ 17) := by
      have h := rnd64_near (x := (10 ^ 17 + (-2) : ℝ)) 56 6250000000000000 (by norm_num)
        (by norm_num) (by norm_num) (by norm_num) (by norm_num) (by norm_num)
      rw [h]; congr 1; norm_num
    have hi : rnd64 (10 ^ 17 + 2 : ℝ) = fin (10 ^ 17) := by
      have h := rnd64_near (x := (10 ^ 17 + 2 : ℝ)) 56 6250000000000000 (by norm_num)
        (by norm_num) (by norm_num) (by norm_num) (by norm_num) (by norm_num)
      rw [h]; congr 1; norm_num
    exact rnd64_between (by linarith) (by linarith) lo hi
  have three_quarters : rnd64 (3 / 4 : ℝ) = fin (3 / 4) := by
    apply rnd64_exact (-1) (3 * 2 ^ 51) <;> norm_num
  have a : machine.qlogis rnd64 f64Env (fin (1 / 4)) (fin (10 ^ 17)) (fin 1)
      = fin (10 ^ 17) := by
    rw [machine_qlogis_interior rnd64 f64Env one_pos (by norm_num) (by norm_num)]
    have e : (1 : ℝ) - 1 / 4 = 3 / 4 := by norm_num
    rw [e, three_quarters, rdiv_fin rnd64 _ (by norm_num : (3 / 4 : ℝ) ≠ 0)]
    obtain ⟨d, ed, d1, d2⟩ := rnd64_range (x := (1 / 4 : ℝ) / (3 / 4))
      (by norm_num : (1 / 4 : ℝ) ≤ _) (by norm_num : _ ≤ (4 : ℝ)) rnd64_quarter rnd64_four
    rw [ed]
    exact absorbed d d1 d2
  have b : machine.qlogis rnd64 f64Env (fin (3 / 4)) (fin (10 ^ 17)) (fin 1)
      = fin (10 ^ 17) := by
    rw [machine_qlogis_interior rnd64 f64Env one_pos (by norm_num) (by norm_num)]
    have e : (1 : ℝ) - 3 / 4 = 1 / 4 := by norm_num
    rw [e, rnd64_quarter, rdiv_fin rnd64 _ (by norm_num : (1 / 4 : ℝ) ≠ 0)]
    obtain ⟨d, ed, d1, d2⟩ := rnd64_range (x := (3 / 4 : ℝ) / (1 / 4))
      (by norm_num : (1 / 4 : ℝ) ≤ _) (by norm_num : _ ≤ (4 : ℝ)) rnd64_quarter rnd64_four
    rw [ed]
    exact absorbed d d1 d2
  refine ⟨a, b, ?_⟩
  rw [a, b, Val.lt_irrefl_val]

/-! ### C12: the range of the Cauchy distribution function -/

/-- The constant pi and the arctangent of the binary64 environment: `GCEM_PI` is
`884279719003555/2^48`, the `double` nearest to pi; every real within `10^-17` below pi/2
rounds to half of it; and the correctly rounded arctangent stays within plus or minus half of
it. -/
theorem f64Env_atan_contracts :
    f64Env.GCEM_PI = 884279719003555 / 2 ^ 48 ∧
    (∀ x : ℝ, Real.pi / 2 - 1 / 10 ^ 17 ≤ x → x ≤ Real.pi / 2 →
      rnd64 x = fin (884279719003555 / 2 ^ 49)) ∧
    (∀ z : Val ℝ, z ≠ nan →
      le (fin (-(f64Env.GCEM_PI / 2))) (f64Env.atan z) = true ∧
      le (f64Env.atan z) (fin (f64Env.GCEM_PI / 2)) = true) := by
  have near_pi : ∀ y : ℝ, 3.14159265358979323846 ≤ y → y ≤ 3.14159265358979323847 →
      rnd64 y = fin (884279719003555 / 2 ^ 48) := by
    intro y hy1 hy2
    have h := rnd64_near (x := y) 1 7074237752028440 (by norm_num)
      (by norm_num; linarith) (by norm_num; linarith) (by norm_num; linarith)
      (by norm_num; linarith) (by norm_num)
    rw [h]; congr 1; norm_num
  have hpi : f64Env.GCEM_PI = 884279719003555 / 2 ^ 48 := by
    show (rnd64 Real.pi).value = _
    rw [near_pi _ (le_of_lt Real.pi_gt_d20) (le_of_lt Real.pi_lt_d20)]
    rfl
  have half : ∀ x : ℝ, Real.pi / 2 - 1 / 10 ^ 17 ≤ x → x ≤ Real.pi / 2 →
      rnd64 x = fin (884279719003555 / 2 ^ 49) := by
    intro x h1 h2
    have p1 := Real.pi_gt_d20
    have p2 := Real.pi_lt_d20
    have h := rnd64_near (x := x) 0 7074237752028440 (by norm_num)
      (by norm_num; norm_num at p1; linarith) (by norm_num; norm_num at p2; linarith)
      (by norm_num; norm_num at p1; linarith)
      (by norm_num; norm_num at p2; linarith) (by norm_num)
    rw [h]; congr 1; norm_num
  refine ⟨hpi, half, ?_⟩
  intro z hz
  have hp : rnd64 (Real.pi / 2) = fin (f64Env.GCEM_PI / 2) := by
    rw [half _ (by norm_num) (le_refl _), hpi]
    congr 1; norm_num
  have hn : rnd64 (-(Real.pi / 2)) = fin (-(f64Env.GCEM_PI / 2)) := by
    rw [rnd64_neg, hp, neg_fin]
  cases z with
  | nan => exact absurd rfl hz
  | ninf =>
    have e : f64Env.atan ninf = rnd64 (-(Real.pi / 2)) := rfl
    rw [e, hn]
    exact ⟨Val.le_of_fin_le (le_refl _), Val.le_of_fin_le (by rw [hpi]; norm_num)⟩
  | pinf =>
    have e : f64Env.atan pinf = rnd64 (Real.pi / 2) := rfl
    rw [e, hp]
    exact ⟨Val.le_of_fin_le (by rw [hpi]; norm_num), Val.le_of_fin_le (le_refl _)⟩
  | fin r =>
    have e : f64Env.atan (fin r) = rnd64 (Real.arctan r) := rfl
    rw [e, ← hp, ← hn]
    exact ⟨rnd64_mono (le_of_lt (Real.neg_pi_div_two_lt_arctan r)),
      rnd64_mono (le_of_lt (Real.arctan_lt_pi_div_two r))⟩

/-- C12, as the code has it: in a working type whose rounding is monotone, with a kernel
arctangent that stays within plus or minus `GCEM_PI/2` and a kernel logarithm that is at most
0 on [0,1], for finite `x`, `mu` and `sigma > 0` the natural form of `pcauchy` is a finite
value in the closed interval [0,1] and the log form is at most 0; it may be `-infinity`:
neither the open interval nor a finite log is asserted. -/
theorem pcauchy_rounded_range (rnd : F → Val F) (hR : RoundingLaws rnd) (K : Env F)
    (hpi : 0 < K.GCEM_PI)
    (hatan : ∀ z : Val F, z ≠ nan →
      le (fin (-(K.GCEM_PI / 2))) (K.atan z) = true ∧
      le (K.atan z) (fin (K.GCEM_PI / 2)) = true)
    (hlog : ∀ v : F, 0 ≤ v → v ≤ 1 → le (K.log (fin v)) (fin 0) = true)
    (x mu sigma : F) (hsigma : 0 < sigma) :
    (∃ v : F, machine.pcauchy rnd K (fin x) (fin mu) (fin sigma) false = fin v ∧
      0 ≤ v ∧ v ≤ 1) ∧
    le (machine.pcauchy rnd K (fin x) (fin mu) (fin sigma) true) (fin 0) = true := by
  have hv : cauchy_sanity_check (fin mu) (fin sigma) = true := by
    simp [cauchy_sanity_check, isFinite, gt, lt, hsigma]
  have hz : rdiv rnd (rsub rnd (fin x) (fin mu)) (fin sigma) ≠ nan := by
    rw [rsub_fin]
    have h1 : rnd (x - mu) ≠ nan := Val.ne_nan_of_le_left (hR.mono _ _ (le_refl _))
    have h2 : (rnd (x - mu) / fin sigma : Val F) ≠ nan := by
      cases hc : rnd (x - mu) with
      | nan => exact absurd hc h1
      | ninf =>
        show Val.div ninf (fin sigma) ≠ nan
        simp [Val.div, le_of_lt hsigma]
      | pinf =>
        show Val.div pinf (fin sigma) ≠ nan
        simp [Val.div, le_of_lt hsigma]
      | fin r =>
        rw [div_fin r (ne_of_gt hsigma)]
        intro e; cases e
    exact Val.rd_ne_nan hR h2
  obtain ⟨ha1, ha2⟩ := hatan _ hz
  obtain ⟨a, ea, a1, a2⟩ := Val.fin_of_between ha1 ha2
  have hq1 : -(1 / 2) ≤ a / K.GCEM_PI := by
    rw [le_div_iff₀ hpi]; linarith
  have hq2 : a / K.GCEM_PI ≤ 1 / 2 := by
    rw [div_le_iff₀ hpi]; linarith
  have hnh : rnd (-(1 / 2)) = fin (-(1 / 2)) := by
    rw [hR.neg, hR.half, neg_fin]
  have b1 := hR.mono _ _ hq1
  have b2 := hR.mono _ _ hq2
  rw [hnh] at b1
  rw [hR.half] at b2
  obtain ⟨q, eq, q1, q2⟩ := Val.fin_of_between b1 b2
  have hnat : machine.pcauchy rnd K (fin x) (fin mu) (fin sigma) false
      = rnd (1 / 2 + q) := by
    simp only [machine.pcauchy, machine.internal.pcauchy_type_check,
      machine.internal.pcauchy_vals_check, machine.internal.pcauchy_compute, hv, log_if]
    simp only [Bool.not_true, Bool.false_eq_true, if_false]
    rw [ea, rdiv_fin rnd a (ne_of_gt hpi), eq, radd_fin]
  have hlogf : machine.pcauchy rnd K (fin x) (fin mu) (fin sigma) true
      = K.log (rnd (1 / 2 + q)) := by
    simp only [machine.pcauchy, machine.internal.pcauchy_type_check,
      machine.internal.pcauchy_vals_check, machine.internal.pcauchy_compute, hv, log_if]
    simp only [Bool.not_true, Bool.false_eq_true, if_false, if_true]
    rw [ea, rdiv_fin rnd a (ne_of_gt hpi), eq, radd_fin]
  obtain ⟨v, ev, v0, v1⟩ := Val.rnd_unit hR (by linarith : (0 : F) ≤ 1 / 2 + q) (by linarith)
  refine ⟨⟨v, by rw [hnat, ev], v0, v1⟩, ?_⟩
  rw [hlogf, ev]
  exact hlog v v0 v1

/-- C12 in binary64 with the correctly rounded kernel, at `x = 3`, `mu = 1`, `sigma = 2`. -/
theorem pcauchy_rounded_range_witness :
    (∃ v : ℝ, machine.pcauchy rnd64 f64Env (fin 3) (fin 1) (fin 2) false = fin v ∧
      0 ≤ v ∧ v ≤ 1) ∧
    le (machine.pcauchy rnd64 f64Env (fin 3) (fin 1) (fin 2) true) (fin 0) = true :=
  pcauchy_rounded_range rnd64 rnd64_laws f64Env (by rw [f64Env_atan_contracts.1]; norm_num)
    f64Env_atan_contracts.2.2 f64Env_log_contracts.2.2.2.2 3 1 2 (by norm_num)

/-- C12, the counterexample: in binary64 with the correctly rounded kernel the arctangent of
`-10^17` rounds to minus half of the binary64 pi, so `pcauchy(-10^17, 0, 1, false)` is
exactly 0, not strictly inside (0,1), and `pcauchy(-10^17, 0, 1, true)` is `-infinity`, not a
finite value. -/
theorem pcauchy_saturates_counterexample :
    machine.pcauchy rnd64 f64Env (fin (-10 ^ 17)) (fin 0) (fin 1) false = fin 0 ∧
    machine.pcauchy rnd64 f64Env (fin (-10 ^ 17)) (fin 0) (fin 1) true = ninf := by
  have hv : cauchy_sanity_check (fin (0 : ℝ)) (fin (1 : ℝ)) = true := by
    simp [cauchy_sanity_check, isFinite, gt, lt]
  have big : rnd64 (10 ^ 17 : ℝ) = fin (10 ^ 17) := by
    apply rnd64_exact 56 6250000000000000 <;> norm_num
  have hx : rnd64 (-10 ^ 17 : ℝ) = fin (-10 ^ 17) := by
    have := rnd64_neg (10 ^ 17 : ℝ)
    rw [big, neg_fin] at this
    exact this
  have hat : rnd64 (Real.arctan (-10 ^ 17)) = fin (-(884279719003555 / 2 ^ 49)) := by
    have e : Real.arctan (-10 ^ 17) = -Real.arctan (10 ^ 17) := by
      rw [← Real.arctan_neg]
    -- the arctangent of a large argument is within its reciprocal of pi/2
    have hinv : (0 : ℝ) < (10 ^ 17)⁻¹ := inv_pos.2 (by norm_num)
    have h := Real.arctan_inv_of_pos hinv
    rw [inv_inv] at h
    have ha : 0 < Real.arctan ((10 ^ 17 : ℝ)⁻¹) := by
      have := Real.arctan_strictMono hinv
      rwa [Real.arctan_zero] at this
    have h2 := Real.lt_tan ha (Real.arctan_lt_pi_div_two _)
    rw [Real.tan_arctan] at h2
    have h3 : Real.pi / 2 - 1 / 10 ^ 17 ≤ Real.arctan (10 ^ 17) := by
      rw [one_div]
      linarith
    rw [e, rnd64_neg, f64Env_atan_contracts.2.1 _ h3 (le_of_lt (Real.arctan_lt_pi_div_two _)),
      neg_fin]
  have hpi := f64Env_atan_contracts.1
  have hnat : machine.pcauchy rnd64 f64Env (fin (-10 ^ 17)) (fin 0) (fin 1) false = fin 0 := by
    simp only [machine.pcauchy, machine.internal.pcauchy_type_check,
      machine.internal.pcauchy_vals_check, machine.internal.pcauchy_compute, hv, log_if]
    simp only [Bool.not_true, Bool.false_eq_true, if_false]
    rw [rsub_fin, sub_zero, hx, rdiv_fin rnd64 _ (one_ne_zero), div_one, hx,
      (show f64Env.atan (fin (-10 ^ 17)) = rnd64 (Real.arctan (-10 ^ 17)) from rfl),
      hat, hpi, rdiv_fin rnd64 _ (by norm_num)]
    have e : (-(884279719003555 / 2 ^ 49) : ℝ) / (884279719003555 / 2 ^ 48) = -(1 / 2) := by
      norm_num
    rw [e, rnd64_neg, rnd64_half, neg_fin, radd_fin]
    have e2 : (1 / 2 : ℝ) + -(1 / 2) = 0 := by norm_num
    rw [e2, rnd64_zero]
  refine ⟨hnat, ?_⟩
  have hl : machine.pcauchy rnd64 f64Env (fin (-10 ^ 17)) (fin 0) (fin 1) true
      = f64Env.log (machine.pcauchy rnd64 f64Env (fin (-10 ^ 17)) (fin 0) (fin 1) false) := by
    simp only [machine.pcauchy, machine.internal.pcauchy_type_check,
      machine.internal.pcauchy_vals_check, hv, log_if]
    simp
  rw [hl, hnat, f64Env_log_contracts.1]

/-! ### C13, C23: the F distribution function in a working type that rounds -/

/-- Evaluation of `pf` below epsilon, in a working type that rounds. -/
theorem machine_pf_below (rnd : F → Val F) (K : Env F) {x : F} (df1 df2 : Val F)
    (hv : f_sanity_check df1 df2 = true) (hx : x < K.epsilon) :
    machine.pf rnd K (fin x) df1 df2 false = fin 0 := by
  have hg : lt (fin x) (fin K.epsilon) = true := by simp [lt, hx]
  simp [machine.pf, machine.internal.pf_type_check, machine.internal.pf_vals_check, hv, gt, hg,
    log_if]

/-- Evaluation of `pf` on the kernel branch, in a working type that rounds. -/
theorem machine_pf_kernel (rnd : F → Val F) (K : Env F) {d1 d2 : F} (x : Val F)
    (h1 : 0 < d1) (h2 : 0 < d2) (hx : gt (fin K.epsilon) x = false) (log_form : Bool) :
    machine.pf rnd K x (fin d1) (fin d2) log_form
      = log_if K (K.incomplete_beta (rnd (d1 / 2)) (rnd (d2 / 2))
          (rdiv rnd (rdiv rnd (rmul rnd (fin d1) x) (fin d2))
            (radd rnd (fin 1) (rdiv rnd (rmul rnd (fin d1) x) (fin d2))))) log_form := by
  have hv : f_sanity_check (fin d1) (fin d2) = true := by
    simp [f_sanity_check, gt, lt, h1, h2]
  simp only [machine.pf, machine.internal.pf_type_check, machine.internal.pf_vals_check,
    machine.internal.pf_compute, hv, hx]
  rw [rdiv_fin rnd _ two_ne_zero, rdiv_fin rnd _ two_ne_zero]
  rfl

/-- The rounded ratio `t = df1*x/df2`, when finite, is a non-negative value of the working
type. -/
theorem f_ratio_value {rnd : F → Val F} (hR : RoundingLaws rnd) {d1 d2 x t : F}
    (h1 : 0 < d1) (h2 : 0 < d2) (hx : 0 ≤ x)
    (ht : rdiv rnd (rmul rnd (fin d1) (fin x)) (fin d2) = fin t) :
    0 ≤ t ∧ rnd t = fin t := by
  rw [rmul_fin] at ht
  have hu := Val.rnd_nonneg hR (mul_nonneg (le_of_lt h1) hx)
  cases hc : rnd (d1 * x) with
  | nan => rw [hc] at hu; simp [le, lt, feq] at hu
  | ninf => rw [hc] at hu; simp [le, lt, feq] at hu
  | pinf =>
    rw [hc] at ht
    have : rdiv rnd (pinf : Val F) (fin d2) = pinf := by
      have e : ((pinf : Val F) / fin d2) = pinf := by
        show Val.div pinf (fin d2) = pinf
        simp [Val.div, le_of_lt h2]
      unfold rdiv; rw [e]; rfl
    rw [this] at ht
    cases ht
  | fin u =>
    rw [hc] at ht hu
    have hu0 : 0 ≤ u := (Val.le_fin_iff _ _).1 hu
    rw [rdiv_fin rnd u (ne_of_gt h2)] at ht
    refine ⟨?_, hR.idem _ _ ht⟩
    have := Val.rnd_nonneg hR (div_nonneg hu0 (le_of_lt h2))
    rw [ht] at this
    exact (Val.le_fin_iff _ _).1 this

/-- The rounded ratio `t = df1*x/df2` is non-decreasing in a non-negative x. -/
theorem f_ratio_mono {rnd : F → Val F} (hR : RoundingLaws rnd) {d1 d2 x1 x2 : F}
    (h1 : 0 < d1) (h2 : 0 < d2) (hx : x1 ≤ x2) :
    le (rdiv rnd (rmul rnd (fin d1) (fin x1)) (fin d2))
      (rdiv rnd (rmul rnd (fin d1) (fin x2)) (fin d2)) = true := by
  rw [rmul_fin, rmul_fin]
  have hm := hR.mono _ _ (mul_le_mul_of_nonneg_left hx (le_of_lt h1))
  have hpinf : ((pinf : Val F) / fin d2) = pinf := by
    show Val.div pinf (fin d2) = pinf
    simp [Val.div, le_of_lt h2]
  have hninf : ((ninf : Val F) / fin d2) = ninf := by
    show Val.div ninf (fin d2) = ninf
    simp [Val.div, le_of_lt h2]
  have hdiv : ∀ a b : Val F, le a b = true → le (a / fin d2) (b / fin d2) = true := by
    intro a b hab
    cases a <;> cases b <;> first | (simp [le, lt, feq] at hab; done) | skip
    · rw [hninf]; rfl
    · rw [hninf, hpinf]; rfl
    · rw [hninf, div_fin _ (ne_of_gt h2)]; rfl
    · rw [hpinf]; rfl
    · rw [hpinf, div_fin _ (ne_of_gt h2)]; rfl
    · rename_i u w
      rw [div_fin _ (ne_of_gt h2), div_fin _ (ne_of_gt h2)]
      exact Val.le_of_fin_le
        (div_le_div_of_nonneg_right ((Val.le_fin_iff _ _).1 hab) (le_of_lt h2))
  unfold rdiv
  exact Val.rd_mono hR (hdiv _ _ hm)

/-- The rounded kernel argument `t/(1+t)` of a non-negative value `t` of the working type
lies in [0,1]. -/
theorem f_arg_unit {rnd : F → Val F} (hR : RoundingLaws rnd) {t : F} (ht0 : 0 ≤ t)
    (htr : rnd t = fin t) :
    ∃ z : F, rdiv rnd (fin t) (radd rnd (fin 1) (fin t)) = fin z ∧ 0 ≤ z ∧ z ≤ 1 := by
  rw [radd_fin]
  have s1 : le (fin 1) (rnd (1 + t)) = true := by
    have := hR.mono 1 (1 + t) (by linarith)
    rwa [hR.one] at this
  have s2 : le (fin t) (rnd (1 + t)) = true := by
    have := hR.mono t (1 + t) (by linarith)
    rwa [htr] at this
  cases hc : rnd (1 + t) with
  | nan => rw [hc] at s1; simp [le, lt, feq] at s1
  | ninf => rw [hc] at s1; simp [le, lt, feq] at s1
  | pinf =>
    have e : (fin t / (pinf : Val F)) = fin 0 := rfl
    refine ⟨0, ?_, le_refl _, zero_le_one⟩
    unfold rdiv
    rw [e]
    exact hR.zero
  | fin s =>
    rw [hc] at s1 s2
    have hs1 : 1 ≤ s := (Val.le_fin_iff _ _).1 s1
    have hs2 : t ≤ s := (Val.le_fin_iff _ _).1 s2
    have hs0 : 0 < s := by linarith
    rw [rdiv_fin rnd t (ne_of_gt hs0)]
    exact Val.rnd_unit hR (div_nonneg ht0 (le_of_lt hs0)) ((div_le_one hs0).2 hs2)

/-- C23, as the code has it: in a working type whose rounding is monotone and keeps its
values, with finite `df1 > 0`, `df2 > 0`, a positive epsilon and an incomplete-beta kernel
that maps [0,1] into [0,1] at the halved parameters, `pf(x, df1, df2, false)` lies in [0,1]
for `x = -infinity`, for every finite `x` below epsilon, and for every finite `x` whose
rounded ratio `t = df1*x/df2` is finite.  When the ratio overflows to `+infinity`, and at
`x = +infinity`, the kernel argument `t/(1+t)` is NaN and the result is the value of the
kernel at NaN. -/
theorem pf_rounded_in_unit_interval (rnd : F → Val F) (hR : RoundingLaws rnd) (K : Env F)
    (d1 d2 : F) (heps : 0 < K.epsilon) (h1 : 0 < d1) (h2 : 0 < d2)
    (hker : ∀ z : F, 0 ≤ z → z ≤ 1 →
      le (fin 0) (K.incomplete_beta (rnd (d1 / 2)) (rnd (d2 / 2)) (fin z)) = true ∧
      le (K.incomplete_beta (rnd (d1 / 2)) (rnd (d2 / 2)) (fin z)) (fin 1) = true) :
    (∀ x t : F, (x < K.epsilon ∨ rdiv rnd (rmul rnd (fin d1) (fin x)) (fin d2) = fin t) →
      le (fin 0) (machine.pf rnd K (fin x) (fin d1) (fin d2) false) = true ∧
      le (machine.pf rnd K (fin x) (fin d1) (fin d2) false) (fin 1) = true) ∧
    (le (fin 0) (machine.pf rnd K ninf (fin d1) (fin d2) false) = true ∧
      le (machine.pf rnd K ninf (fin d1) (fin d2) false) (fin 1) = true) ∧
    (∀ x : F, K.epsilon ≤ x → rdiv rnd (rmul rnd (fin d1) (fin x)) (fin d2) = pinf →
      machine.pf rnd K (fin x) (fin d1) (fin d2) false
        = K.incomplete_beta (rnd (d1 / 2)) (rnd (d2 / 2)) nan) ∧
    machine.pf rnd K pinf (fin d1) (fin d2) false
      = K.incomplete_beta (rnd (d1 / 2)) (rnd (d2 / 2)) nan := by
  have hv : f_sanity_check (fin d1) (fin d2) = true := by
    simp [f_sanity_check, gt, lt, h1, h2]
  have h01 : le (fin (0 : F)) (fin 0) = true ∧ le (fin (0 : F)) (fin 1) = true :=
    ⟨(Val.le_fin_iff _ _).2 (le_refl _), (Val.le_fin_iff _ _).2 zero_le_one⟩
  have hnan : rdiv rnd (pinf : Val F) (radd rnd (fin 1) pinf) = nan := rfl
  refine ⟨?_, ?_, ?_, ?_⟩
  · intro x t hx
    by_cases hxe : x < K.epsilon
    · rw [machine_pf_below rnd K _ _ hv hxe]
      exact h01
    · rcases hx with hx | hx
      · exact absurd hx hxe
      · have hg : gt (fin K.epsilon) (fin x) = false := by simp [gt, lt, not_lt.1 hxe]
        obtain ⟨t0, tr⟩ := f_ratio_value hR h1 h2
          (le_trans (le_of_lt heps) (not_lt.1 hxe)) hx
        obtain ⟨z, ez, z0, z1⟩ := f_arg_unit hR t0 tr
        rw [machine_pf_kernel rnd K (fin x) h1 h2 hg, hx, ez]
        exact hker z z0 z1
  · have hn : machine.pf rnd K ninf (fin d1) (fin d2) false = fin 0 := by
      simp [machine.pf, machine.internal.pf_type_check, machine.internal.pf_vals_check, hv, gt,
        lt, log_if]
    rw [hn]
    exact h01
  · intro x hxe hx
    have hg : gt (fin K.epsilon) (fin x) = false := by simp [gt, lt, hxe]
    rw [machine_pf_kernel rnd K (fin x) h1 h2 hg, hx, hnan]
    rfl
  · have hg : gt (fin K.epsilon) (pinf : Val F) = false := rfl
    have e : rdiv rnd (rmul rnd (fin d1) (pinf : Val F)) (fin d2) = pinf := by
      have e1 : (fin d1 * (pinf : Val F)) = pinf := by
        show infTimes true d1 = pinf
        simp [infTimes, ne_of_gt h1, h1]
      have e2 : ((pinf : Val F) / fin d2) = pinf := by
        show Val.div pinf (fin d2) = pinf
        simp [Val.div, le_of_lt h2]
      unfold rdiv rmul
      rw [e1]
      show rd rnd (pinf / fin d2) = pinf
      rw [e2]; rfl
    rw [machine_pf_kernel rnd K pinf h1 h2 hg, e, hnan]
    rfl

/-- C13, as the code has it: in a working type whose rounding is monotone and keeps its
values, with finite `df1 > 0`, `df2 > 0`, a positive epsilon and an incomplete-beta kernel
that is non-negative and non-decreasing on [0,1] at the halved parameters, for finite
`x1 <= x2`: the rounded ratio `t = df1*x/df2` is non-decreasing in x; `pf(x1) <= pf(x2)`
when `x1` is below epsilon and `x2` is below epsilon or has a finite ratio (the threshold is
crossed monotonically); and `pf(x1) <= pf(x2)` above epsilon whenever the rounded kernel
arguments `t/(1+t)` at `x1` and `x2` are ordered.  That the rounded kernel arguments are
always ordered is not asserted. -/
theorem pf_rounded_monotone (rnd : F → Val F) (hR : RoundingLaws rnd) (K : Env F)
    (x1 x2 d1 d2 : F)
    (heps : 0 < K.epsilon) (h1 : 0 < d1) (h2 : 0 < d2) (hx : x1 ≤ x2)
    (hnonneg : ∀ z : F, 0 ≤ z → z ≤ 1 →
      le (fin 0) (K.incomplete_beta (rnd (d1 / 2)) (rnd (d2 / 2)) (fin z)) = true)
    (hmono : ∀ z1 z2 : F, 0 ≤ z1 → z1 ≤ z2 → z2 ≤ 1 →
      le (K.incomplete_beta (rnd (d1 / 2)) (rnd (d2 / 2)) (fin z1))
        (K.incomplete_beta (rnd (d1 / 2)) (rnd (d2 / 2)) (fin z2)) = true) :
    le (rdiv rnd (rmul rnd (fin d1) (fin x1)) (fin d2))
      (rdiv rnd (rmul rnd (fin d1) (fin x2)) (fin d2)) = true ∧
    (x1 < K.epsilon →
      (x2 < K.epsilon ∨ ∃ t : F, rdiv rnd (rmul rnd (fin d1) (fin x2)) (fin d2) = fin t) →
      le (machine.pf rnd K (fin x1) (fin d1) (fin d2) false)
        (machine.pf rnd K (fin x2) (fin d1) (fin d2) false) = true) ∧
    (K.epsilon ≤ x1 →
      le (rdiv rnd (rdiv rnd (rmul rnd (fin d1) (fin x1)) (fin d2))
          (radd rnd (fin 1) (rdiv rnd (rmul rnd (fin d1) (fin x1)) (fin d2))))
        (rdiv rnd (rdiv rnd (rmul rnd (fin d1) (fin x2)) (fin d2))
          (radd rnd (fin 1) (rdiv rnd (rmul rnd (fin d1) (fin x2)) (fin d2)))) = true →
      le (machine.pf rnd K (fin x1) (fin d1) (fin d2) false)
        (machine.pf rnd K (fin x2) (fin d1) (fin d2) false) = true) := by
  have hv : f_sanity_check (fin d1) (fin d2) = true := by
    simp [f_sanity_check, gt, lt, h1, h2]
  refine ⟨f_ratio_mono hR h1 h2 hx, ?_, ?_⟩
  · intro hx1 hx2
    rw [machine_pf_below rnd K _ _ hv hx1]
    by_cases hx2e : x2 < K.epsilon
    · rw [machine_pf_below rnd K _ _ hv hx2e]
      exact (Val.le_fin_iff _ _).2 (le_refl _)
    · rcases hx2 with hx2 | ⟨t, ht⟩
      · exact absurd hx2 hx2e
      · have hg : gt (fin K.epsilon) (fin x2) = false := by simp [gt, lt, not_lt.1 hx2e]
        obtain ⟨t0, tr⟩ := f_ratio_value hR h1 h2
          (le_trans (le_of_lt heps) (not_lt.1 hx2e)) ht
        obtain ⟨z, ez, z0, z1⟩ := f_arg_unit hR t0 tr
        rw [machine_pf_kernel rnd K (fin x2) h1 h2 hg, ht, ez]
        exact hnonneg z z0
          z1
  · intro hx1e hz
    have hx2e : K.epsilon ≤ x2 := le_trans hx1e hx
    have hg1 : gt (fin K.epsilon) (fin x1) = false := by simp [gt, lt, hx1e]
    have hg2 : gt (fin K.epsilon) (fin x2) = false := by simp [gt, lt, hx2e]
    rw [machine_pf_kernel rnd K (fin x1) h1 h2 hg1, machine_pf_kernel rnd K (fin x2) h1 h2 hg2]
    -- both kernel arguments are finite values of [0,1]
    have hfin : ∀ x : F, K.epsilon ≤ x →
        rdiv rnd (rdiv rnd (rmul rnd (fin d1) (fin x)) (fin d2))
          (radd rnd (fin 1) (rdiv rnd (rmul rnd (fin d1) (fin x)) (fin d2))) ≠ nan →
        ∃ z : F, rdiv rnd (rdiv rnd (rmul rnd (fin d1) (fin x)) (fin d2))
          (radd rnd (fin 1) (rdiv rnd (rmul rnd (fin d1) (fin x)) (fin d2))) = fin z ∧
          0 ≤ z ∧ z ≤ 1 := by
      intro x hxe hne
      have hnn := f_ratio_mono hR h1 h2 (le_refl x)
      cases hc : rdiv rnd (rmul rnd (fin d1) (fin x)) (fin d2) with
      | nan => rw [hc] at hnn; simp [le, lt, feq] at hnn
      | ninf => rw [hc] at hne; exact absurd rfl hne
      | pinf => rw [hc] at hne; exact absurd rfl hne
      | fin t =>
        obtain ⟨t0, tr⟩ := f_ratio_value hR h1 h2 (le_trans (le_of_lt heps) hxe) hc
        exact f_arg_unit hR t0 tr
    obtain ⟨z1, e1, a1, b1⟩ := hfin x1 hx1e (Val.ne_nan_of_le_left hz)
    obtain ⟨z2, e2, a2, b2⟩ := hfin x2 hx2e (Val.ne_nan_of_le_right hz)
    rw [e1, e2] at hz
    rw [e1, e2]
    exact hmono z1 z2 a1 ((Val.le_fin_iff _ _).1 hz) b2

/-- With both parameters 1 the correctly rounded incomplete beta function is the rounding of
its argument on [0,1]; it lies in [0,1] and is non-decreasing there; and the rounded ratio
`2*1/2` is 1 in binary64. -/
theorem f64Env_beta_one_one :
    (∀ z : ℝ, 0 ≤ z → z ≤ 1 →
      f64Env.incomplete_beta (rnd64 (2 / 2)) (rnd64 (2 / 2)) (fin z) = rnd64 z) ∧
    (∀ z : ℝ, 0 ≤ z → z ≤ 1 →
      le (fin 0) (f64Env.incomplete_beta (rnd64 (2 / 2)) (rnd64 (2 / 2)) (fin z)) = true ∧
      le (f64Env.incomplete_beta (rnd64 (2 / 2)) (rnd64 (2 / 2)) (fin z)) (fin 1) = true) ∧
    (∀ z1 z2 : ℝ, 0 ≤ z1 → z1 ≤ z2 → z2 ≤ 1 →
      le (f64Env.incomplete_beta (rnd64 (2 / 2)) (rnd64 (2 / 2)) (fin z1))
        (f64Env.incomplete_beta (rnd64 (2 / 2)) (rnd64 (2 / 2)) (fin z2)) = true) ∧
    rdiv rnd64 (rmul rnd64 (fin (2 : ℝ)) (fin 1)) (fin 2) = fin 1 := by
  have e : ((2 : ℝ) / 2) = 1 := by norm_num
  have hval : ∀ z : ℝ, 0 ≤ z → z ≤ 1 →
      f64Env.incomplete_beta (rnd64 (2 / 2)) (rnd64 (2 / 2)) (fin z) = rnd64 z := by
    intro z h0 h1
    have h2 : refIncompleteBeta (fin 1) (fin 1) (fin z) = fin z :=
      refIncompleteBeta_one_one z h0 h1
    rw [e, rnd64_one]
    show rd rnd64 (refIncompleteBeta (fin 1) (fin 1) (fin z)) = rnd64 z
    rw [h2]
    rfl
  refine ⟨hval, ?_, ?_, ?_⟩
  · intro z h0 h1
    rw [hval z h0 h1]
    exact ⟨Val.rnd_nonneg rnd64_laws h0, Val.rnd_le_one rnd64_laws h1⟩
  · intro z1 z2 h0 h12 h1
    rw [hval z1 h0 (le_trans h12 h1), hval z2 (le_trans h0 h12) h1]
    exact rnd64_mono h12
  · rw [rmul_fin, mul_one, rnd64_two, rdiv_fin rnd64 _ two_ne_zero, e, rnd64_one]

/-- C23 in binary64 with the correctly rounded kernel at `df1 = df2 = 2`: `x = 1` gives a
value in [0,1], and `x = +infinity` gives the kernel at NaN. -/
theorem pf_rounded_in_unit_interval_witness :
    (le (fin 0) (machine.pf rnd64 f64Env (fin 1) (fin 2) (fin 2) false) = true ∧
      le (machine.pf rnd64 f64Env (fin 1) (fin 2) (fin 2) false) (fin 1) = true) ∧
    machine.pf rnd64 f64Env pinf (fin 2) (fin 2) false
      = f64Env.incomplete_beta (rnd64 (2 / 2)) (rnd64 (2 / 2)) nan := by
  have heps : (0 : ℝ) < f64Env.epsilon := by show (0 : ℝ) < 1 / 2 ^ 52; norm_num
  have h := pf_rounded_in_unit_interval rnd64 rnd64_laws f64Env 2 2 heps (by norm_num)
    (by norm_num) f64Env_beta_one_one.2.1
  exact ⟨h.1 1 1 (Or.inr f64Env_beta_one_one.2.2.2), h.2.2.2⟩

/-- C13 in binary64 with the correctly rounded kernel at `df1 = df2 = 2`, across the
threshold from `x = 0` to `x = 1`. -/
theorem pf_rounded_monotone_witness :
    le (machine.pf rnd64 f64Env (fin 0) (fin 2) (fin 2) false)
      (machine.pf rnd64 f64Env (fin 1) (fin 2) (fin 2) false) = true := by
  have heps : (0 : ℝ) < f64Env.epsilon := by show (0 : ℝ) < 1 / 2 ^ 52; norm_num
  exact (pf_rounded_monotone rnd64 rnd64_laws f64Env 0 1 2 2 heps (by norm_num) (by norm_num)
    (by norm_num) (fun z h0 h1 => (f64Env_beta_one_one.2.1 z h0 h1).1)
    f64Env_beta_one_one.2.2.1).2.1 heps (Or.inr ⟨1, f64Env_beta_one_one.2.2.2⟩)

/-- C13, the counterexample: in binary64 with the correctly rounded kernel, whose incomplete
beta function at parameters (1, 1) is non-negative and non-decreasing on [0,1],
`pf(2^53, 2, 2, false)` is 1 and `pf(2^53 + 2, 2, 2, false)` is `1 - 2^-52`: the sum `1 + t`
rounds to `2^53` at `t = 2^53` and to `2^53 + 4` at `t = 2^53 + 2`. -/
theorem pf_not_monotone_counterexample :
    ((∀ z : ℝ, 0 ≤ z → z ≤ 1 →
        le (fin 0) (f64Env.incomplete_beta (rnd64 (2 / 2)) (rnd64 (2 / 2)) (fin z)) = true) ∧
      (∀ z1 z2 : ℝ, 0 ≤ z1 → z1 ≤ z2 → z2 ≤ 1 →
        le (f64Env.incomplete_beta (rnd64 (2 / 2)) (rnd64 (2 / 2)) (fin z1))
          (f64Env.incomplete_beta (rnd64 (2 / 2)) (rnd64 (2 / 2)) (fin z2)) = true)) ∧
    machine.pf rnd64 f64Env (fin (2 ^ 53)) (fin 2) (fin 2) false = fin 1 ∧
    machine.pf rnd64 f64Env (fin (2 ^ 53 + 2)) (fin 2) (fin 2) false = fin (1 - 1 / 2 ^ 52) ∧
    le (machine.pf rnd64 f64Env (fin (2 ^ 53)) (fin 2) (fin 2) false)
      (machine.pf rnd64 f64Env (fin (2 ^ 53 + 2)) (fin 2) (fin 2) false) = false := by
  have hg1 : gt (fin f64Env.epsilon) (fin (2 ^ 53 : ℝ)) = false := by
    have he : f64Env.epsilon = 1 / 2 ^ 52 := rfl
    simp [gt, lt, he]; norm_num
  have hg2 : gt (fin f64Env.epsilon) (fin (2 ^ 53 + 2 : ℝ)) = false := by
    have he : f64Env.epsilon = 1 / 2 ^ 52 := rfl
    simp [gt, lt, he]; norm_num
  -- the roundings met on the way
  have r1 : rnd64 ((2 : ℝ) * 2 ^ 53) = fin (2 ^ 54) := by
    have h := rnd64_exact (x := ((2 : ℝ) * 2 ^ 53)) 54 (2 ^ 52) (by norm_num) (by norm_num)
      (by norm_num) (by norm_num) (by norm_num)
    rw [h]; exact congrArg fin (by norm_num)
  have r2 : rnd64 ((2 : ℝ) ^ 54 / 2) = fin (2 ^ 53) := by
    have h := rnd64_exact (x := ((2 : ℝ) ^ 54 / 2)) 53 (2 ^ 52) (by norm_num) (by norm_num)
      (by norm_num) (by norm_num) (by norm_num)
    rw [h]; exact congrArg fin (by norm_num)
  have r3 : rnd64 ((1 : ℝ) + 2 ^ 53) = fin (2 ^ 53) := by
    have h := rnd64_tie (x := ((2 : ℝ) ^ 53 + 1)) 53 (2 ^ 52) (2 ^ 52) (by norm_num)
      (by norm_num) (by norm_num) (by norm_num) (by norm_num) (by norm_num)
    rw [add_comm, h]; exact congrArg fin (by norm_num)
  have r4 : rnd64 ((2 : ℝ) ^ 53 / 2 ^ 53) = fin 1 := by
    have e : ((2 : ℝ) ^ 53 / 2 ^ 53) = 1 := by norm_num
    rw [e, rnd64_one]
  have s1 : rnd64 ((2 : ℝ) * (2 ^ 53 + 2)) = fin (2 ^ 54 + 4) := by
    have h := rnd64_exact (x := ((2 : ℝ) * (2 ^ 53 + 2))) 54 (2 ^ 52 + 1) (by norm_num)
      (by norm_num) (by norm_num) (by norm_num) (by norm_num)
    rw [h]; exact congrArg fin (by norm_num)
  have s2 : rnd64 (((2 : ℝ) ^ 54 + 4) / 2) = fin (2 ^ 53 + 2) := by
    have h := rnd64_exact (x := (((2 : ℝ) ^ 54 + 4) / 2)) 53 (2 ^ 52 + 1) (by norm_num)
      (by norm_num) (by norm_num) (by norm_num) (by norm_num)
    rw [h]; exact congrArg fin (by norm_num)
  have s3 : rnd64 ((1 : ℝ) + (2 ^ 53 + 2)) = fin (2 ^ 53 + 4) := by
    have h := rnd64_tie (x := ((2 : ℝ) ^ 53 + 3)) 53 (2 ^ 52 + 1) (2 ^ 52 + 2)
      (by norm_num) (by norm_num) (by norm_num) (by norm_num) (by norm_num) (by norm_num)
    have e : (1 : ℝ) + (2 ^ 53 + 2) = 2 ^ 53 + 3 := by ring
    rw [e, h]; exact congrArg fin (by norm_num)
  have s4 : rnd64 (((2 : ℝ) ^ 53 + 2) / (2 ^ 53 + 4)) = fin (1 - 1 / 2 ^ 52) := by
    have h := rnd64_near (x := (((2 : ℝ) ^ 53 + 2) / (2 ^ 53 + 4))) (-1) (2 ^ 53 - 2)
      (by norm_num) (by norm_num) (by norm_num) (by norm_num) (by norm_num) (by norm_num)
    rw [h]; exact congrArg fin (by norm_num)
  have s5 : rnd64 ((1 : ℝ) - 1 / 2 ^ 52) = fin (1 - 1 / 2 ^ 52) := by
    apply rnd64_exact (-1) (2 ^ 53 - 2) <;> norm_num
  have a : machine.pf rnd64 f64Env (fin (2 ^ 53)) (fin 2) (fin 2) false = fin 1 := by
    rw [machine_pf_kernel rnd64 f64Env _ (by norm_num) (by norm_num) hg1, rmul_fin, r1,
      rdiv_fin rnd64 _ two_ne_zero, r2, radd_fin, r3, rdiv_fin rnd64 _ (by norm_num), r4,
      f64Env_beta_one_one.1 1 (by norm_num) (le_refl _), rnd64_one]
    rfl
  have b : machine.pf rnd64 f64Env (fin (2 ^ 53 + 2)) (fin 2) (fin 2) false
      = fin (1 - 1 / 2 ^ 52) := by
    rw [machine_pf_kernel rnd64 f64Env _ (by norm_num) (by norm_num) hg2, rmul_fin, s1,
      rdiv_fin rnd64 _ two_ne_zero, s2, radd_fin, s3, rdiv_fin rnd64 _ (by norm_num), s4,
      f64Env_beta_one_one.1 _ (by norm_num) (by norm_num), s5]
    rfl
  refine ⟨⟨fun z h0 h1 => (f64Env_beta_one_one.2.1 z h0 h1).1, f64Env_beta_one_one.2.2.1⟩,
    a, b, ?_⟩
  rw [a, b]
  simp [le, lt, feq]
  norm_num

/-! ### C25: the Gamma quantile in a working type that rounds -/

/-- Multiplication by 1 and rounding give back a value of the working type. -/
theorem Val.rmul_one_left {rnd : F → Val F} {v : Val F} (h : rd rnd v = v) :
    rmul rnd (fin 1) v = v := by
  unfold rmul
  rw [Val.one_mul_val, h]

theorem gamma_sanity_fin {a s : F} (ha : 0 ≤ a) (hs : 0 < s) :
    gamma_sanity_check (fin a) (fin s) = true := by
  have h1 : ge (fin a) (fin (0 : F)) = true := (Val.ge_zero_fin_iff a).2 ha
  have h2 : gt (fin s) (fin (0 : F)) = true := by simp [gt, lt, hs]
  simp [gamma_sanity_check, h1, h2]

/-- The endpoint values of `qgamma` at valid parameters. -/
theorem machine_qgamma_ends (rnd : F → Val F) (K : Env F) (shape scale : Val F)
    (hv : gamma_sanity_check shape scale = true) :
    machine.qgamma rnd K (fin 0) shape scale = fin 0 ∧
    machine.qgamma rnd K (fin 1) shape scale = pinf := by
  constructor <;>
  simp [machine.qgamma, machine.internal.qgamma_type_check,
    machine.internal.qgamma_vals_check, hv, lt, gt, feq]

/-- Evaluation of `qgamma` strictly inside the unit interval. -/
theorem machine_qgamma_interior (rnd : F → Val F) (K : Env F) (p shape sc : Val F)
    (hp0 : gt p (fin 0) = true) (hp1 : lt p (fin 1) = true)
    (hsc : gamma_sanity_check shape sc = true) :
    machine.qgamma rnd K p shape sc = rmul rnd sc (K.incomplete_gamma_inv shape p) := by
  have e0 : lt p (fin 0) = false := lt_asymm_false hp0
  have e1 : gt p (fin 1) = false := lt_asymm_false hp1
  have e2 : feq p (fin 0) = false := gt_feq_false hp0
  have e3 : feq p (fin 1) = false := lt_feq_false hp1
  simp [machine.qgamma, machine.internal.qgamma_type_check,
    machine.internal.qgamma_vals_check, machine.internal.qgamma_compute, hsc, e0, e1, e2, e3]

/-- C25, as the code has it: in a working type whose rounding is monotone, for valid
(shape, scale) and `0 < p < 1`, `qgamma(p, shape, scale)` is the rounded product
`scale * incomplete_gamma_inv(shape, p)`; it is the rounded product
`scale * qgamma(p, shape, 1)` when the kernel returns a value of the working type; and when
the kernel returns a finite positive value and the scale is finite the result lies between
`qgamma(0, shape, scale) = 0` and `qgamma(1, shape, scale) = +infinity`, both included: it is
strictly between exactly when the rounded product is a finite positive value, that is when
the product neither underflows to 0 nor overflows. -/
theorem qgamma_rounded_scaling (rnd : F → Val F) (hR : RoundingLaws rnd) (K : Env F)
    (p shape scale : Val F) (k s : F)
    (hv : gamma_sanity_check shape scale = true)
    (hp0 : gt p (fin 0) = true) (hp1 : lt p (fin 1) = true)
    (hk : 0 < k) (hs : 0 < s) :
    machine.qgamma rnd K p shape scale = rmul rnd scale (K.incomplete_gamma_inv shape p) ∧
    (rd rnd (K.incomplete_gamma_inv shape p) = K.incomplete_gamma_inv shape p →
      machine.qgamma rnd K p shape scale
        = rmul rnd scale (machine.qgamma rnd K p shape (fin 1))) ∧
    (K.incomplete_gamma_inv shape p = fin k → scale = fin s →
      le (machine.qgamma rnd K (fin 0) shape scale) (machine.qgamma rnd K p shape scale)
        = true ∧
      le (machine.qgamma rnd K p shape scale) (machine.qgamma rnd K (fin 1) shape scale)
        = true ∧
      ((lt (machine.qgamma rnd K (fin 0) shape scale) (machine.qgamma rnd K p shape scale)
          = true ∧
        lt (machine.qgamma rnd K p shape scale) (machine.qgamma rnd K (fin 1) shape scale)
          = true) ↔ ∃ r : F, rnd (s * k) = fin r ∧ 0 < r)) := by
  have hv1 : gamma_sanity_check shape (fin 1) = true := by
    simp only [gamma_sanity_check, Bool.and_eq_true] at hv ⊢
    exact ⟨hv.1, by simp [gt, lt]⟩
  have hq : ∀ sc, gamma_sanity_check shape sc = true →
      machine.qgamma rnd K p shape sc = rmul rnd sc (K.incomplete_gamma_inv shape p) :=
    fun sc hsc => machine_qgamma_interior rnd K p shape sc hp0 hp1 hsc
  refine ⟨hq _ hv, ?_, ?_⟩
  · intro hrep
    rw [hq _ hv, hq _ hv1, Val.rmul_one_left hrep]
  · intro hker hscale
    have h0 := (machine_qgamma_ends rnd K shape scale hv).1
    have h1 := (machine_qgamma_ends rnd K shape scale hv).2
    rw [h0, h1, hq _ hv, hker, hscale, rmul_fin]
    have hn := Val.rnd_nonneg hR (le_of_lt (mul_pos hs hk))
    refine ⟨hn, Val.le_pinf (Val.ne_nan_of_le_right hn), ?_⟩
    cases hc : rnd (s * k) with
    | nan => rw [hc] at hn; simp [le, lt, feq] at hn
    | ninf => rw [hc] at hn; simp [le, lt, feq] at hn
    | pinf => simp [lt]
    | fin r => simp [lt]

/-- A non-negative value below half of the least positive binary64 value rounds to 0. -/
theorem rnd64_underflow [FloorRing F] {x : F} (h0 : 0 ≤ x)
    (h1 : x < (1 / 2) * (2 : F) ^ (-1074 : ℤ)) : rnd64 x = fin 0 := by
  rcases eq_or_lt_of_le h0 with h | h
  · rw [← h, rnd64_zero]
  · have hu := two_zpow_pos (F := F) (-1074)
    have hsmall : x < (2 : F) ^ (-1022 : ℤ) := by
      have a : (2 : F) ^ (-1074 : ℤ) ≤ (2 : F) ^ (-1022 : ℤ) := two_zpow_mono (by norm_num)
      have b : (1 / 2) * (2 : F) ^ (-1074 : ℤ) ≤ (2 : F) ^ (-1074 : ℤ) :=
        mul_le_of_le_one_left (le_of_lt hu) (by norm_num)
      exact lt_of_lt_of_le h1 (le_trans b a)
    rw [rnd64_of_nonneg h0]
    have hb := binade_eq_min h hsmall
    have e : (-1022 : ℤ) - 52 = -1074 := by norm_num
    have hr : roundHalfEven (x / (2 : F) ^ ((-1022 : ℤ) - 52)) = 0 := by
      apply roundHalfEven_eq_of_lt
      · rw [e, lt_div_iff₀ hu]; push_cast; linarith
      · rw [e, div_lt_iff₀ hu]; push_cast; linarith
    have := roundPos_eq hb hr (by
      push_cast; rw [zero_mul]; exact two_zpow_pos 1024)
    rw [this]
    push_cast
    rw [zero_mul]

/-- The correctly rounded kernel at shape 1 and `p = 1/4` is a finite value between 1/4 and
3/8: with shape 1 the regularized incomplete gamma function is `1 - exp(-x)`, so its inverse
at `p` is `-log(1 - p)`. -/
theorem f64Env_gamma_inv_quarter :
    ∃ k : ℝ, f64Env.incomplete_gamma_inv (fin 1) (fin (1 / 4)) = fin k ∧
      1 / 4 ≤ k ∧ k ≤ 3 / 8 := by
  have hreg : ∀ x : ℝ, regIncompleteGamma 1 x = 1 - Real.exp (-x) := by
    intro x
    have h : (fun t : ℝ => t ^ ((1 : ℝ) - 1) * Real.exp (-t)) = fun t => Real.exp (-t) := by
      funext t
      simp
    show intervalIntegral (fun t : ℝ => t ^ ((1 : ℝ) - 1) * Real.exp (-t)) 0 x
      MeasureTheory.volume / Real.Gamma 1 = _
    rw [h, Real.Gamma_one, div_one]
    rw [intervalIntegral.integral_comp_neg (fun t => Real.exp t), integral_exp]
    simp
  have hq : (0 : ℝ) < 1 - 1 / 4 := by norm_num
  have hset : {x : ℝ | 0 ≤ x ∧ 1 / 4 ≤ regIncompleteGamma 1 x}
      = Set.Ici (-Real.log (1 - 1 / 4)) := by
    ext x
    simp only [Set.mem_setOf_eq, Set.mem_Ici, hreg]
    have hl : 0 < -Real.log (1 - 1 / 4) := by
      have := Real.log_neg hq (by norm_num)
      linarith
    constructor
    · rintro ⟨_, h⟩
      have h1 : Real.exp (-x) ≤ 1 - 1 / 4 := by linarith
      have h2 : -x ≤ Real.log (1 - 1 / 4) := by
        rw [Real.le_log_iff_exp_le hq]
        exact h1
      linarith
    · intro h
      refine ⟨le_trans (le_of_lt hl) h, ?_⟩
      have h1 : Real.exp (-x) ≤ Real.exp (Real.log (1 - 1 / 4)) :=
        Real.exp_le_exp.2 (by linarith)
      rw [Real.exp_log hq] at h1
      linarith
  have hc : (0 : ℝ) < 1 ∧ (0 : ℝ) < 1 / 4 ∧ (1 / 4 : ℝ) < 1 := by norm_num
  have hinv : f64Env.incomplete_gamma_inv (fin 1) (fin (1 / 4))
      = rnd64 (-Real.log (1 - 1 / 4)) := by
    show rd rnd64 (refIncompleteGammaInv (fin 1) (fin (1 / 4)))
      = rd rnd64 (fin (-Real.log (1 - 1 / 4)))
    refine congrArg _ ((if_pos hc).trans ?_)
    rw [hset, csInf_Ici]
  rw [hinv]
  have e : (1 : ℝ) - 1 / 4 = 3 / 4 := by norm_num
  rw [e]
  have h1 : Real.log (3 / 4) ≤ 3 / 4 - 1 := Real.log_le_sub_one_of_pos (by norm_num)
  have h2 : Real.log (4 / 3) ≤ 4 / 3 - 1 := Real.log_le_sub_one_of_pos (by norm_num)
  have h3 : Real.log (4 / 3) = -Real.log (3 / 4) := by
    rw [← Real.log_inv]; norm_num
  have r38 : rnd64 (3 / 8 : ℝ) = fin (3 / 8) := by
    apply rnd64_exact (-2) (3 * 2 ^ 51) <;> norm_num
  exact rnd64_range (by linarith) (by linarith) rnd64_quarter r38

/-- C25 in binary64 with the correctly rounded kernel: the product form at the documented
example `qgamma(0.5, 2, 3)`, and the bounds at `qgamma(0.25, 1, 3)`. -/
theorem qgamma_rounded_scaling_witness :
    machine.qgamma rnd64 f64Env (fin (1 / 2)) (fin 2) (fin 3)
      = rmul rnd64 (fin 3) (f64Env.incomplete_gamma_inv (fin 2) (fin (1 / 2))) ∧
    le (machine.qgamma rnd64 f64Env (fin 0) (fin 1) (fin 3))
      (machine.qgamma rnd64 f64Env (fin (1 / 4)) (fin 1) (fin 3)) = true ∧
    le (machine.qgamma rnd64 f64Env (fin (1 / 4)) (fin 1) (fin 3))
      (machine.qgamma rnd64 f64Env (fin 1) (fin 1) (fin 3)) = true := by
  have hp0 : gt (fin (1 / 2) : Val ℝ) (fin 0) = true := by norm_num [gt, lt]
  have hp1 : lt (fin (1 / 2) : Val ℝ) (fin 1) = true := by norm_num [lt]
  have hq0 : gt (fin (1 / 4) : Val ℝ) (fin 0) = true := by norm_num [gt, lt]
  have hq1 : lt (fin (1 / 4) : Val ℝ) (fin 1) = true := by norm_num [lt]
  obtain ⟨k, ek, k1, _⟩ := f64Env_gamma_inv_quarter
  have h2 := qgamma_rounded_scaling rnd64 rnd64_laws f64Env (fin (1 / 2)) (fin 2) (fin 3) 1 3
    (by simp [gamma_sanity_check, ge, gt, le, lt]) hp0 hp1 one_pos (by norm_num)
  have h1 := qgamma_rounded_scaling rnd64 rnd64_laws f64Env (fin (1 / 4)) (fin 1) (fin 3) k 3
    (by simp [gamma_sanity_check, ge, gt, le, lt]) hq0 hq1 (by linarith) (by norm_num)
  exact ⟨h2.1, (h1.2.2 ek rfl).1, (h1.2.2 ek rfl).2.1⟩

/-- C25, the counterexample: in binary64 with the correctly rounded kernel, at shape 1,
`p = 1/4` and the least positive scale `2^-1074`, the kernel returns a finite positive value
and yet the product underflows: `qgamma(1/4, 1, 2^-1074)` is 0, the value of `qgamma` at
`p = 0`, not strictly above it. -/
theorem qgamma_underflow_counterexample :
    (∃ k : ℝ, f64Env.incomplete_gamma_inv (fin 1) (fin (1 / 4)) = fin k ∧ 0 < k) ∧
    rnd64 ((2 : ℝ) ^ (-1074 : ℤ)) = fin (2 ^ (-1074 : ℤ)) ∧
    gamma_sanity_check (fin (1 : ℝ)) (fin (2 ^ (-1074 : ℤ))) = true ∧
    machine.qgamma rnd64 f64Env (fin (1 / 4)) (fin 1) (fin (2 ^ (-1074 : ℤ))) = fin 0 ∧
    lt (machine.qgamma rnd64 f64Env (fin 0) (fin 1) (fin (2 ^ (-1074 : ℤ))))
      (machine.qgamma rnd64 f64Env (fin (1 / 4)) (fin 1) (fin (2 ^ (-1074 : ℤ)))) = false := by
  obtain ⟨k, ek, k1, k2⟩ := f64Env_gamma_inv_quarter
  have hs : (0 : ℝ) < 2 ^ (-1074 : ℤ) := two_zpow_pos _
  have hv : gamma_sanity_check (fin (1 : ℝ)) (fin (2 ^ (-1074 : ℤ))) = true :=
    gamma_sanity_fin zero_le_one hs
  have hq0 : gt (fin (1 / 4) : Val ℝ) (fin 0) = true := by norm_num [gt, lt]
  have hq1 : lt (fin (1 / 4) : Val ℝ) (fin 1) = true := by norm_num [lt]
  have hrep : rnd64 ((2 : ℝ) ^ (-1074 : ℤ)) = fin (2 ^ (-1074 : ℤ)) := by
    have hsmall : ((2 : ℝ) ^ (-1074 : ℤ)) < (2 : ℝ) ^ (-1022 : ℤ) :=
      zpow_lt_zpow_right₀ (by norm_num) (by norm_num)
    rw [rnd64_of_nonneg (le_of_lt hs), roundPos_def,
      roundPosVal_of_mant (n := 1) (binade_eq_min hs hsmall) (by norm_num),
      if_neg (not_le_of_gt (zpow_lt_zpow_right₀ (by norm_num) (by norm_num)))]
  have hq : machine.qgamma rnd64 f64Env (fin (1 / 4)) (fin 1) (fin (2 ^ (-1074 : ℤ)))
      = fin 0 := by
    rw [machine_qgamma_interior rnd64 f64Env _ _ _ hq0 hq1 hv, ek, rmul_fin]
    apply rnd64_underflow (le_of_lt (mul_pos hs (by linarith)))
    have : (2 : ℝ) ^ (-1074 : ℤ) * k ≤ (2 : ℝ) ^ (-1074 : ℤ) * (3 / 8) :=
      mul_le_mul_of_nonneg_left k2 (le_of_lt hs)
    linarith
  have h0 := (machine_qgamma_ends rnd64 f64Env _ _ hv).1
  refine ⟨⟨k, ek, by linarith⟩, hrep, hv, hq, ?_⟩
  rw [hq, h0, Val.lt_irrefl_val]

/-! ### C27: densities in a working type that rounds -/

/-- A value that is not below 0 is NaN or at least 0. -/
theorem Val.nan_or_ge_zero {v : Val F} (h : lt v (fin 0) = false) :
    v = nan ∨ ge v (fin 0) = true := by
  cases v with
  | nan => exact Or.inl rfl
  | ninf => simp [lt] at h
  | pinf => exact Or.inr rfl
  | fin r =>
    right
    have : 0 ≤ r := by simpa [lt] using h
    exact (Val.ge_zero_fin_iff r).2 this

/-- The natural form of `dgamma` is one of: 0, +infinity, the rounded `1/scale`, an
exponential. -/
theorem machine_dgamma_natural_cases (rnd : F → Val F) (K : Env F) (x shape scale : Val F)
    (hv : gamma_sanity_check shape scale = true) :
    machine.dgamma rnd K x shape scale false = fin 0 ∨
    machine.dgamma rnd K x shape scale false = pinf ∨
    machine.dgamma rnd K x shape scale false = rdiv rnd (fin 1) scale ∨
    machine.dgamma rnd K x shape scale false
      = K.exp (machine.internal.dgamma_log_compute rnd K x shape scale) := by
  simp only [machine.dgamma, machine.internal.dgamma_type_check,
    machine.internal.dgamma_vals_check, machine.internal.dgamma_limit_vals, hv, log_if, exp_if]
  by_cases h1 : lt x (fin 0) = true
  · simp [h1]
  · by_cases h2 : feq x (fin 0) = true
    · by_cases h3 : feq shape (fin 0) = true
      · simp [h1, h2, h3]
      · by_cases h4 : lt shape (fin 1) = true
        · simp [h1, h2, h3, h4]
        · by_cases h5 : feq shape (fin 1) = true
          · simp [h1, h2, h3, h4, h5]
          · simp [h1, h2, h3, h4, h5]
    · by_cases h3 : feq shape (fin 0) = true
      · simp [h1, h2, h3]
      · simp [h1, h2, h3]

/-- The natural form of `dchisq` is one of: 0, +infinity, 0.5, an exponential. -/
theorem machine_dchisq_natural_cases (rnd : F → Val F) (K : Env F) (x dof : Val F)
    (hv : chisq_sanity_check dof = true) :
    machine.dchisq rnd K x dof false = fin 0 ∨ machine.dchisq rnd K x dof false = pinf ∨
    machine.dchisq rnd K x dof false = fin (1 / 2) ∨
    machine.dchisq rnd K x dof false = K.exp (machine.internal.dchisq_compute rnd K x dof) := by
  simp only [machine.dchisq, machine.internal.dchisq_type_check,
    machine.internal.dchisq_vals_check, machine.internal.dchisq_limit_vals, hv, log_if, exp_if]
  by_cases h1 : lt x (fin 0) = true
  · simp [h1]
  · by_cases h2 : feq x (fin 0) = true
    · by_cases h4 : lt dof (fin 2) = true
      · simp [h1, h2, h4]
      · by_cases h5 : feq dof (fin 2) = true
        · simp [h1, h2, h4, h5]
        · simp [h1, h2, h4, h5]
    · simp [h1, h2]

/-- The natural form of `dt` at a finite df is an exponential. -/
theorem machine_dt_natural_fin (rnd : F → Val F) (K : Env F) (x : Val F) (d : F)
    (hv : t_sanity_check (fin d) = true) :
    machine.dt rnd K x (fin d) false = K.exp (machine.internal.dt_log_compute rnd K x (fin d)) := by
  simp [machine.dt, machine.internal.dt_type_check, machine.internal.dt_vals_check, hv, feq,
    exp_if]

/-- The rounded quotient `1/scale` of a valid scale is not negative. -/
theorem rounded_one_div_scale {rnd : F → Val F} (hR : RoundingLaws rnd) (scale : Val F)
    (hs : gt scale (fin 0) = true) : ge (rdiv rnd (fin 1) scale) (fin 0) = true := by
  cases scale with
  | nan => simp [gt, lt] at hs
  | ninf => simp [gt, lt] at hs
  | pinf =>
    have e : rdiv rnd (fin 1) (pinf : Val F) = rnd 0 := rfl
    rw [e, hR.zero]
    exact (Val.ge_zero_fin_iff _).2 (le_refl _)
  | fin s =>
    have h : 0 < s := by simpa [gt, lt] using hs
    rw [rdiv_fin rnd 1 (ne_of_gt h)]
    exact Val.rnd_nonneg hR (le_of_lt (one_div_pos.2 h))

/-- C27, as the code has it: in a working type whose rounding is monotone, with a kernel
exponential that is never negative, for valid parameters (for `dt`, a finite df > 0) and
every x of the working type, the natural forms of `dgamma`, `dchisq` and `dt` are never
negative: each value is NaN or `>= 0`.  That the value is not NaN is not asserted. -/
theorem densities_rounded_never_negative (rnd : F → Val F) (hR : RoundingLaws rnd) (K : Env F)
    (hexp : ∀ y : Val F, lt (K.exp y) (fin 0) = false)
    (x shape scale dof : Val F) (d : F)
    (hvg : gamma_sanity_check shape scale = true) (hvc : chisq_sanity_check dof = true)
    (hd : 0 < d) :
    (machine.dgamma rnd K x shape scale false = nan ∨
      ge (machine.dgamma rnd K x shape scale false) (fin 0) = true) ∧
    (machine.dchisq rnd K x dof false = nan ∨
      ge (machine.dchisq rnd K x dof false) (fin 0) = true) ∧
    (machine.dt rnd K x (fin d) false = nan ∨
      ge (machine.dt rnd K x (fin d) false) (fin 0) = true) := by
  have hvt : t_sanity_check (fin d) = true := by simp [t_sanity_check, gt, lt, hd]
  have h0 : ge (fin (0 : F)) (fin 0) = true := (Val.ge_zero_fin_iff _).2 (le_refl _)
  have hinf : ge (pinf : Val F) (fin 0) = true := rfl
  have hsc : gt scale (fin 0) = true := by
    simp only [gamma_sanity_check, Bool.and_eq_true] at hvg
    exact hvg.2
  refine ⟨?_, ?_, ?_⟩
  · rcases machine_dgamma_natural_cases rnd K x shape scale hvg with h | h | h | h
    · rw [h]; exact Or.inr h0
    · rw [h]; exact Or.inr hinf
    · rw [h]; exact Or.inr (rounded_one_div_scale hR scale hsc)
    · rw [h]; exact Val.nan_or_ge_zero (hexp _)
  · rcases machine_dchisq_natural_cases rnd K x dof hvc with h | h | h | h
    · rw [h]; exact Or.inr h0
    · rw [h]; exact Or.inr hinf
    · rw [h]; exact Or.inr ((Val.ge_zero_fin_iff _).2 (by norm_num))
    · rw [h]; exact Val.nan_or_ge_zero (hexp _)
  · rw [machine_dt_natural_fin rnd K _ _ hvt]
    exact Val.nan_or_ge_zero (hexp _)

/-- C27 in binary64 with the correctly rounded kernel at the documented examples
`dgamma(2, 2, 3)`, `dchisq(4, 5)`, `dt(0.37, 11)`. -/
theorem densities_rounded_never_negative_witness :
    (machine.dgamma rnd64 f64Env (fin 2) (fin 2) (fin 3) false = nan ∨
      ge (machine.dgamma rnd64 f64Env (fin 2) (fin 2) (fin 3) false) (fin 0) = true) ∧
    (machine.dchisq rnd64 f64Env (fin 2) (fin 5) false = nan ∨
      ge (machine.dchisq rnd64 f64Env (fin 2) (fin 5) false) (fin 0) = true) ∧
    (machine.dt rnd64 f64Env (fin 2) (fin 11) false = nan ∨
      ge (machine.dt rnd64 f64Env (fin 2) (fin 11) false) (fin 0) = true) := by
  -- the correctly rounded exponential is never negative
  have hexp : ∀ y : Val ℝ, lt (f64Env.exp y) (fin 0) = false := by
    intro y
    have e : f64Env.exp y = rd rnd64 (refExp y) := rfl
    rw [e]
    cases y with
    | nan => rfl
    | ninf =>
      show lt (rnd64 (0 : ℝ)) (fin 0) = false
      rw [rnd64_zero]; simp [lt]
    | pinf => rfl
    | fin r =>
      show lt (rnd64 (Real.exp r)) (fin 0) = false
      have h := Val.rnd_nonneg rnd64_laws (le_of_lt (Real.exp_pos r))
      cases hl : lt (rnd64 (Real.exp r)) (fin 0)
      · rfl
      · have := Val.lt_of_lt_of_le_val hl h
        rw [Val.lt_irrefl_val] at this
        cases this
  exact densities_rounded_never_negative rnd64 rnd64_laws f64Env hexp
    (fin 2) (fin 2) (fin 3) (fin 5) 11 (gamma_sanity_fin (by norm_num) (by norm_num))
    (by simp [chisq_sanity_check, gt, lt]) (by norm_num)

/-- C27, the counterexample: with the valid parameters shape 2 and scale 3, in binary64 with
the correctly rounded kernel, the log-domain sum at `x = +infinity` is
`(.. + 1*log(inf)) - inf/3 = inf - inf`, so `dgamma(+infinity, 2, 3, false)` is NaN, which is
not `>= 0`. -/
theorem dgamma_at_pinf_counterexample :
    gamma_sanity_check (fin (2 : ℝ)) (fin 3) = true ∧
    machine.dgamma rnd64 f64Env pinf (fin 2) (fin 3) false = nan ∧
    ge (machine.dgamma rnd64 f64Env pinf (fin 2) (fin 3) false) (fin 0) = false := by
  have hv : gamma_sanity_check (fin (2 : ℝ)) (fin 3) = true :=
    gamma_sanity_fin (by norm_num) (by norm_num)
  have key : machine.dgamma rnd64 f64Env pinf (fin 2) (fin 3) false = nan := by
    have h1 : machine.dgamma rnd64 f64Env pinf (fin 2) (fin 3) false
        = f64Env.exp (machine.internal.dgamma_log_compute rnd64 f64Env pinf (fin 2) (fin 3)) := by
      simp [machine.dgamma, machine.internal.dgamma_type_check,
        machine.internal.dgamma_vals_check, hv, lt, feq, exp_if]
    -- the first two terms of the sum are finite
    have hlg : ∃ g : ℝ, - f64Env.lgamma (fin 2) = fin g := by
      have e : f64Env.lgamma (fin 2) = rnd64 (Real.log (Real.Gamma 2)) := by
        show rd rnd64 (refLgamma (fin 2)) = rd rnd64 (fin (Real.log (Real.Gamma 2)))
        exact congrArg _ (if_pos two_pos)
      rw [e, Real.Gamma_two, Real.log_one, rnd64_zero]
      exact ⟨-0, rfl⟩
    have hl3 : ∃ l : ℝ, f64Env.log (fin 3) = fin l ∧ 0 ≤ l ∧ l ≤ 2 := by
      rw [f64Env_log_contracts.2.1 3 (by norm_num)]
      have a : 0 ≤ Real.log 3 := Real.log_nonneg (by norm_num)
      have b : Real.log 3 ≤ 2 :=
        le_trans (Real.log_le_log (by norm_num) (by norm_num)) log_four_le_two
      exact rnd64_range a b rnd64_zero rnd64_two
    obtain ⟨g, eg⟩ := hlg
    obtain ⟨l, el, l0, l2⟩ := hl3
    have hm : ∃ m : ℝ, rmul rnd64 (fin 2) (fin l) = fin m := by
      rw [rmul_fin]
      obtain ⟨m, em, _, _⟩ := rnd64_range (x := 2 * l) (by linarith : (0 : ℝ) ≤ 2 * l)
        (by linarith : 2 * l ≤ 4) rnd64_zero rnd64_four
      exact ⟨m, em⟩
    obtain ⟨m, em⟩ := hm
    have ha : ∃ a : ℝ, rsub rnd64 (fin g) (fin m) = fin a ∨ rsub rnd64 (fin g) (fin m) = pinf
        ∨ rsub rnd64 (fin g) (fin m) = ninf := by
      rw [rsub_fin]
      have hne : rnd64 (g - m) ≠ nan := Val.ne_nan_of_le_left (rnd64_mono (le_refl _))
      cases hc : rnd64 (g - m) with
      | nan => exact absurd hc hne
      | ninf => exact ⟨0, Or.inr (Or.inr rfl)⟩
      | pinf => exact ⟨0, Or.inr (Or.inl rfl)⟩
      | fin a => exact ⟨a, Or.inl rfl⟩
    have hone : rsub rnd64 (fin (2 : ℝ)) (fin 1) = fin 1 := by
      rw [rsub_fin]
      have e : (2 : ℝ) - 1 = 1 := by norm_num
      rw [e, rnd64_one]
    have hlp : f64Env.log pinf = pinf := rfl
    have hmul : rmul rnd64 (fin (1 : ℝ)) pinf = pinf := by
      unfold rmul
      rw [Val.one_mul_val]
      rfl
    have hdiv : rdiv rnd64 (pinf : Val ℝ) (fin 3) = pinf := by
      have e : ((pinf : Val ℝ) / fin 3) = pinf := by
        show Val.div pinf (fin 3) = pinf
        simp [Val.div]
      unfold rdiv
      rw [e]; rfl
    have hsum : machine.internal.dgamma_log_compute rnd64 f64Env pinf (fin 2) (fin 3)
        = nan := by
      unfold machine.internal.dgamma_log_compute
      rw [eg, el, em, hone, hlp, hmul, hdiv]
      obtain ⟨a, ha | ha | ha⟩ := ha
      · rw [ha]; rfl
      · rw [ha]; rfl
      · rw [ha]; rfl
    rw [h1, hsum]
    rfl
  refine ⟨hv, key, ?_⟩
  rw [key]
  rfl

/-! ### C18: the dense overloads with the element type of the output -/

/-- The Armadillo overload of `dchisq` writes the converted scalar result at every flat index
below the element count. -/
theorem machine_dchisq_ArmaMat_apply (conv : Val F → Val F) (rnd : F → Val F) (K : Env F)
    (X : ArmaMat F) (a : Val F) (log_form : Bool) (uninit : Nat → Val F) (i : Nat)
    (hi : i < X.n_elem) :
    (machine.dchisq_ArmaMat conv rnd K X a log_form uninit).memptr i
      = conv (machine.dchisq rnd K (X.memptr i) a log_form) := by
  simp [machine.dchisq_ArmaMat, machine.internal.dchisq_vec, EVAL_DIST_FN_VEC_apply,
    ArmaMat.n_elem] at hi ⊢
  intro h
  omega

/-- C18, as the code has it: on the dense path (the Armadillo matrix and expression overloads
and the Eigen overload) of every family, the output element at each flat index i below the
element count of the input is the scalar evaluator applied to the input element at i, with
the same broadcast parameters and log flag, converted to the element type `Tc` of the output
(`conv`); it depends on no other input element.  With `Tc` the working type the conversion is
the identity and the element is the scalar result itself. -/
theorem dense_overloads_elementwise_converted (conv : Val F → Val F) (rnd : F → Val F)
    (K : Env F) (X : ArmaMat F) (G : ArmaGen F) (E : EigMat F)
    (a b : Val F) (log_form : Bool) (uninit : Nat → Val F) :
    (ElementwiseImage (fun x => conv (machine.dgamma rnd K x a b log_form)) X.n_elem X.memptr
        (machine.dgamma_ArmaMat conv rnd K X a b log_form uninit).memptr ∧
      ElementwiseImage (fun x => conv (machine.dgamma rnd K x a b log_form)) G.eval.n_elem
        G.eval.memptr (machine.dgamma_ArmaGen conv rnd K G a b log_form uninit).memptr ∧
      ElementwiseImage (fun x => conv (machine.dgamma rnd K x a b log_form)) E.size E.data
        (machine.dgamma_EigMat conv rnd K E a b log_form uninit).data) ∧
    (ElementwiseImage (fun x => conv (machine.dchisq rnd K x a log_form)) X.n_elem X.memptr
        (machine.dchisq_ArmaMat conv rnd K X a log_form uninit).memptr ∧
      ElementwiseImage (fun x => conv (machine.dchisq rnd K x a log_form)) G.eval.n_elem
        G.eval.memptr (machine.dchisq_ArmaGen conv rnd K G a log_form uninit).memptr ∧
      ElementwiseImage (fun x => conv (machine.dchisq rnd K x a log_form)) E.size E.data
        (machine.dchisq_EigMat conv rnd K E a log_form uninit).data) ∧
    (ElementwiseImage (fun x => conv (machine.dt rnd K x a log_form)) X.n_elem X.memptr
        (machine.dt_ArmaMat conv rnd K X a log_form uninit).memptr ∧
      ElementwiseImage (fun x => conv (machine.dt rnd K x a log_form)) G.eval.n_elem
        G.eval.memptr (machine.dt_ArmaGen conv rnd K G a log_form uninit).memptr ∧
      ElementwiseImage (fun x => conv (machine.dt rnd K x a log_form)) E.size E.data
        (machine.dt_EigMat conv rnd K E a log_form uninit).data) ∧
    (ElementwiseImage (fun x => conv (machine.dlnorm rnd K x a b log_form)) X.n_elem X.memptr
        (machine.dlnorm_ArmaMat conv rnd K X a b log_form uninit).memptr ∧
      ElementwiseImage (fun x => conv (machine.dlnorm rnd K x a b log_form)) G.eval.n_elem
        G.eval.memptr (machine.dlnorm_ArmaGen conv rnd K G a b log_form uninit).memptr ∧
      ElementwiseImage (fun x => conv (machine.dlnorm rnd K x a b log_form)) E.size E.data
        (machine.dlnorm_EigMat conv rnd K E a b log_form uninit).data) ∧
    (ElementwiseImage (fun x => conv (machine.pcauchy rnd K x a b log_form)) X.n_elem X.memptr
        (machine.pcauchy_ArmaMat conv rnd K X a b log_form uninit).memptr ∧
      ElementwiseImage (fun x => conv (machine.pcauchy rnd K x a b log_form)) G.eval.n_elem
        G.eval.memptr (machine.pcauchy_ArmaGen conv rnd K G a b log_form uninit).memptr ∧
      ElementwiseImage (fun x => conv (machine.pcauchy rnd K x a b log_form)) E.size E.data
        (machine.pcauchy_EigMat conv rnd K E a b log_form uninit).data) ∧
    (ElementwiseImage (fun x => conv (machine.pf rnd K x a b log_form)) X.n_elem X.memptr
        (machine.pf_ArmaMat conv rnd K X a b log_form uninit).memptr ∧
      ElementwiseImage (fun x => conv (machine.pf rnd K x a b log_form)) G.eval.n_elem
        G.eval.memptr (machine.pf_ArmaGen conv rnd K G a b log_form uninit).memptr ∧
      ElementwiseImage (fun x => conv (machine.pf rnd K x a b log_form)) E.size E.data
        (machine.pf_EigMat conv rnd K E a b log_form uninit).data) ∧
    (ElementwiseImage (fun x => conv (machine.qbern rnd x a)) X.n_elem X.memptr
        (machine.qbern_ArmaMat conv rnd X a uninit).memptr ∧
      ElementwiseImage (fun x => conv (machine.qbern rnd x a)) G.eval.n_elem
        G.eval.memptr (machine.qbern_ArmaGen conv rnd G a uninit).memptr ∧
      ElementwiseImage (fun x => conv (machine.qbern rnd x a)) E.size E.data
        (machine.qbern_EigMat conv rnd E a uninit).data) ∧
    (ElementwiseImage (fun x => conv (machine.qgamma rnd K x a b)) X.n_elem X.memptr
        (machine.qgamma_ArmaMat conv rnd K X a b uninit).memptr ∧
      ElementwiseImage (fun x => conv (machine.qgamma rnd K x a b)) G.eval.n_elem
        G.eval.memptr (machine.qgamma_ArmaGen conv rnd K G a b uninit).memptr ∧
      ElementwiseImage (fun x => conv (machine.qgamma rnd K x a b)) E.size E.data
        (machine.qgamma_EigMat conv rnd K E a b uninit).data) ∧
    (ElementwiseImage (fun x => conv (machine.qlogis rnd K x a b)) X.n_elem X.memptr
        (machine.qlogis_ArmaMat conv rnd K X a b uninit).memptr ∧
      ElementwiseImage (fun x => conv (machine.qlogis rnd K x a b)) G.eval.n_elem
        G.eval.memptr (machine.qlogis_ArmaGen conv rnd K G a b uninit).memptr ∧
      ElementwiseImage (fun x => conv (machine.qlogis rnd K x a b)) E.size E.data
        (machine.qlogis_EigMat conv rnd K E a b uninit).data) := by
  refine ⟨⟨?_, ?_, ?_⟩, ⟨?_, ?_, ?_⟩, ⟨?_, ?_, ?_⟩, ⟨?_, ?_, ?_⟩, ⟨?_, ?_, ?_⟩, ⟨?_, ?_, ?_⟩,
    ⟨?_, ?_, ?_⟩, ⟨?_, ?_, ?_⟩, ⟨?_, ?_, ?_⟩⟩ <;>
  intro i hi <;>
  simp [machine.dgamma_ArmaMat, machine.dgamma_ArmaGen, machine.dgamma_EigMat,
    machine.internal.dgamma_vec, machine.dchisq_ArmaMat, machine.dchisq_ArmaGen,
    machine.dchisq_EigMat, machine.internal.dchisq_vec, machine.dt_ArmaMat, machine.dt_ArmaGen,
    machine.dt_EigMat, machine.internal.dt_vec, machine.dlnorm_ArmaMat, machine.dlnorm_ArmaGen,
    machine.dlnorm_EigMat, machine.internal.dlnorm_vec, machine.pcauchy_ArmaMat,
    machine.pcauchy_ArmaGen, machine.pcauchy_EigMat, machine.internal.pcauchy_vec,
    machine.pf_ArmaMat, machine.pf_ArmaGen, machine.pf_EigMat, machine.internal.pf_vec,
    machine.qbern_ArmaMat, machine.qbern_ArmaGen, machine.qbern_EigMat, machine.internal.qbern_vec,
    machine.qgamma_ArmaMat, machine.qgamma_ArmaGen, machine.qgamma_EigMat,
    machine.internal.qgamma_vec, machine.qlogis_ArmaMat, machine.qlogis_ArmaGen,
    machine.qlogis_EigMat, machine.internal.qlogis_vec, EVAL_DIST_FN_VEC_apply, ArmaMat.n_elem,
    EigMat.size] at hi ⊢ <;>
  intro h <;>
  omega

/-- C18 with `Tc` the working type (`conv` the identity), in binary64 with the correctly
rounded kernel: a 3x4 Armadillo matrix at flat index 7, and a flattened 12x1 Eigen vector at
flat index 11. -/
theorem dense_overloads_elementwise_converted_witness :
    (machine.dgamma_ArmaMat id rnd64 f64Env (ArmaMat.mk 3 4 (fun i => fin (i : ℝ))) (fin 2)
        (fin 3) false (fun _ => nan)).memptr 7
      = machine.dgamma rnd64 f64Env (fin ((7 : ℕ) : ℝ)) (fin 2) (fin 3) false ∧
    (machine.qgamma_EigMat id rnd64 f64Env (EigMat.mk 12 1 (fun i => fin ((i : ℝ) / 12)))
        (fin 2) (fin 3) (fun _ => nan)).data 11
      = machine.qgamma rnd64 f64Env (fin (((11 : ℕ) : ℝ) / 12)) (fin 2) (fin 3) :=
  ⟨(dense_overloads_elementwise_converted id rnd64 f64Env
      (ArmaMat.mk 3 4 (fun i => fin (i : ℝ)))
      (ArmaGen.mk (ArmaMat.mk 3 4 (fun i => fin (i : ℝ))))
      (EigMat.mk 12 1 (fun i => fin ((i : ℝ) / 12))) (fin 2) (fin 3) false
      (fun _ => nan)).1.1 7 (by decide),
    (dense_overloads_elementwise_converted id rnd64 f64Env
      (ArmaMat.mk 3 4 (fun i => fin (i : ℝ)))
      (ArmaGen.mk (ArmaMat.mk 3 4 (fun i => fin (i : ℝ))))
      (EigMat.mk 12 1 (fun i => fin ((i : ℝ) / 12))) (fin 2) (fin 3) false
      (fun _ => nan)).2.2.2.2.2.2.2.1.2.2 11 (by decide)⟩

/-- C18, the counterexample: `dchisq(X, 2)` on a 1x1 Armadillo matrix of `double` holding 0,
with the parameter passed as an integer, so that `Tc = Tb` is an integral type.  The scalar
evaluator gives `dchisq(0, 2) = 0.5`; the output element is its conversion to the integral
type, 0. -/
theorem dchisq_ArmaMat_integral_counterexample :
    machine.dchisq rnd64 f64Env (fin 0) (fin 2) false = fin (1 / 2) ∧
    (machine.dchisq_ArmaMat to_integral rnd64 f64Env (ArmaMat.mk 1 1 (fun _ => fin 0)) (fin 2)
        false (fun _ => nan)).memptr 0 = fin 0 ∧
    (machine.dchisq_ArmaMat to_integral rnd64 f64Env (ArmaMat.mk 1 1 (fun _ => fin 0)) (fin 2)
        false (fun _ => nan)).memptr 0
      ≠ machine.dchisq rnd64 f64Env (fin 0) (fin 2) false := by
  have hs : machine.dchisq rnd64 f64Env (fin 0) (fin 2) false = fin (1 / 2) := by
    simp [machine.dchisq, machine.internal.dchisq_type_check,
      machine.internal.dchisq_vals_check, machine.internal.dchisq_limit_vals,
      chisq_sanity_check, gt, lt, feq, log_if]
  have hc : to_integral (fin (1 / 2 : ℝ)) = fin 0 := by
    have hf : ⌊(1 / 2 : ℝ)⌋ = 0 := by
      rw [Int.floor_eq_iff]; constructor <;> norm_num
    show fin (if (0 : ℝ) ≤ 1 / 2 then ((⌊(1 / 2 : ℝ)⌋ : ℤ) : ℝ) else ((⌈(1 / 2 : ℝ)⌉ : ℤ) : ℝ))
      = fin 0
    rw [if_pos (by norm_num), hf, Int.cast_zero]
  have he : (machine.dchisq_ArmaMat to_integral rnd64 f64Env (ArmaMat.mk 1 1 (fun _ => fin 0))
      (fin 2) false (fun _ => nan)).memptr 0 = fin 0 := by
    rw [machine_dchisq_ArmaMat_apply to_integral rnd64 f64Env _ _ _ _ 0 (by decide)]
    show to_integral (machine.dchisq rnd64 f64Env (fin 0) (fin 2) false) = fin 0
    rw [hs, hc]
  refine ⟨hs, he, ?_⟩
  rw [he, hs]
  intro h
  injection h with h
  norm_num at h

/-! ### C19, C20: the Blaze overloads with the bounds of the storage -/

/-- C19, where the code departs from it: the Blaze overloads hand `rows * spacing` to the
flat loop, and the storage of a column-major matrix holds `columns * spacing` elements.  For
a column-major 4x3 matrix, and for the empty column-major 3x0 matrix, with any padding `k` of
the columns, the loop reads and writes past the storage of the input and of the output:
the call has undefined behaviour and returns no container of the shape of its input.  The
same call on a row-major 4x3 matrix stays inside the storage and returns a 4x3 matrix, and
the Armadillo and Eigen overloads return a matrix of the shape of their input for every
shape. -/
theorem blaze_columnMajor_tall_overrun (conv : Val F → Val F) (rnd : F → Val F) (K : Env F)
    (X : ArmaMat F) (E : EigMat F)
    (a b : Val F) (log_form : Bool) (k : Nat) (data uninit : Nat → Val F) :
    machine.dchisq_BlazeMat conv rnd K (BlazeMat.sized true 4 3 (fun m => m + k) data) a
      log_form (fun m => m + k) uninit = none ∧
    machine.pf_BlazeMat conv rnd K (BlazeMat.sized true 4 3 (fun m => m + k) data) a b
      log_form (fun m => m + k) uninit = none ∧
    machine.pf_BlazeMat conv rnd K (BlazeMat.sized true 3 0 (fun m => m + k) data) a b
      log_form (fun m => m + k) uninit = none ∧
    (∃ out : BlazeMat F,
      machine.pf_BlazeMat conv rnd K (BlazeMat.sized false 4 3 (fun m => m + k) data) a b
        log_form (fun m => m + k) uninit = some out ∧
      BlazeMat.SameShape out (BlazeMat.sized false 4 3 (fun m => m + k) data)) ∧
    ArmaMat.SameShape (machine.dchisq_ArmaMat conv rnd K X a log_form uninit) X ∧
    ArmaMat.SameShape (machine.pf_ArmaMat conv rnd K X a b log_form uninit) X ∧
    EigMat.SameShape (machine.dchisq_EigMat conv rnd K E a log_form uninit) E ∧
    EigMat.SameShape (machine.pf_EigMat conv rnd K E a b log_form uninit) E := by
  refine ⟨?_, ?_, ?_, ?_, ?_, ?_, ?_, ?_⟩
  · have h : ¬ (4 * (4 + k) ≤ 3 * (4 + k)) := by omega
    simp [machine.dchisq_BlazeMat, BlazeMat.sized, BlazeMat.capacity, h]
  · have h : ¬ (4 * (4 + k) ≤ 3 * (4 + k)) := by omega
    simp [machine.pf_BlazeMat, BlazeMat.sized, BlazeMat.capacity, h]
  · simp [machine.pf_BlazeMat, BlazeMat.sized, BlazeMat.capacity]
  · simp [machine.pf_BlazeMat, BlazeMat.sized, BlazeMat.capacity, BlazeMat.SameShape]
  · simp [machine.dchisq_ArmaMat, ArmaMat.SameShape, ArmaMat.n_elem]
  · simp [machine.pf_ArmaMat, ArmaMat.SameShape, ArmaMat.n_elem]
  · simp [machine.dchisq_EigMat, EigMat.SameShape, EigMat.size]
  · simp [machine.pf_EigMat, EigMat.SameShape, EigMat.size]

/-- C20, where the code departs from it: with the invalid shape -1 (scale 1), on a
column-major 3x4 Blaze matrix with any padding `k` of the columns, the loop stays inside the
storage and writes the converted NaN at the offsets below `rows * spacing`, which hold the
columns 0 to 2; the element (0, 3) of the output, at offset `3 * spacing`, is not written
and keeps the content of the fresh storage, whatever it is. -/
theorem blaze_columnMajor_invalid_parameters_gap (conv : Val F → Val F) (rnd : F → Val F)
    (K : Env F) (log_form : Bool) (k : Nat) (data uninit : Nat → Val F) :
    gamma_sanity_check (fin (-1 : F)) (fin 1) = false ∧
    (∃ out : BlazeMat F,
      machine.dgamma_BlazeMat conv rnd K (BlazeMat.sized true 3 4 (fun m => m + k) data)
        (fin (-1)) (fin 1) log_form (fun m => m + k) uninit = some out ∧
      BlazeMat.elem out 0 0 = conv nan ∧
      BlazeMat.elem out 2 2 = conv nan ∧
      BlazeMat.elem out 0 3 = uninit (3 * (3 + k))) := by
  have hv : gamma_sanity_check (fin (-1 : F)) (fin 1) = false := by
    simp [gamma_sanity_check, ge, le, lt, feq]
  have hn : ∀ x : Val F, machine.dgamma rnd K x (fin (-1)) (fin 1) log_form = nan := by
    intro x
    simp [machine.dgamma, machine.internal.dgamma_type_check,
      machine.internal.dgamma_vals_check, hv]
  have h1 : 3 * (3 + k) ≤ 4 * (3 + k) := by omega
  have h2 : 2 + 2 * (3 + k) < 3 * (3 + k) := by omega
  have h3 : 0 < 3 * (3 + k) := by omega
  refine ⟨hv, BlazeMat.mk true 3 4 (3 + k)
    (EVAL_DIST_FN_VEC (fun _ => conv nan) uninit uninit (3 * (3 + k))), ?_, ?_, ?_, ?_⟩
  · simp [machine.dgamma_BlazeMat, BlazeMat.sized, BlazeMat.capacity,
      machine.internal.dgamma_vec, hn, h1]
    funext i
    simp [EVAL_DIST_FN_VEC_apply]
  · simp [BlazeMat.elem, EVAL_DIST_FN_VEC_apply, h3]
  · simp [BlazeMat.elem, EVAL_DIST_FN_VEC_apply, h2]
  · simp [BlazeMat.elem, EVAL_DIST_FN_VEC_apply]

end stats
